import Mathlib

/-! SecurePass: credential table and persistence format.

A shallow embedding of the C++ sources `Credential.cpp`, `HashTable.cpp` and
`sha256.cpp`, followed by theorems about the embedded functions.

Conventions of the embedding.

* A `std::string` is a list of bytes, each byte a natural number (`Str`).
  Where the source converts a `char` to an unsigned or signed integer the
  embedding reduces the value modulo 256 explicitly.
* `int` and `long long` values of the table (`count`, `capacity`, the hash
  value) are unbounded integers.  The embedding agrees with the source as
  long as no `int` overflows, that is for capacities below `2^30` (the source
  computes `2 * capacity` in `int`).  The functions `isPrime` and `nextPrime`
  are given twice: on unbounded integers, as `insert` uses them, and on
  32-bit `int` with wrap-around (`isPrimeInt32`, `nextPrimeInt32`); the two
  agree wherever no product or increment of the source overflows.
* The `float` comparison of `insert` is evaluated in binary32 with
  round-to-nearest, ties to even (`overLoadFactor`).
* A bucket chain (singly linked list of `HashNode`) is a `List Credential`,
  head first; the bucket vector is a list of chains.
* `search` returns a pointer to the stored entry; the embedding returns the
  entry found.
* A file is its byte content; `none` stands for a file that cannot be opened.
-/

namespace SecurePass

/-- A `std::string`: a sequence of bytes. -/
abbrev Str := List Nat

/-! ## Credential.cpp -/

/-- The class `Credential` of `Credential.h`. -/
structure Credential where
  site : Str
  username : Str
  password : Str
deriving DecidableEq, Repr

/-- The double-quote character. -/
def QUOTE : Nat := 34

/-- The comma character. -/
def COMMA : Nat := 44

/-- The newline character. -/
def NEWLINE : Nat := 10

/-- `Credential::toCSV`: the three fields, each wrapped in double quotes,
separated by commas. -/
def Credential.toCSV (c : Credential) : Str :=
  [QUOTE] ++ c.site ++ [QUOTE, COMMA, QUOTE] ++ c.username ++ [QUOTE, COMMA, QUOTE]
    ++ c.password ++ [QUOTE]

/-- The local variables of the loop of `Credential::fromCSV`. -/
structure CsvState where
  s : Str
  u : Str
  p : Str
  temp : Str
  state : Nat
  insideQuotes : Bool
deriving DecidableEq, Repr

/-- One iteration of the `for (char c : line)` loop of `Credential::fromCSV`. -/
def csvStep (st : CsvState) (c : Nat) : CsvState :=
  if c = QUOTE then
    if st.insideQuotes then
      { s := if st.state = 0 then st.temp else st.s
        u := if st.state = 0 then st.u else if st.state = 1 then st.temp else st.u
        p := if st.state = 0 then st.p else if st.state = 1 then st.p
             else if st.state = 2 then st.temp else st.p
        temp := []
        state := st.state + 1
        insideQuotes := false }
    else
      { st with insideQuotes := true }
  else if st.insideQuotes then
    { st with temp := st.temp ++ [c] }
  else
    st

/-- The state of `Credential::fromCSV` before the loop. -/
def csvInit : CsvState :=
  { s := [], u := [], p := [], temp := [], state := 0, insideQuotes := false }

/-- `Credential::fromCSV`. -/
def Credential.fromCSV (line : Str) : Credential :=
  let st := line.foldl csvStep csvInit
  { site := st.s, username := st.u, password := st.p }

/-! ## sha256.cpp -/

/-- `rotr` on 32-bit words. -/
def rotr (x n : Nat) : Nat := ((x >>> n) ||| (x <<< (32 - n))) % 2 ^ 32

/-- The round constants `K[64]`, four to a row. -/
def K : List Nat :=
  [0x428a2f98, 0x71374491, 0xb5c0fbcf, 0xe9b5dba5] ++
  [0x3956c25b, 0x59f111f1, 0x923f82a4, 0xab1c5ed5] ++
  [0xd807aa98, 0x12835b01, 0x243185be, 0x550c7dc3] ++
  [0x72be5d74, 0x80deb1fe, 0x9bdc06a7, 0xc19bf174] ++
  [0xe49b69c1, 0xefbe4786, 0x0fc19dc6, 0x240ca1cc] ++
  [0x2de92c6f, 0x4a7484aa, 0x5cb0a9dc, 0x76f988da] ++
  [0x983e5152, 0xa831c66d, 0xb00327c8, 0xbf597fc7] ++
  [0xc6e00bf3, 0xd5a79147, 0x06ca6351, 0x14292967] ++
  [0x27b70a85, 0x2e1b2138, 0x4d2c6dfc, 0x53380d13] ++
  [0x650a7354, 0x766a0abb, 0x81c2c92e, 0x92722c85] ++
  [0xa2bfe8a1, 0xa81a664b, 0xc24b8b70, 0xc76c51a3] ++
  [0xd192e819, 0xd6990624, 0xf40e3585, 0x106aa070] ++
  [0x19a4c116, 0x1e376c08, 0x2748774c, 0x34b0bcb5] ++
  [0x391c0cb3, 0x4ed8aa4a, 0x5b9cca4f, 0x682e6ff3] ++
  [0x748f82ee, 0x78a5636f, 0x84c87814, 0x8cc70208] ++
  [0x90befffa, 0xa4506ceb, 0xbef9a3f7, 0xc67178f2]

/-- First loop of `process_block`: the big-endian 32-bit words of the block
bytes, four bytes per word. -/
def loadWords : Str → List Nat
  | b0 :: b1 :: b2 :: b3 :: rest =>
      (((b0 % 256) <<< 24) ||| ((b1 % 256) <<< 16) ||| ((b2 % 256) <<< 8) ||| (b3 % 256))
        :: loadWords rest
  | _ => []

/-- Second loop of `process_block`: `n` more message-schedule words are
appended to `W`, the word at index `t = W.length` being computed from the
words at `t-16`, `t-15`, `t-7` and `t-2`. -/
def extendW : Nat → List Nat → List Nat
  | 0, W => W
  | n + 1, W =>
      let t := W.length
      let w15 := W.getD (t - 15) 0
      let w2 := W.getD (t - 2) 0
      let s0 := rotr w15 7 ^^^ rotr w15 18 ^^^ (w15 >>> 3)
      let s1 := rotr w2 17 ^^^ rotr w2 19 ^^^ (w2 >>> 10)
      extendW n (W ++ [(W.getD (t - 16) 0 + s0 + W.getD (t - 7) 0 + s1) % 2 ^ 32])

/-- The eight working variables `a..h` of `process_block`, also used for the
chaining value `H[8]`. -/
structure Regs where
  a : Nat
  b : Nat
  c : Nat
  d : Nat
  e : Nat
  f : Nat
  g : Nat
  h : Nat
deriving DecidableEq, Repr

/-- One iteration of the compression loop of `process_block`; `kw` is the pair
`(K[t], W[t])`.  The complement `~e` of a 32-bit word is `2^32 - 1 - e`. -/
def shaRound (r : Regs) (kw : Nat × Nat) : Regs :=
  let S1 := rotr r.e 6 ^^^ rotr r.e 11 ^^^ rotr r.e 25
  let ch := (r.e &&& r.f) ^^^ ((2 ^ 32 - 1 - r.e) &&& r.g)
  let temp1 := (r.h + S1 + ch + kw.1 + kw.2) % 2 ^ 32
  let S0 := rotr r.a 2 ^^^ rotr r.a 13 ^^^ rotr r.a 22
  let maj := (r.a &&& r.b) ^^^ (r.a &&& r.c) ^^^ (r.b &&& r.c)
  let temp2 := (S0 + maj) % 2 ^ 32
  { a := (temp1 + temp2) % 2 ^ 32, b := r.a, c := r.b, d := r.c,
    e := (r.d + temp1) % 2 ^ 32, f := r.e, g := r.f, h := r.g }

/-- `process_block`: the schedule of the first 64 bytes of `block`, the 64
rounds, and the addition of the result to the chaining value. -/
def process_block (block : Str) (H : Regs) : Regs :=
  let W := extendW 48 (loadWords (block.take 64))
  let r := (K.zip W).foldl shaRound H
  { a := (H.a + r.a) % 2 ^ 32, b := (H.b + r.b) % 2 ^ 32, c := (H.c + r.c) % 2 ^ 32,
    d := (H.d + r.d) % 2 ^ 32, e := (H.e + r.e) % 2 ^ 32, f := (H.f + r.f) % 2 ^ 32,
    g := (H.g + r.g) % 2 ^ 32, h := (H.h + r.h) % 2 ^ 32 }

/-- The initial hash values of `sha256_raw`. -/
def H0 : Regs :=
  { a := 0x6a09e667, b := 0xbb67ae85, c := 0x3c6ef372, d := 0xa54ff53a,
    e := 0x510e527f, f := 0x9b05688c, g := 0x1f83d9ab, h := 0x5be0cd19 }

/-- The padding of `sha256_raw`: the byte `0x80`, zero bytes until the length
is 56 modulo 64 (the `while` loop of the source pushes exactly
`(56 - length) mod 64` of them), then the 64-bit big-endian bit length. -/
def padMsg (data : Str) : Str :=
  let bitlen := (data.length * 8) % 2 ^ 64
  let msg := data ++ [0x80]
  let msg := msg ++ List.replicate ((56 + 64 - msg.length % 64) % 64) 0
  msg ++ (List.range 8).map (fun j => (bitlen >>> ((7 - j) * 8)) % 256)

/-- The block loop of `sha256_raw`: `n` consecutive 64-byte blocks. -/
def processBlocks : Nat → Str → Regs → Regs
  | 0, _, H => H
  | n + 1, msg, H => processBlocks n (msg.drop 64) (process_block msg H)

/-- The four big-endian bytes of a 32-bit word. -/
def wordBytes (w : Nat) : Str :=
  [(w >>> 24) % 256, (w >>> 16) % 256, (w >>> 8) % 256, w % 256]

/-- `sha256_raw`: the 32-byte digest. -/
def sha256_raw (data : Str) : Str :=
  let msg := padMsg data
  let H := processBlocks (msg.length / 64) msg H0
  wordBytes H.a ++ wordBytes H.b ++ wordBytes H.c ++ wordBytes H.d ++
    wordBytes H.e ++ wordBytes H.f ++ wordBytes H.g ++ wordBytes H.h

/-! ## HashTable.cpp: the table -/

/-- The class `HashTable`: the bucket vector, `capacity` and `count`.  The
field `loadFactorThreshold` is the constant `0.75f` and is not stored. -/
structure HashTable where
  table : List (List Credential)
  capacity : Nat
  count : Int
deriving DecidableEq, Repr

/-- The constructor `HashTable(int cap)`. -/
def HashTable.new (cap : Nat) : HashTable :=
  { table := List.replicate cap [], capacity := cap, count := 0 }

/-- The chain `table[i]`. -/
def HashTable.bucket (t : HashTable) (i : Nat) : List Credential :=
  t.table.getD i []

/-- All stored entries, bucket by bucket and head first inside a chain: the
enumeration order of `save` and of `rehash`. -/
def HashTable.entries (t : HashTable) : List Credential :=
  t.table.flatten

/-- The value `c - 'a' + 1` of the hash loop, `c` being a (signed) `char`. -/
def charTerm (c : Nat) : Int :=
  (if c % 256 < 128 then ((c % 256 : Nat) : Int) else ((c % 256 : Nat) : Int) - 256) - 97 + 1

/-- The loop of `HashTable::hash` on the pair `(hashValue, power)`; `%` of
the source truncates towards zero. -/
def hashLoop : Str → Int → Int → Int
  | [], hashValue, _ => hashValue
  | c :: cs, hashValue, power =>
      hashLoop cs (Int.tmod (hashValue + charTerm c * power) 1000000009)
        (Int.tmod (power * 31) 1000000009)

/-- `HashTable::hash`. -/
def HashTable.hash (t : HashTable) (key : Str) : Nat :=
  (Int.tmod (Int.tmod (hashLoop key 0 1) t.capacity + t.capacity) t.capacity).toNat

/-- The loop `for (int i = 2; i * i <= n; i++)` of `HashTable::isPrime` on
unbounded integers, with a bound on the number of iterations
(`isPrimeLoopInt32` is the loop on 32-bit `int`). -/
def isPrimeLoop : Nat → Nat → Nat → Bool
  | 0, _, _ => true
  | fuel + 1, i, n =>
      if i * i ≤ n then
        if n % i = 0 then false else isPrimeLoop fuel (i + 1) n
      else true

/-- `HashTable::isPrime` on unbounded integers.  The loop runs fewer than `n`
times.  It is `isPrimeInt32` below `46340^2` (`isPrimeInt32_eq`). -/
def isPrime (n : Int) : Bool :=
  if n ≤ 1 then false else isPrimeLoop n.toNat 2 n.toNat

/-- The loop of `HashTable::nextPrime` on unbounded integers, with a bound on
the number of iterations. -/
def nextPrimeLoop : Nat → Int → Int
  | 0, n => n
  | fuel + 1, n => if isPrime n then n else nextPrimeLoop fuel (n + 1)

/-- `HashTable::nextPrime` on unbounded integers.  A prime is reached after at
most `|n| + 2` increments.  It is `nextPrimeInt32` when a prime from `n` on
lies below `46340^2` (`nextPrimeInt32_eq`). -/
def nextPrime (n : Int) : Int :=
  nextPrimeLoop (n.natAbs + 3) n

/-- The duplicate scan of `HashTable::insert`: the first node of the chain
with the site and username of `cred` gets the password of `cred`; `none` when
the scan reaches the end of the chain. -/
def insertChain : List Credential → Credential → Option (List Credential)
  | [], _ => none
  | n :: rest, cred =>
      if n.site = cred.site ∧ n.username = cred.username then
        some ({ n with password := cred.password } :: rest)
      else
        (insertChain rest cred).map (fun r => n :: r)

/-- The body of `HashTable::rehash` for a given insertion routine: a fresh
table of `newCapacity` empty buckets with `count = 0`, into which every entry
of the old table is inserted, bucket by bucket and head first. -/
def rehashWith (ins : HashTable → Credential → Option HashTable) (t : HashTable)
    (newCapacity : Nat) : Option HashTable :=
  t.entries.foldlM ins
    { table := List.replicate newCapacity [], capacity := newCapacity, count := 0 }

/-- The quotient `p / q` rounded to the nearest integer, a tie to the even
neighbour (`q` positive). -/
def roundHalfEven (p q : Nat) : Nat :=
  if 2 * (p % q) < q then p / q
  else if q < 2 * (p % q) then p / q + 1
  else if (p / q) % 2 = 0 then p / q else p / q + 1

/-- The spacing of the binary32 values around `n`: the power of two `u` with
`2^23 * u <= n < 2^24 * u`, and 1 below `2^24`.  The search starts at `u` and
doubles it; `fuel` bounds the number of doublings. -/
def ulpLoop : Nat → Nat → Nat → Nat
  | 0, u, _ => u
  | fuel + 1, u, n => if n < 2 ^ 24 * u then u else ulpLoop fuel (2 * u) n

/-- The conversion `static_cast<float>(n)` of a non-negative `int`: the
binary32 value nearest to `n`, which is again an integer.  Below `2^24` it is
`n`; from there on `n` is rounded to 24 significant bits, a tie to the even
significand.  An `int` is far below the largest binary32 value. -/
def f32OfNat (n : Nat) : Nat :=
  roundHalfEven n (ulpLoop n 1 n) * ulpLoop n 1 n

/-- The comparison `a / b > 0.75f` for two positive binary32 values `a` and
`b` that are integers: the division is rounded to binary32 and the result
compared with `0.75f = 3 * 2^22 / 2^24`.  A quotient of at least 1 rounds to
at least 1, a quotient below 1/2 rounds to at most 1/2, and between 1/2 and 1
the binary32 values are the multiples of `2^-24`. -/
def f32DivGt075 (a b : Nat) : Bool :=
  if b ≤ a then true
  else if 2 * a < b then false
  else decide (3 * 2 ^ 22 < roundHalfEven (a * 2 ^ 24) b)

/-- The resize test `static_cast<float>(count) / capacity > loadFactorThreshold`
of `HashTable::insert`, with `loadFactorThreshold = 0.75f`: both operands are
converted to binary32, the quotient is rounded to binary32 and compared with
`0.75f`.  A quotient that is not positive does not exceed the threshold, and a
positive `count` over capacity 0 gives infinity. -/
def overLoadFactor (count : Int) (capacity : Nat) : Bool :=
  if count ≤ 0 then false
  else if capacity = 0 then true
  else f32DivGt075 (f32OfNat count.toNat) (f32OfNat capacity)

/-- `HashTable::insert`, with a bound `fuel` on the nesting depth of the
resizes it triggers (`insert` calls `rehash`, which calls `insert`).  The
resize test is the binary32 comparison `overLoadFactor`; the new capacity
`nextPrime(2 * capacity)` is computed on unbounded integers. -/
def insertF : Nat → HashTable → Credential → Option HashTable
  | 0, _, _ => none
  | fuel + 1, t, cred =>
      let index := t.hash cred.site
      match insertChain (t.bucket index) cred with
      | some chain => some { t with table := t.table.set index chain }
      | none =>
          let t1 : HashTable :=
            { t with table := t.table.set index (cred :: t.bucket index), count := t.count + 1 }
          if overLoadFactor t1.count t1.capacity then
            rehashWith (insertF fuel) t1 (nextPrime (2 * (t1.capacity : Int))).toNat
          else
            some t1

/-- `HashTable::insert`.  The nesting bound is the number of stored entries
plus two, which is never reached on a table that satisfies the invariant
(`insert_spec`). -/
def HashTable.insert (t : HashTable) (cred : Credential) : HashTable :=
  (insertF (t.entries.length + 2) t cred).getD t

/-- `HashTable::rehash`, its insertions bounded as in `HashTable.insert`
(`rehash_spec`). -/
def HashTable.rehash (t : HashTable) (newCapacity : Nat) : HashTable :=
  (rehashWith (insertF (t.entries.length + 2)) t newCapacity).getD t

/-- The loop of `HashTable::search` on one chain. -/
def searchChain : List Credential → Str → Str → Option Credential
  | [], _, _ => none
  | n :: rest, site, username =>
      if n.site = site then
        if username = [] ∨ n.username = username then some n
        else searchChain rest site username
      else searchChain rest site username

/-- `HashTable::search`. -/
def HashTable.search (t : HashTable) (site : Str) (username : Str := []) : Option Credential :=
  searchChain (t.bucket (t.hash site)) site username

/-- The effect of `HashTable::update` on one chain: the node that `search`
returns gets the new password; `none` when `search` returns `nullptr`. -/
def updateChain : List Credential → Str → Str → Str → Option (List Credential)
  | [], _, _, _ => none
  | n :: rest, site, username, newPassword =>
      if n.site = site then
        if username = [] ∨ n.username = username then
          some ({ n with password := newPassword } :: rest)
        else (updateChain rest site username newPassword).map (fun r => n :: r)
      else (updateChain rest site username newPassword).map (fun r => n :: r)

/-- `HashTable::update`: the returned flag and the table afterwards. -/
def HashTable.update (t : HashTable) (site username newPassword : Str) : Bool × HashTable :=
  match updateChain (t.bucket (t.hash site)) site username newPassword with
  | some chain => (true, { t with table := t.table.set (t.hash site) chain })
  | none => (false, t)

/-- The loop of `HashTable::remove` on one chain: the first node with the
exact pair is unlinked; `none` when there is none. -/
def removeChain : List Credential → Str → Str → Option (List Credential)
  | [], _, _ => none
  | n :: rest, site, username =>
      if n.site = site ∧ n.username = username then some rest
      else (removeChain rest site username).map (fun r => n :: r)

/-- `HashTable::remove`: the returned flag and the table afterwards. -/
def HashTable.remove (t : HashTable) (site username : Str) : Bool × HashTable :=
  match removeChain (t.bucket (t.hash site)) site username with
  | some chain =>
      (true, { t with table := t.table.set (t.hash site) chain, count := t.count - 1 })
  | none => (false, t)

/-- `HashTable::clear`: every bucket becomes empty, `count` becomes zero,
`capacity` is kept. -/
def HashTable.clear (t : HashTable) : HashTable :=
  { t with table := t.table.map (fun _ => []), count := 0 }

/-! ## HashTable.cpp: persistence -/

/-- The loop of `HashTable::xorCipher` from index `i` on. -/
def xorLoop (key : Str) : Nat → Str → Str
  | _, [] => []
  | i, d :: ds => (d ^^^ key.getD (i % key.length) 0) :: xorLoop key (i + 1) ds

/-- `HashTable::xorCipher`: the data unchanged for an empty key, else each
byte xored with the key byte at the same index modulo the key length. -/
def xorCipher (data key : Str) : Str :=
  if key = [] then data else xorLoop key 0 data

/-- The embedded `computeHMAC_SHA256` (the branch without OpenSSL): a key
longer than 64 bytes is replaced by its digest, a key shorter than 64 bytes is
padded with zero bytes, and the two pads are the first 64 key bytes xored with
`0x5c` and `0x36`. -/
def computeHMAC_SHA256 (data key : Str) : Str :=
  let k := if key.length > 64 then sha256_raw key else key
  let k := if k.length < 64 then k ++ List.replicate (64 - k.length) 0 else k
  let o_key_pad := (k.take 64).map (fun b => (b % 256) ^^^ 0x5c)
  let i_key_pad := (k.take 64).map (fun b => (b % 256) ^^^ 0x36)
  let inner_hash := sha256_raw (i_key_pad ++ data)
  sha256_raw (o_key_pad ++ inner_hash)

/-- The bytes of `FILE_MAGIC`, the text SPASSv01. -/
def FILE_MAGIC : Str := [83, 80, 65, 83, 83, 118, 48, 49]

/-- The constant `FILE_MAGIC_SIZE`. -/
def FILE_MAGIC_SIZE : Nat := 8

/-- The constant `HMAC_SIZE`. -/
def HMAC_SIZE : Nat := 32

/-- The serialisation loop of `HashTable::save`: for every entry, bucket by
bucket and head first, its CSV line followed by a newline. -/
def saveBuffer (t : HashTable) : Str :=
  (t.entries.map (fun c => c.toCSV ++ [NEWLINE])).flatten

/-- `HashTable::save`, as the bytes written to the file when every file
operation succeeds; `none` is the early `return false` on a tag of the wrong
size. -/
def HashTable.save (t : HashTable) (key : Str) : Option Str :=
  let encryptedData := xorCipher (saveBuffer t) key
  let hmac := computeHMAC_SHA256 encryptedData key
  if hmac.length ≠ HMAC_SIZE then none
  else some (FILE_MAGIC ++ hmac ++ encryptedData)

/-- The lines that `while (std::getline(ss, line))` yields: `cur` holds the
characters of the current line.  A line ends at a newline, which is dropped;
the characters after the last newline are a line when there are any. -/
def getlinesAux : Str → Str → List Str
  | [], cur => if cur = [] then [] else [cur]
  | c :: cs, cur => if c = NEWLINE then cur :: getlinesAux cs [] else getlinesAux cs (cur ++ [c])

/-- The lines read by the `std::getline` loop of `HashTable::load`. -/
def getlines (data : Str) : List Str :=
  getlinesAux data []

/-- The parse loop of `HashTable::load`: every line longer than 5 characters
is decoded and inserted. -/
def loadLines (t : HashTable) (lines : List Str) : HashTable :=
  lines.foldl (fun acc line => if line.length > 5 then acc.insert (Credential.fromCSV line) else acc) t

/-- `HashTable::load` on the content of the file (`none`: the file cannot be
opened): the returned flag and the table afterwards. -/
def HashTable.load (t : HashTable) (file : Option Str) (key : Str) : Bool × HashTable :=
  let t0 := t.clear
  match file with
  | none => (false, t0)
  | some content =>
      if content.length = 0 then (true, t0)
      else if content.length < FILE_MAGIC_SIZE + HMAC_SIZE then (false, t0)
      else
        let magicBuf := content.take FILE_MAGIC_SIZE
        if magicBuf ≠ FILE_MAGIC then (false, t0)
        else
          let fileHmac := (content.drop FILE_MAGIC_SIZE).take HMAC_SIZE
          let encryptedData := content.drop (FILE_MAGIC_SIZE + HMAC_SIZE)
          let calcHmac := computeHMAC_SHA256 encryptedData key
          if calcHmac.length ≠ fileHmac.length ∨ calcHmac ≠ fileHmac then (false, t0)
          else
            let decryptedData := xorCipher encryptedData key
            (true, loadLines t0 (getlines decryptedData))

/-! ## Reachable tables -/

/-- The tables that the public interface produces: the constructor with a
capacity of at least one, followed by any sequence of `insert`, `update`,
`remove`, `rehash` (to a capacity of at least one), `clear` and `load`. -/
inductive Reachable : HashTable → Prop
  | ctor (cap : Nat) (h : 1 ≤ cap) : Reachable (HashTable.new cap)
  | insert {t : HashTable} (cred : Credential) : Reachable t → Reachable (t.insert cred)
  | update {t : HashTable} (site username newPassword : Str) :
      Reachable t → Reachable (t.update site username newPassword).2
  | remove {t : HashTable} (site username : Str) : Reachable t → Reachable (t.remove site username).2
  | rehash {t : HashTable} (newCapacity : Nat) (h : 1 ≤ newCapacity) :
      Reachable t → Reachable (t.rehash newCapacity)
  | clear {t : HashTable} : Reachable t → Reachable t.clear
  | load {t : HashTable} (file : Option Str) (key : Str) : Reachable t → Reachable (t.load file key).2

/-! ## Specification vocabulary -/

/-- The identity key of an entry: the pair `(site, username)`. -/
def Credential.key (c : Credential) : Str × Str := (c.site, c.username)

/-- The effect of one `insert` on the collection of stored entries: the
entries with the key of `c` are dropped and `c` is added. -/
def insEntries (E : List Credential) (c : Credential) : List Credential :=
  c :: E.filter (fun e => decide (e.key ≠ c.key))

/-- The test of the loop of `search` on a node. -/
def searchMatch (site username : Str) (e : Credential) : Prop :=
  e.site = site ∧ (username = [] ∨ e.username = username)

/-- The representation invariant of the table: the bucket vector has
`capacity` slots, `capacity` is at least one, every entry sits in the bucket
that `hash` assigns to its site, no two entries have the same key, and `count`
is the number of entries. -/
structure Inv (t : HashTable) : Prop where
  size : t.table.length = t.capacity
  pos : 1 ≤ t.capacity
  placed : ∀ i, ∀ e ∈ t.bucket i, t.hash e.site = i
  uniq : (t.entries.map Credential.key).Nodup
  count : t.count = (t.entries.length : Int)

/-! ## Concrete credentials and tables -/

/-- The credential `("a.com", "alice", "p1")` of `test_hash.cpp`. -/
def credAlice : Credential := ⟨[97, 46, 99, 111, 109], [97, 108, 105, 99, 101], [112, 49]⟩

/-- The credential `("b.com", "bob", "p2")` of `test_hash.cpp`. -/
def credBob : Credential := ⟨[98, 46, 99, 111, 109], [98, 111, 98], [112, 50]⟩

/-- The credential `("a.com", "alice", "newpass")`. -/
def credAlice2 : Credential :=
  ⟨[97, 46, 99, 111, 109], [97, 108, 105, 99, 101], [110, 101, 119, 112, 97, 115, 115]⟩

/-- The credential `("a.com", "", "p0")`, with an empty username. -/
def credAnon : Credential := ⟨[97, 46, 99, 111, 109], [], [112, 48]⟩

/-- The table `HashTable ht(11)` after `insert(("a.com", "", "p0"))` and
`insert(("a.com", "alice", "p1"))`. -/
def tableAnonAlice : HashTable := ((HashTable.new 11).insert credAnon).insert credAlice

/-- The table `HashTable ht(11)` after the two inserts of `test_hash.cpp`. -/
def tableAliceBob : HashTable := ((HashTable.new 11).insert credAlice).insert credBob

/-- The key `"testkey"` of `test_hash.cpp`. -/
def keyTest : Str := [116, 101, 115, 116, 107, 101, 121]

/-- The key `"wrongkey"` of `test_hash.cpp`. -/
def keyWrong : Str := [119, 114, 111, 110, 103, 107, 101, 121]

/-- The credential with site `a`, newline, `b`, username `u` and password `p`. -/
def credNewline : Credential := ⟨[97, 10, 98], [117], [112]⟩

/-- The ASCII code of the lower-case hexadecimal digit `d` (`d < 16`). -/
def hexDigit (d : Nat) : Nat := if d < 10 then 48 + d else 87 + d

/-- `sha256_hex`: every digest byte as two lower-case hexadecimal digits. -/
def sha256_hex (data : Str) : Str :=
  ((sha256_raw data).map (fun c => [hexDigit ((c % 256) / 16), hexDigit ((c % 256) % 16)])).flatten

/-- The bytes of a text of ASCII characters. -/
def ascii (s : String) : Str := s.toList.map Char.toNat

/-- The value `idx` of `HashTable::hash` before the cast to `int`. -/
def HashTable.hashInt (t : HashTable) (key : Str) : Int :=
  Int.tmod (Int.tmod (hashLoop key 0 1) t.capacity + t.capacity) t.capacity

/-- The load-factor bound `count / capacity <= 0.75`, in integers, for a
table whose capacity is at most `2^23`. -/
def LoadOk (t : HashTable) : Prop :=
  t.capacity ≤ 2 ^ 23 → 4 * t.count ≤ 3 * (t.capacity : Int)

/-- The table `HashTable ht(1)` after the inserts of `("a.com", "alice", "p1")`,
`("b.com", "bob", "p2")` and `("a.com", "", "p0")`; its capacity is 5. -/
def tableThree : HashTable :=
  (((HashTable.new 1).insert credAlice).insert credBob).insert credAnon

/-- The entry `e` with its password replaced when it has the pair
`(site, username)`, and `e` itself otherwise. -/
def setPassword (site username newPassword : Str) (e : Credential) : Credential :=
  if e.site = site ∧ e.username = username then { e with password := newPassword } else e

/-- The credential `("a.com", "carol", "p3")`. -/
def credCarol : Credential := ⟨[97, 46, 99, 111, 109], [99, 97, 114, 111, 108], [112, 51]⟩

/-- The table `HashTable ht(2)` after `insert(("a.com", "alice", "p1"))` and
then `insert(("a.com", "carol", "p3"))`; the second insert resizes the table
to capacity 5. -/
def tableResized : HashTable := ((HashTable.new 2).insert credAlice).insert credCarol

/-- The credential with the one-letter site `s`, username `u` and password `p`. -/
def credOf (s : Nat) : Credential := ⟨[s], [117], [112]⟩

/-- The table `HashTable ht(11)` after the inserts of `("b.com", "bob", "p2")`
and of seven credentials with the one-letter sites `b` to `h`. -/
def tableEight : HashTable :=
  [credBob, credOf 98, credOf 99, credOf 100, credOf 101, credOf 102, credOf 103,
    credOf 104].foldl HashTable.insert (HashTable.new 11)

/-! ## The record codec, as the specification words it -/

/-- The pieces into which the double quotes cut a line: the text before the
first quote, between the first and the second, and so on; a line with `n`
quotes has `n + 1` pieces. -/
def quoteSegments : Str → List Str
  | [] => [[]]
  | c :: cs =>
      if c = QUOTE then [] :: quoteSegments cs
      else
        match quoteSegments cs with
        | s :: rest => (c :: s) :: rest
        | [] => [[c]]

/-- The text between the two quotes of pair number `k` (counted from zero:
quotes `2k+1` and `2k+2` of the line), and the empty string when the line has
fewer than `2k+2` quotes. -/
def pairText (line : Str) (k : Nat) : Str :=
  if 2 * k + 2 < (quoteSegments line).length then (quoteSegments line).getD (2 * k + 1) []
  else []

/-- The decoding of a line as the specification words it: the texts of the
first three complete pairs of quotes. -/
def fromCSV_spec (line : Str) : Credential :=
  { site := pairText line 0, username := pairText line 1, password := pairText line 2 }

/-- The state of `Credential::fromCSV` at a closing quote, after the quote. -/
def csvClose (st : CsvState) : CsvState :=
  { s := if st.state = 0 then st.temp else st.s
    u := if st.state = 0 then st.u else if st.state = 1 then st.temp else st.u
    p := if st.state = 0 then st.p else if st.state = 1 then st.p
         else if st.state = 2 then st.temp else st.p
    temp := []
    state := st.state + 1
    insideQuotes := false }

/-- The loop of `Credential::fromCSV` run piece by piece instead of character
by character (an auxiliary of the proofs). -/
def runSegs : List Str → CsvState → CsvState
  | [], st => st
  | [seg], st => if st.insideQuotes then { st with temp := st.temp ++ seg } else st
  | seg :: next :: rest, st =>
      if st.insideQuotes then runSegs (next :: rest) (csvClose { st with temp := st.temp ++ seg })
      else runSegs (next :: rest) { st with insideQuotes := true }

/-! ## `isPrime` and `nextPrime` on 32-bit `int` -/

/-- The value that a 32-bit `int` takes when the exact result of an
arithmetic operation is `x`: the result wraps around (two's complement). -/
def wrapInt32 (x : Int) : Int :=
  (x + 2 ^ 31) % 2 ^ 32 - 2 ^ 31

/-- The loop `for (int i = 2; i * i <= n; i++)` of `HashTable::isPrime` on
32-bit `int`, with a bound on the number of iterations: the product `i * i`
and the increment `i++` wrap around, and `%` truncates towards zero. -/
def isPrimeLoopInt32 : Nat → Int → Int → Bool
  | 0, _, _ => true
  | fuel + 1, i, n =>
      if wrapInt32 (i * i) ≤ n then
        if Int.tmod n i = 0 then false else isPrimeLoopInt32 fuel (wrapInt32 (i + 1)) n
      else true

/-- `HashTable::isPrime` on 32-bit `int`.  The loop returns at `i = n` at the
latest, so that it runs fewer than `n` times. -/
def isPrimeInt32 (n : Int) : Bool :=
  if n ≤ 1 then false else isPrimeLoopInt32 n.toNat 2 n

/-- The loop `while (!isPrime(n)) n++` of `HashTable::nextPrime` on 32-bit
`int`, with a bound on the number of iterations: the increment wraps
around. -/
def nextPrimeLoopInt32 : Nat → Int → Int
  | 0, n => n
  | fuel + 1, n => if isPrimeInt32 n then n else nextPrimeLoopInt32 fuel (wrapInt32 (n + 1))

/-- `HashTable::nextPrime` on 32-bit `int`.  The increments reach the prime 2
before any value of `int` is visited twice, that is within `2^32` steps. -/
def nextPrimeInt32 (n : Int) : Int :=
  nextPrimeLoopInt32 (2 ^ 32) n

/-! ## A table above capacity `2^23` -/

/-- The credential whose site is the four bytes of `i` in base 256, with
username `u` and password `p`.  Numbers below `2^32` give different sites. -/
def credNumbered (i : Nat) : Credential :=
  ⟨[i / 16777216 % 256, i / 65536 % 256, i / 256 % 256, i % 256], [117], [112]⟩

/-- The table `HashTable ht(cap)` after the inserts of the `n` credentials
numbered `0` to `n - 1`. -/
def tableNumbered (cap n : Nat) : HashTable :=
  ((List.range n).map credNumbered).foldl HashTable.insert (HashTable.new cap)

/-- The table `HashTable ht(8388609)` after 6291456 inserts of different
credentials; `4 * 6291456 <= 3 * 8388609 < 4 * 6291457`. -/
def tableLarge : HashTable := tableNumbered 8388609 6291456

/-- The table `HashTable ht(33554442)` after 25165830 inserts of different
credentials; `4 * 25165831 <= 3 * 33554442`. -/
def tableLarger : HashTable := tableNumbered 33554442 25165830

/-! # Lemmas -/

/-! ## The binary32 resize test -/

theorem roundHalfEven_err (p q : Nat) (hq : 0 < q) :
    2 * (roundHalfEven p q * q) ≤ 2 * p + q ∧ 2 * p ≤ 2 * (roundHalfEven p q * q) + q := by
  have h := Nat.div_add_mod p q
  have hr := Nat.mod_lt p hq
  have hm : (p / q + 1) * q = q * (p / q) + q := by ring
  have hm0 : (p / q) * q = q * (p / q) := by ring
  unfold roundHalfEven
  split_ifs <;> (try rw [hm]) <;> (try rw [hm0]) <;> omega

theorem roundHalfEven_gt_iff (p q N : Nat) (hq : 0 < q) (hN : N % 2 = 0) :
    N < roundHalfEven p q ↔ (2 * N + 1) * q < 2 * p := by
  have h := Nat.div_add_mod p q
  have hr := Nat.mod_lt p hq
  rcases Nat.lt_trichotomy (p / q) N with hlt | heq | hgt
  · have h1 : q * (p / q + 1) ≤ q * N := Nat.mul_le_mul_left q hlt
    have h2 : q * (p / q + 1) = q * (p / q) + q := by ring
    have h3 : (2 * N + 1) * q = 2 * (q * N) + q := by ring
    have h4 : roundHalfEven p q ≤ p / q + 1 := by
      unfold roundHalfEven; split_ifs <;> omega
    constructor
    · intro h5; omega
    · intro h5; omega
  · have h3 : (2 * N + 1) * q = 2 * (q * (p / q)) + q := by rw [heq]; ring
    unfold roundHalfEven
    split_ifs <;> constructor <;> intro h5 <;> omega
  · have h1 : q * (N + 1) ≤ q * (p / q) := Nat.mul_le_mul_left q hgt
    have h2 : q * (N + 1) = q * N + q := by ring
    have h3 : (2 * N + 1) * q = 2 * (q * N) + q := by ring
    have h4 : p / q ≤ roundHalfEven p q := by
      unfold roundHalfEven; split_ifs <;> omega
    constructor
    · intro h5; omega
    · intro h5; omega

/-- The binary32 quotient `a / b` exceeds `0.75f` exactly when the exact
quotient exceeds `0.75 + 2^-25 = 25165825 / 33554432`, the midpoint of `0.75f`
and the next binary32 value: the midpoint itself rounds to `0.75f`, whose
significand `3 * 2^22` is even. -/
theorem f32DivGt075_iff (a b : Nat) (hb : 0 < b) :
    f32DivGt075 a b = true ↔ 25165825 * b < 33554432 * a := by
  unfold f32DivGt075
  split_ifs with h1 h2
  · simp; omega
  · simp; omega
  · rw [decide_eq_true_iff, roundHalfEven_gt_iff _ _ _ hb (by norm_num)]
    constructor <;> intro h <;> omega

theorem ulpLoop_spec (fuel u n : Nat) (hu : u = 1 ∨ 2 ^ 23 * u ≤ n) :
    ulpLoop fuel u n = 1 ∨ 2 ^ 23 * ulpLoop fuel u n ≤ n := by
  induction fuel generalizing u with
  | zero => exact hu
  | succ k ih =>
      unfold ulpLoop
      split_ifs with h
      · exact hu
      · exact ih _ (Or.inr (by omega))

theorem ulpLoop_pos (fuel u n : Nat) (hu : 0 < u) : 0 < ulpLoop fuel u n := by
  induction fuel generalizing u with
  | zero => exact hu
  | succ k ih =>
      unfold ulpLoop
      split_ifs with h
      · exact hu
      · exact ih _ (by omega)

theorem ulpLoop_small (n : Nat) (h : n < 2 ^ 24) : ulpLoop n 1 n = 1 := by
  cases n with
  | zero => rfl
  | succ k => unfold ulpLoop; rw [if_pos (by omega)]

/-- The search of `ulpLoop` ends within its bound: the result `u` has
`n < 2^24 * u`. -/
theorem lt_ulpLoop (fuel : Nat) : ∀ (u n : Nat), n < 2 ^ 24 * u * 2 ^ fuel →
    n < 2 ^ 24 * ulpLoop fuel u n := by
  induction fuel with
  | zero => intro u n h; simpa [ulpLoop] using h
  | succ k ih =>
    intro u n h
    unfold ulpLoop
    split_ifs with hlt
    · exact hlt
    · refine ih (2 * u) n ?_
      rw [pow_succ] at h
      calc n < 2 ^ 24 * u * (2 ^ k * 2) := h
        _ = 2 ^ 24 * (2 * u) * 2 ^ k := by ring

theorem lt_ulp (n : Nat) : n < 2 ^ 24 * ulpLoop n 1 n := by
  refine lt_ulpLoop n 1 n ?_
  have h1 : n < 2 ^ n := Nat.lt_two_pow n
  have h2 : 1 * 2 ^ n ≤ 2 ^ 24 * 1 * 2 ^ n := Nat.mul_le_mul_right _ (by norm_num)
  omega

theorem roundHalfEven_one (n : Nat) : roundHalfEven n 1 = n := by
  unfold roundHalfEven; simp [Nat.mod_one]

theorem f32OfNat_small (n : Nat) (h : n < 2 ^ 24) : f32OfNat n = n := by
  unfold f32OfNat; rw [ulpLoop_small n h, roundHalfEven_one]; simp

theorem f32OfNat_err (n : Nat) :
    2 ^ 24 * f32OfNat n ≤ (2 ^ 24 + 1) * n ∧ (2 ^ 24 - 1) * n ≤ 2 ^ 24 * f32OfNat n := by
  unfold f32OfNat
  have hp := ulpLoop_pos n 1 n (by norm_num)
  have he := roundHalfEven_err n (ulpLoop n 1 n) hp
  rcases ulpLoop_spec n 1 n (Or.inl rfl) with h | h
  · rw [h] at he ⊢; omega
  · omega

theorem overLoadFactor_iff (count : Int) (capacity : Nat) (hc : 0 < count) (hcap : 0 < capacity) :
    overLoadFactor count capacity = true ↔
      25165825 * f32OfNat capacity < 33554432 * f32OfNat count.toNat := by
  unfold overLoadFactor
  rw [if_neg (by omega), if_neg (by omega)]
  apply f32DivGt075_iff
  have := (f32OfNat_err capacity).2
  omega

/-- The binary32 test and the exact comparison differ in both directions
above capacity `2^23`: at capacity 8388609 the count 6291457 is above three
quarters of the capacity, and the quotient rounds to `0.75f`; at capacity
33554442 the count 25165831 is below three quarters of the capacity, the
operands are converted to 25165832 and 33554440, and the quotient rounds to
the binary32 value after `0.75f`. -/
theorem overLoadFactor_above :
    overLoadFactor 6291457 8388609 = false ∧ 4 * 6291457 > 3 * 8388609 ∧
    overLoadFactor 25165831 33554442 = true ∧ 4 * 25165831 ≤ 3 * 33554442 ∧
    f32OfNat 25165831 = 25165832 ∧ f32OfNat 33554442 = 33554440 :=
  ⟨by decide, by decide, by decide, by decide, by decide, by decide⟩

/-- A table at most half full does not pass the resize test. -/
theorem overLoadFactor_of_half (count : Int) (capacity : Nat) (hcap : 0 < capacity)
    (h : 2 * count ≤ capacity) : overLoadFactor count capacity = false := by
  rcases le_or_lt count 0 with hc | hc
  · unfold overLoadFactor; rw [if_pos hc]
  · rw [Bool.eq_false_iff, Ne, overLoadFactor_iff _ _ hc hcap]
    have h1 := (f32OfNat_err capacity).2
    have h2 := (f32OfNat_err count.toNat).1
    omega

/-- Up to capacity `2^23` the binary32 test is the exact comparison
`4 * count > 3 * capacity`. -/
theorem overLoadFactor_exact (count : Int) (capacity : Nat) (hcap : 0 < capacity)
    (hle : capacity ≤ 2 ^ 23) : overLoadFactor count capacity = true ↔ 4 * count > 3 * capacity := by
  rcases le_or_lt count 0 with hc | hc
  · unfold overLoadFactor; rw [if_pos hc]; simp; omega
  · rw [overLoadFactor_iff _ _ hc hcap, f32OfNat_small capacity (by omega)]
    rcases lt_or_le count.toNat (2 ^ 24) with h | h
    · rw [f32OfNat_small _ h]
      rcases Nat.lt_or_eq_of_le hle with h3 | h3
      · omega
      · rw [h3]; omega
    · have h2 := (f32OfNat_err count.toNat).2
      constructor <;> intro _ <;> omega

/-- Up to capacity `2^23`, a count that does not pass the binary32 test is at
most three quarters of the capacity. -/
theorem le_of_overLoadFactor_eq_false (count : Int) (capacity : Nat) (hle : capacity ≤ 2 ^ 23)
    (h : overLoadFactor count capacity = false) : 4 * count ≤ 3 * (capacity : Int) := by
  rcases Nat.eq_zero_or_pos capacity with h0 | h0
  · subst h0
    unfold overLoadFactor at h
    by_cases hc : count ≤ 0
    · omega
    · rw [if_neg hc, if_pos rfl] at h; cases h
  · by_contra hn
    rw [(overLoadFactor_exact count capacity h0 hle).mpr (by omega)] at h
    cases h

/-- Up to capacity `2^23`, a sequence of `k` inserts of new pairs that ends
with `4 * count <= 3 * capacity` passes the resize test at none of its
inserts. -/
theorem overLoadFactor_eq_false_of_le (count : Int) (capacity k : Nat) (hcap : 0 < capacity)
    (hle : capacity ≤ 2 ^ 23) (h : 4 * (count + k) ≤ 3 * (capacity : Int)) (i : Nat) (hi : i < k) :
    overLoadFactor (count + i + 1) capacity = false := by
  rw [Bool.eq_false_iff, Ne, overLoadFactor_exact _ _ hcap hle]
  omega

theorem overLoadFactor_small (count : Int) (capacity : Nat) (hc : 0 < count) (hcap : 0 < capacity)
    (h1 : count < 2 ^ 24) (h2 : capacity < 2 ^ 24) :
    overLoadFactor count capacity = true ↔ 25165825 * (capacity : Int) < 33554432 * count := by
  rw [overLoadFactor_iff _ _ hc hcap, f32OfNat_small capacity h2, f32OfNat_small _ (by omega)]
  omega

/-! ## The record codec -/

theorem foldl_csvStep_inside (w : Str) (hw : QUOTE ∉ w) (s u p temp : Str) (n : Nat) :
    w.foldl csvStep ⟨s, u, p, temp, n, true⟩ = ⟨s, u, p, temp ++ w, n, true⟩ := by
  induction w generalizing temp with
  | nil => simp
  | cons c cs ih =>
    have hc : c ≠ QUOTE := fun h => hw (by simp [h])
    have hcs : QUOTE ∉ cs := fun h => hw (by simp [h])
    rw [List.foldl_cons]
    have hstep : csvStep ⟨s, u, p, temp, n, true⟩ c = ⟨s, u, p, temp ++ [c], n, true⟩ := by
      simp [csvStep, hc]
    rw [hstep, ih hcs]
    simp

theorem foldl_csvStep_field (w : Str) (hw : QUOTE ∉ w) (s u p : Str) (n : Nat) :
    (QUOTE :: (w ++ [QUOTE])).foldl csvStep ⟨s, u, p, [], n, false⟩ =
      ⟨if n = 0 then w else s,
       if n = 0 then u else if n = 1 then w else u,
       if n = 0 then p else if n = 1 then p else if n = 2 then w else p,
       [], n + 1, false⟩ := by
  rw [List.foldl_cons, List.foldl_append]
  have hopen : csvStep ⟨s, u, p, [], n, false⟩ QUOTE = ⟨s, u, p, [], n, true⟩ := by
    simp [csvStep]
  rw [hopen, foldl_csvStep_inside w hw]
  simp [csvStep]

theorem csvStep_comma (s u p temp : Str) (n : Nat) :
    csvStep ⟨s, u, p, temp, n, false⟩ COMMA = ⟨s, u, p, temp, n, false⟩ := by
  simp [csvStep, COMMA, QUOTE]

theorem toCSV_eq (c : Credential) :
    c.toCSV = (QUOTE :: (c.site ++ [QUOTE])) ++ (COMMA :: ((QUOTE :: (c.username ++ [QUOTE])) ++
      (COMMA :: (QUOTE :: (c.password ++ [QUOTE]))))) := by
  simp [Credential.toCSV]

theorem fromCSV_toCSV (c : Credential) (hs : QUOTE ∉ c.site) (hu : QUOTE ∉ c.username)
    (hp : QUOTE ∉ c.password) : Credential.fromCSV c.toCSV = c := by
  have h : c.toCSV.foldl csvStep csvInit = ⟨c.site, c.username, c.password, [], 3, false⟩ := by
    rw [toCSV_eq, List.foldl_append, csvInit, foldl_csvStep_field c.site hs, List.foldl_cons,
      csvStep_comma, List.foldl_append, foldl_csvStep_field c.username hu, List.foldl_cons,
      csvStep_comma, foldl_csvStep_field c.password hp]
    simp
  simp [Credential.fromCSV, h]

/-! ## Lists of chains -/

theorem getD_set_self {α : Type} (l : List (List α)) (i : Nat) (x : List α) (h : i < l.length) :
    (l.set i x).getD i [] = x := by
  induction l generalizing i with
  | nil => simp at h
  | cons a l ih =>
    cases i with
    | zero => simp
    | succ i => simpa using ih i (by simpa using h)

theorem getD_set_other {α : Type} (l : List (List α)) (i j : Nat) (x : List α) (h : i ≠ j) :
    (l.set i x).getD j [] = l.getD j [] := by
  induction l generalizing i j with
  | nil => simp
  | cons a l ih =>
    cases i with
    | zero =>
      cases j with
      | zero => exact absurd rfl h
      | succ j => simp
    | succ i =>
      cases j with
      | zero => simp
      | succ j => simpa using ih i j (by omega)

theorem flatten_perm_getD {α : Type} (l : List (List α)) (i : Nat) (h : i < l.length) :
    l.flatten.Perm (l.getD i [] ++ (l.eraseIdx i).flatten) := by
  induction l generalizing i with
  | nil => simp at h
  | cons a l ih =>
    cases i with
    | zero => simp
    | succ i =>
      have h1 := ih i (by simpa using h)
      simp only [List.flatten_cons, List.eraseIdx_cons_succ, List.getD_cons_succ]
      refine (List.Perm.append_left a h1).trans ?_
      rw [← List.append_assoc, ← List.append_assoc]
      exact List.Perm.append_right _ List.perm_append_comm

theorem flatten_set_perm {α : Type} (l : List (List α)) (i : Nat) (x : List α)
    (h : i < l.length) :
    (l.set i x).flatten.Perm (x ++ (l.eraseIdx i).flatten) := by
  have h1 := flatten_perm_getD (l.set i x) i (by simpa using h)
  rw [getD_set_self l i x h] at h1
  have h2 : (l.set i x).eraseIdx i = l.eraseIdx i := by
    clear h1
    induction l generalizing i with
    | nil => simp
    | cons a l ih =>
      cases i with
      | zero => simp
      | succ i => simp [ih i (by simpa using h)]
  rwa [h2] at h1

theorem mem_flatten_iff_getD {α : Type} (l : List (List α)) (e : α) :
    e ∈ l.flatten ↔ ∃ i, i < l.length ∧ e ∈ l.getD i [] := by
  constructor
  · intro h
    obtain ⟨c, hc, hec⟩ := List.mem_flatten.mp h
    obtain ⟨i, hi, rfl⟩ := List.getElem_of_mem hc
    exact ⟨i, hi, by rw [List.getD_eq_getElem _ _ hi]; exact hec⟩
  · rintro ⟨i, hi, he⟩
    rw [List.getD_eq_getElem _ _ hi] at he
    exact List.mem_flatten.mpr ⟨_, List.getElem_mem hi, he⟩

theorem getD_of_length_le {α : Type} (l : List (List α)) (i : Nat) (h : l.length ≤ i) :
    l.getD i [] = [] := by
  rw [List.getD_eq_default _ _ h]

/-! ## Range of the hash and of the prime search -/

theorem HashTable.hash_lt (t : HashTable) (key : Str) (h : 1 ≤ t.capacity) :
    t.hash key < t.capacity := by
  unfold HashTable.hash
  have hc : (0 : Int) < (t.capacity : Int) := by exact_mod_cast h
  have h1 := Int.tmod_lt_of_pos
    (Int.tmod (hashLoop key 0 1) t.capacity + t.capacity) hc
  omega

theorem le_nextPrimeLoop (fuel : Nat) (n : Int) : n ≤ nextPrimeLoop fuel n := by
  induction fuel generalizing n with
  | zero => simp [nextPrimeLoop]
  | succ k ih =>
    unfold nextPrimeLoop
    split
    · exact le_refl n
    · exact le_trans (by omega) (ih (n + 1))

theorem le_nextPrime (n : Int) : n ≤ nextPrime n :=
  le_nextPrimeLoop _ n

/-! ## Chains -/

theorem eq_of_key_eq_of_password_eq {a b : Credential} (hk : a.key = b.key)
    (hp : a.password = b.password) : a = b := by
  cases a; cases b
  simp only [Credential.key, Prod.mk.injEq] at hk
  simp_all

theorem insertChain_eq_none (C : List Credential) (c : Credential) :
    insertChain C c = none ↔ ∀ e ∈ C, e.key ≠ c.key := by
  induction C with
  | nil => simp [insertChain]
  | cons n rest ih =>
    unfold insertChain
    by_cases h : n.site = c.site ∧ n.username = c.username
    · have hk : n.key = c.key := by simp [Credential.key, h.1, h.2]
      simp [h, hk]
    · have hk : n.key ≠ c.key := by
        intro hk
        simp only [Credential.key, Prod.mk.injEq] at hk
        exact h hk
      simp [h, hk, ih]

theorem insertChain_eq_some (C : List Credential) (c : Credential) (C' : List Credential)
    (h : insertChain C c = some C') :
    ∃ A n B, C = A ++ n :: B ∧ (∀ a ∈ A, a.key ≠ c.key) ∧ n.key = c.key ∧ C' = A ++ c :: B := by
  induction C generalizing C' with
  | nil => simp [insertChain] at h
  | cons n rest ih =>
    unfold insertChain at h
    by_cases hm : n.site = c.site ∧ n.username = c.username
    · have hk : n.key = c.key := by simp [Credential.key, hm.1, hm.2]
      simp only [hm, and_self, if_true, Option.some.injEq] at h
      refine ⟨[], n, rest, by simp, by simp, hk, ?_⟩
      rw [← h]
      rfl
    · have hk : n.key ≠ c.key := by
        intro hk
        simp only [Credential.key, Prod.mk.injEq] at hk
        exact hm hk
      rw [if_neg hm] at h
      cases hr : insertChain rest c with
      | none => simp [hr] at h
      | some R =>
        simp only [hr, Option.map_some', Option.some.injEq] at h
        obtain ⟨A, m, B, h1, h2, h3, h4⟩ := ih R hr
        refine ⟨n :: A, m, B, by simp [h1], ?_, h3, by simp [← h, h4]⟩
        intro a ha
        rcases List.mem_cons.mp ha with rfl | ha
        · exact hk
        · exact h2 a ha

theorem removeChain_eq_none (C : List Credential) (site username : Str) :
    removeChain C site username = none ↔ ∀ e ∈ C, e.key ≠ (site, username) := by
  induction C with
  | nil => simp [removeChain]
  | cons n rest ih =>
    unfold removeChain
    by_cases h : n.site = site ∧ n.username = username
    · have hk : n.key = (site, username) := by simp [Credential.key, h.1, h.2]
      simp [h, hk]
    · have hk : n.key ≠ (site, username) := by
        intro hk
        simp only [Credential.key, Prod.mk.injEq] at hk
        exact h hk
      simp [h, hk, ih]

theorem removeChain_eq_some (C : List Credential) (site username : Str) (C' : List Credential)
    (h : removeChain C site username = some C') :
    ∃ A n B, C = A ++ n :: B ∧ (∀ a ∈ A, a.key ≠ (site, username)) ∧ n.key = (site, username) ∧
      C' = A ++ B := by
  induction C generalizing C' with
  | nil => simp [removeChain] at h
  | cons n rest ih =>
    unfold removeChain at h
    by_cases hm : n.site = site ∧ n.username = username
    · have hk : n.key = (site, username) := by simp [Credential.key, hm.1, hm.2]
      simp only [hm, and_self, if_true, Option.some.injEq] at h
      exact ⟨[], n, rest, by simp, by simp, hk, by simp [h]⟩
    · have hk : n.key ≠ (site, username) := by
        intro hk
        simp only [Credential.key, Prod.mk.injEq] at hk
        exact hm hk
      rw [if_neg hm] at h
      cases hr : removeChain rest site username with
      | none => simp [hr] at h
      | some R =>
        simp only [hr, Option.map_some', Option.some.injEq] at h
        obtain ⟨A, m, B, h1, h2, h3, h4⟩ := ih R hr
        refine ⟨n :: A, m, B, by simp [h1], ?_, h3, by simp [← h, h4]⟩
        intro a ha
        rcases List.mem_cons.mp ha with rfl | ha
        · exact hk
        · exact h2 a ha

theorem searchChain_eq_none (C : List Credential) (site username : Str) :
    searchChain C site username = none ↔ ∀ e ∈ C, ¬ searchMatch site username e := by
  induction C with
  | nil => simp [searchChain]
  | cons n rest ih =>
    unfold searchChain
    by_cases h1 : n.site = site
    · by_cases h2 : username = [] ∨ n.username = username
      · have hm : searchMatch site username n := ⟨h1, h2⟩
        rw [if_pos h1, if_pos h2]
        constructor
        · intro h; cases h
        · intro h; exact absurd hm (h n (List.mem_cons_self _ _))
      · have : ¬ searchMatch site username n := fun hm => h2 hm.2
        simp [h1, h2, ih, this]
    · have : ¬ searchMatch site username n := fun hm => h1 hm.1
      simp [h1, ih, this]

theorem searchChain_eq_some (C : List Credential) (site username : Str) (n : Credential)
    (h : searchChain C site username = some n) :
    ∃ A B, C = A ++ n :: B ∧ (∀ a ∈ A, ¬ searchMatch site username a) ∧
      searchMatch site username n := by
  induction C with
  | nil => simp [searchChain] at h
  | cons m rest ih =>
    unfold searchChain at h
    by_cases hm : searchMatch site username m
    · simp only [hm.1, hm.2, if_true, Option.some.injEq] at h
      subst h
      exact ⟨[], rest, by simp, by simp, hm⟩
    · have h' : searchChain rest site username = some n := by
        by_cases h1 : m.site = site
        · by_cases h2 : username = [] ∨ m.username = username
          · exact absurd ⟨h1, h2⟩ hm
          · simpa [h1, h2] using h
        · simpa [h1] using h
      obtain ⟨A, B, e1, e2, e3⟩ := ih h'
      refine ⟨m :: A, B, by simp [e1], ?_, e3⟩
      intro a ha
      rcases List.mem_cons.mp ha with rfl | ha
      · exact hm
      · exact e2 a ha

theorem searchMatch_iff_key {site username : Str} (hu : username ≠ []) (e : Credential) :
    searchMatch site username e ↔ e.key = (site, username) := by
  simp [searchMatch, Credential.key, hu]

/-! ## The invariant and `search` -/

theorem flatten_replicate_nil {α : Type} (n : Nat) :
    (List.replicate n ([] : List α)).flatten = [] := by
  induction n with
  | zero => rfl
  | succ n ih => simp [List.replicate_succ, ih]

theorem getD_replicate_nil {α : Type} (n i : Nat) :
    (List.replicate n ([] : List α)).getD i [] = [] := by
  by_cases h : i < n
  · rw [List.getD_eq_getElem _ _ (by simpa using h)]; simp
  · rw [List.getD_eq_default _ _ (by simpa using h)]

theorem inv_new (cap : Nat) (h : 1 ≤ cap) : Inv (HashTable.new cap) where
  size := by simp [HashTable.new]
  pos := h
  placed := by
    intro i e he
    simp [HashTable.bucket, HashTable.new, getD_replicate_nil] at he
  uniq := by simp [HashTable.entries, HashTable.new, flatten_replicate_nil]
  count := by simp [HashTable.entries, HashTable.new, flatten_replicate_nil]

theorem Inv.mem_entries_iff {t : HashTable} (hinv : Inv t) (e : Credential) :
    e ∈ t.entries ↔ e ∈ t.bucket (t.hash e.site) := by
  unfold HashTable.entries
  rw [mem_flatten_iff_getD]
  constructor
  · rintro ⟨i, _, he⟩
    have := hinv.placed i e he
    rw [this]; exact he
  · intro he
    refine ⟨t.hash e.site, ?_, he⟩
    rw [hinv.size]; exact t.hash_lt _ hinv.pos

theorem Inv.key_inj {t : HashTable} (hinv : Inv t) {a b : Credential} (ha : a ∈ t.entries)
    (hb : b ∈ t.entries) (hk : a.key = b.key) : a = b :=
  List.inj_on_of_nodup_map hinv.uniq ha hb hk

theorem Inv.mem_bucket_of_site {t : HashTable} (hinv : Inv t) {e : Credential} {site : Str}
    (he : e ∈ t.entries) (hs : e.site = site) : e ∈ t.bucket (t.hash site) := by
  rw [← hs]; exact (hinv.mem_entries_iff e).mp he

theorem Inv.mem_entries_of_bucket {t : HashTable} (hinv : Inv t) {e : Credential} {i : Nat}
    (he : e ∈ t.bucket i) : e ∈ t.entries := by
  have := hinv.placed i e he
  rw [hinv.mem_entries_iff, this]; exact he

theorem Inv.search_eq_some_iff {t : HashTable} (hinv : Inv t) {site username : Str}
    (hu : username ≠ []) (e : Credential) :
    t.search site username = some e ↔ e ∈ t.entries ∧ e.key = (site, username) := by
  unfold HashTable.search
  constructor
  · intro h
    obtain ⟨A, B, hC, _, hm⟩ := searchChain_eq_some _ _ _ _ h
    refine ⟨hinv.mem_entries_of_bucket (i := t.hash site) ?_, (searchMatch_iff_key hu e).mp hm⟩
    rw [hC]; simp
  · rintro ⟨he, hk⟩
    have hs : e.site = site := by simpa [Credential.key] using congrArg Prod.fst hk
    have hb := hinv.mem_bucket_of_site he hs
    cases hr : searchChain (t.bucket (t.hash site)) site username with
    | none =>
      exact absurd ((searchMatch_iff_key hu e).mpr hk) ((searchChain_eq_none _ _ _).mp hr e hb)
    | some n =>
      obtain ⟨A, B, hC, _, hm⟩ := searchChain_eq_some _ _ _ _ hr
      have hn : n ∈ t.entries := hinv.mem_entries_of_bucket (i := t.hash site) (by rw [hC]; simp)
      have : n = e := hinv.key_inj hn he (((searchMatch_iff_key hu n).mp hm).trans hk.symm)
      rw [this]

theorem Inv.search_eq_none_iff {t : HashTable} (hinv : Inv t) {site username : Str}
    (hu : username ≠ []) :
    t.search site username = none ↔ ∀ e ∈ t.entries, e.key ≠ (site, username) := by
  constructor
  · intro h e he hk
    have := (hinv.search_eq_some_iff hu e).mpr ⟨he, hk⟩
    rw [h] at this; cases this
  · intro h
    cases hr : t.search site username with
    | none => rfl
    | some n =>
      have := (hinv.search_eq_some_iff hu n).mp hr
      exact absurd this.2 (h n this.1)

/-- With an empty username `search` returns an entry of the requested site
whenever one is stored, and nothing otherwise. -/
theorem Inv.search_nil_eq_none_iff {t : HashTable} (hinv : Inv t) {site : Str} :
    t.search site [] = none ↔ ∀ e ∈ t.entries, e.site ≠ site := by
  unfold HashTable.search
  rw [searchChain_eq_none]
  constructor
  · intro h e he hs
    exact h e (hinv.mem_bucket_of_site he hs) ⟨hs, Or.inl rfl⟩
  · intro h e he hm
    exact h e (hinv.mem_entries_of_bucket he) hm.1

/-! ## The effect of `insert` on the stored entries -/

theorem mem_insEntries {E : List Credential} {c e : Credential} :
    e ∈ insEntries E c ↔ e = c ∨ (e ∈ E ∧ e.key ≠ c.key) := by
  simp [insEntries]

theorem insEntries_perm {E E' : List Credential} (h : E.Perm E') (c : Credential) :
    (insEntries E c).Perm (insEntries E' c) :=
  List.Perm.cons _ (List.Perm.filter _ h)

theorem nodup_keys_insEntries {E : List Credential} (h : (E.map Credential.key).Nodup)
    (c : Credential) : ((insEntries E c).map Credential.key).Nodup := by
  unfold insEntries
  rw [List.map_cons, List.nodup_cons]
  constructor
  · intro hc
    obtain ⟨e, he, hk⟩ := List.mem_map.mp hc
    have := (List.mem_filter.mp he).2
    simp only [decide_eq_true_eq] at this
    exact this hk
  · exact List.Nodup.sublist (List.Sublist.map _ (List.filter_sublist E)) h

theorem length_insEntries_le (E : List Credential) (c : Credential) :
    (insEntries E c).length ≤ E.length + 1 := by
  unfold insEntries
  have := List.length_filter_le (fun e => decide (e.key ≠ c.key)) E
  simp only [List.length_cons]; omega

theorem insEntries_of_fresh {E : List Credential} {c : Credential}
    (h : ∀ e ∈ E, e.key ≠ c.key) : insEntries E c = c :: E := by
  unfold insEntries
  rw [List.filter_eq_self.mpr]
  intro e he
  simpa using h e he

theorem foldl_insEntries_perm {E E' : List Credential} (h : E.Perm E') (L : List Credential) :
    (L.foldl insEntries E).Perm (L.foldl insEntries E') := by
  induction L generalizing E E' with
  | nil => exact h
  | cons c L ih => exact ih (insEntries_perm h c)

theorem foldl_insEntries_fresh (L E : List Credential) (hL : (L.map Credential.key).Nodup)
    (hE : ∀ e ∈ E, ∀ x ∈ L, e.key ≠ x.key) : (L.foldl insEntries E).Perm (L ++ E) := by
  induction L generalizing E with
  | nil => simp
  | cons c L ih =>
    rw [List.map_cons, List.nodup_cons] at hL
    rw [List.foldl_cons, insEntries_of_fresh (fun e he => hE e he c (List.mem_cons_self _ _))]
    refine (ih (c :: E) hL.2 ?_).trans ?_
    · intro e he x hx
      rcases List.mem_cons.mp he with rfl | he
      · intro hk
        exact hL.1 (List.mem_map.mpr ⟨x, hx, hk.symm⟩)
      · exact hE e he x (List.mem_cons_of_mem _ hx)
    · exact List.perm_middle

theorem filter_key_ne_of_split {A Y : List Credential} {n : Credential} {k : Str × Str}
    (hn : n.key = k) (h : ((A ++ n :: Y).map Credential.key).Nodup) :
    (A ++ n :: Y).filter (fun e => decide (e.key ≠ k)) = A ++ Y := by
  have hne : ∀ e ∈ A ++ Y, e.key ≠ k := by
    intro e he hk
    rw [List.map_append, List.map_cons] at h
    have h1 := (List.nodup_cons.mp (List.nodup_middle.mp h)).1
    exact h1 (by
      rw [← List.map_append, hn, ← hk]
      exact List.mem_map_of_mem _ he)
  have hn' : decide (n.key ≠ k) = false := by simp [hn]
  rw [List.filter_append, List.filter_cons, hn']
  have hA : A.filter (fun e => decide (e.key ≠ k)) = A :=
    List.filter_eq_self.mpr (fun e he => by simpa using hne e (List.mem_append_left _ he))
  have hY : Y.filter (fun e => decide (e.key ≠ k)) = Y :=
    List.filter_eq_self.mpr (fun e he => by simpa using hne e (List.mem_append_right _ he))
  rw [hA, hY]
  rfl

theorem perm_insEntries_of_split {E A Y : List Credential} {n c : Credential}
    (hE : E.Perm (A ++ n :: Y)) (hnd : (E.map Credential.key).Nodup) (hn : n.key = c.key) :
    (insEntries E c).Perm (A ++ c :: Y) := by
  have hnd' : ((A ++ n :: Y).map Credential.key).Nodup := (hE.map _).nodup_iff.mp hnd
  have h1 := insEntries_perm hE c
  refine h1.trans ?_
  unfold insEntries
  rw [filter_key_ne_of_split hn hnd']
  exact List.perm_middle.symm

/-! ## Replacing one chain -/

theorem entries_perm_bucket (t : HashTable) (i : Nat) (hi : i < t.table.length) :
    t.entries.Perm (t.bucket i ++ (t.table.eraseIdx i).flatten) :=
  flatten_perm_getD t.table i hi

theorem inv_of_set {t : HashTable} (hinv : Inv t) (i : Nat) (hi : i < t.capacity)
    (C' : List Credential) (cnt : Int) (hplaced : ∀ e ∈ C', t.hash e.site = i)
    (hnd : ((C' ++ (t.table.eraseIdx i).flatten).map Credential.key).Nodup)
    (hcnt : cnt = ((C' ++ (t.table.eraseIdx i).flatten).length : Int)) :
    Inv { table := t.table.set i C', capacity := t.capacity, count := cnt } ∧
      (HashTable.entries { table := t.table.set i C', capacity := t.capacity, count := cnt }).Perm
        (C' ++ (t.table.eraseIdx i).flatten) := by
  have hi' : i < t.table.length := by rw [hinv.size]; exact hi
  have hperm := flatten_set_perm t.table i C' hi'
  refine ⟨?_, hperm⟩
  refine ⟨by simp [hinv.size], hinv.pos, ?_, ?_, ?_⟩
  · intro j e he
    simp only [HashTable.bucket] at he
    show HashTable.hash t e.site = j
    by_cases hij : i = j
    · subst hij
      rw [getD_set_self _ _ _ hi'] at he
      exact hplaced e he
    · rw [getD_set_other _ _ _ _ hij] at he
      exact hinv.placed j e he
  · exact (hperm.map _).nodup_iff.mpr hnd
  · show cnt = _
    rw [hcnt]
    exact_mod_cast hperm.length_eq.symm

/-! ## One `insert` -/

theorem insert_found {t : HashTable} (hinv : Inv t) (c : Credential) (C' : List Credential)
    (h : insertChain (t.bucket (t.hash c.site)) c = some C') :
    Inv (⟨t.table.set (t.hash c.site) C', t.capacity, t.count⟩ : HashTable) ∧
      (HashTable.entries (⟨t.table.set (t.hash c.site) C', t.capacity, t.count⟩ : HashTable)).Perm
        (insEntries t.entries c) := by
  obtain ⟨A, n, B, hC, _, hn, hC'⟩ := insertChain_eq_some _ _ _ h
  have hi : t.hash c.site < t.capacity := t.hash_lt _ hinv.pos
  have hi' : t.hash c.site < t.table.length := by rw [hinv.size]; exact hi
  have hE := entries_perm_bucket t _ hi'
  rw [hC, List.append_assoc, List.cons_append] at hE
  have hins := perm_insEntries_of_split hE hinv.uniq hn
  have hsite : n.site = c.site := by simpa [Credential.key] using congrArg Prod.fst hn
  have hperm' : (C' ++ (t.table.eraseIdx (t.hash c.site)).flatten).Perm (insEntries t.entries c) := by
    rw [hC', List.append_assoc, List.cons_append]; exact hins.symm
  have hres := inv_of_set hinv (t.hash c.site) hi C' t.count
    (by
      intro e he
      rw [hC'] at he
      rcases List.mem_append.mp he with he | he
      · exact hinv.placed _ e (by rw [hC]; exact List.mem_append_left _ he)
      · rcases List.mem_cons.mp he with rfl | he
        · rfl
        · exact hinv.placed _ e (by
            rw [hC]; exact List.mem_append_right _ (List.mem_cons_of_mem _ he)))
    ((hperm'.map _).nodup_iff.mpr (nodup_keys_insEntries hinv.uniq c))
    (by
      rw [hinv.count, hC', hE.length_eq]
      simp)
  exact ⟨hres.1, hres.2.trans hperm'⟩

theorem fresh_of_insertChain_none {t : HashTable} (hinv : Inv t) (c : Credential)
    (h : insertChain (t.bucket (t.hash c.site)) c = none) : ∀ e ∈ t.entries, e.key ≠ c.key := by
  intro e he hk
  have hs : e.site = c.site := by simpa [Credential.key] using congrArg Prod.fst hk
  exact (insertChain_eq_none _ _).mp h e (hinv.mem_bucket_of_site he hs) hk

theorem insert_fresh {t : HashTable} (hinv : Inv t) (c : Credential)
    (h : insertChain (t.bucket (t.hash c.site)) c = none) :
    Inv (⟨t.table.set (t.hash c.site) (c :: t.bucket (t.hash c.site)), t.capacity, t.count + 1⟩ : HashTable) ∧
      (HashTable.entries (⟨t.table.set (t.hash c.site) (c :: t.bucket (t.hash c.site)), t.capacity, t.count + 1⟩ : HashTable)).Perm
        (insEntries t.entries c) := by
  have hfresh := fresh_of_insertChain_none hinv c h
  have hi : t.hash c.site < t.capacity := t.hash_lt _ hinv.pos
  have hi' : t.hash c.site < t.table.length := by rw [hinv.size]; exact hi
  have hE := entries_perm_bucket t _ hi'
  have hperm' : ((c :: t.bucket (t.hash c.site)) ++ (t.table.eraseIdx (t.hash c.site)).flatten).Perm
      (insEntries t.entries c) := by
    rw [insEntries_of_fresh hfresh, List.cons_append]
    exact List.Perm.cons _ hE.symm
  have hres := inv_of_set hinv (t.hash c.site) hi (c :: t.bucket (t.hash c.site)) (t.count + 1)
    (by
      intro e he
      rcases List.mem_cons.mp he with rfl | he
      · rfl
      · exact hinv.placed _ e he)
    ((hperm'.map _).nodup_iff.mpr (nodup_keys_insEntries hinv.uniq c))
    (by
      rw [hinv.count, hE.length_eq]
      simp)
  exact ⟨hres.1, hres.2.trans hperm'⟩

theorem insertF_succ_of_some (f : Nat) {t : HashTable} {c : Credential} {C' : List Credential}
    (h : insertChain (t.bucket (t.hash c.site)) c = some C') :
    insertF (f + 1) t c = some (⟨t.table.set (t.hash c.site) C', t.capacity, t.count⟩ : HashTable) := by
  simp only [insertF, h]

theorem insertF_succ_of_none (f : Nat) {t : HashTable} {c : Credential}
    (h : insertChain (t.bucket (t.hash c.site)) c = none) :
    insertF (f + 1) t c =
      if overLoadFactor (t.count + 1) t.capacity then
        rehashWith (insertF f)
          (⟨t.table.set (t.hash c.site) (c :: t.bucket (t.hash c.site)), t.capacity, t.count + 1⟩ : HashTable)
          (nextPrime (2 * (t.capacity : Int))).toNat
      else
        some (⟨t.table.set (t.hash c.site) (c :: t.bucket (t.hash c.site)), t.capacity, t.count + 1⟩ : HashTable) := by
  simp only [insertF, h]

theorem two_mul_le_nextPrime_toNat (c : Nat) :
    2 * c ≤ (nextPrime (2 * (c : Int))).toNat := by
  have := le_nextPrime (2 * (c : Int))
  omega

theorem foldlM_insert_ok (ins : HashTable → Credential → Option HashTable) (f : Nat)
    (hins : ∀ t c, Inv t → 2 * (t.entries.length + 1) ≤ t.capacity * 2 ^ f →
      ∃ t', ins t c = some t' ∧ Inv t' ∧ t'.entries.Perm (insEntries t.entries c) ∧
        t.capacity ≤ t'.capacity) :
    ∀ (L : List Credential) (t0 : HashTable), Inv t0 →
      2 * (t0.entries.length + L.length) ≤ t0.capacity * 2 ^ f →
      ∃ t', L.foldlM ins t0 = some t' ∧ Inv t' ∧
        t'.entries.Perm (L.foldl insEntries t0.entries) ∧ t0.capacity ≤ t'.capacity := by
  intro L
  induction L with
  | nil =>
    intro t0 h0 _
    exact ⟨t0, rfl, h0, List.Perm.refl _, le_refl _⟩
  | cons c L ih =>
    intro t0 h0 hb
    rw [List.length_cons] at hb
    obtain ⟨t1, e1, inv1, p1, c1⟩ := hins t0 c h0 (by omega)
    have hlen : t1.entries.length ≤ t0.entries.length + 1 := by
      rw [p1.length_eq]; exact length_insEntries_le _ _
    have hmono : t0.capacity * 2 ^ f ≤ t1.capacity * 2 ^ f :=
      Nat.mul_le_mul_right _ c1
    obtain ⟨t2, e2, inv2, p2, c2⟩ := ih t1 inv1 (by omega)
    refine ⟨t2, ?_, inv2, ?_, le_trans c1 c2⟩
    · rw [List.foldlM_cons, e1]; exact e2
    · rw [List.foldl_cons]
      exact p2.trans (foldl_insEntries_perm p1 L)

theorem insertF_ok (f : Nat) : ∀ (t : HashTable) (c : Credential), Inv t →
    2 * (t.entries.length + 1) ≤ t.capacity * 2 ^ f →
    ∃ t', insertF (f + 1) t c = some t' ∧ Inv t' ∧ t'.entries.Perm (insEntries t.entries c) ∧
      t.capacity ≤ t'.capacity := by
  induction f with
  | zero =>
    intro t c hinv hb
    cases hch : insertChain (t.bucket (t.hash c.site)) c with
    | some C' =>
      have := insert_found hinv c C' hch
      exact ⟨_, insertF_succ_of_some _ hch, this.1, this.2, le_refl _⟩
    | none =>
      have := insert_fresh hinv c hch
      have hc := hinv.count
      have hng : overLoadFactor (t.count + 1) t.capacity = false :=
        overLoadFactor_of_half _ _ hinv.pos (by rw [hc]; omega)
      rw [insertF_succ_of_none _ hch, hng, if_neg (by simp)]
      exact ⟨_, rfl, this.1, this.2, le_refl _⟩
  | succ f ih =>
    intro t c hinv hb
    cases hch : insertChain (t.bucket (t.hash c.site)) c with
    | some C' =>
      have := insert_found hinv c C' hch
      exact ⟨_, insertF_succ_of_some _ hch, this.1, this.2, le_refl _⟩
    | none =>
      have hfr := insert_fresh hinv c hch
      rw [insertF_succ_of_none _ hch]
      by_cases hg : overLoadFactor (t.count + 1) t.capacity = true
      · rw [if_pos hg]
        have hcap := two_mul_le_nextPrime_toNat t.capacity
        have hpos := hinv.pos
        have hlen : (HashTable.entries (⟨t.table.set (t.hash c.site) (c :: t.bucket (t.hash c.site)), t.capacity, t.count + 1⟩ : HashTable)).length ≤ t.entries.length + 1 := by
          rw [hfr.2.length_eq]; exact length_insEntries_le _ _
        have hpow : t.capacity * 2 ^ (f + 1) ≤
            (nextPrime (2 * (t.capacity : Int))).toNat * 2 ^ f := by
          rw [pow_succ]
          calc t.capacity * (2 ^ f * 2) = (2 * t.capacity) * 2 ^ f := by ring
            _ ≤ (nextPrime (2 * (t.capacity : Int))).toNat * 2 ^ f :=
              Nat.mul_le_mul_right _ hcap
        obtain ⟨t', e', inv', p', c'⟩ := foldlM_insert_ok (insertF (f + 1)) f ih
          (HashTable.entries (⟨t.table.set (t.hash c.site) (c :: t.bucket (t.hash c.site)), t.capacity, t.count + 1⟩ : HashTable))
          (HashTable.new (nextPrime (2 * (t.capacity : Int))).toNat)
          (inv_new _ (by omega))
          (by
            have h0 : (HashTable.new (nextPrime (2 * (t.capacity : Int))).toNat).entries.length = 0 := by
              simp [HashTable.entries, HashTable.new, flatten_replicate_nil]
            have hc0 : (HashTable.new (nextPrime (2 * (t.capacity : Int))).toNat).capacity =
                (nextPrime (2 * (t.capacity : Int))).toNat := rfl
            rw [h0, hc0]
            omega)
        refine ⟨t', e', inv', ?_, ?_⟩
        · refine p'.trans ?_
          have h0 : (HashTable.new (nextPrime (2 * (t.capacity : Int))).toNat).entries = [] := by
            simp [HashTable.entries, HashTable.new, flatten_replicate_nil]
          rw [h0]
          refine (foldl_insEntries_fresh _ [] hfr.1.uniq (by simp)).trans ?_
          rw [List.append_nil]
          exact hfr.2
        · have hc0 : (HashTable.new (nextPrime (2 * (t.capacity : Int))).toNat).capacity =
              (nextPrime (2 * (t.capacity : Int))).toNat := rfl
          rw [hc0] at c'
          omega
      · rw [if_neg hg]
        exact ⟨_, rfl, hfr.1, hfr.2, le_refl _⟩

/-! ## The public operations keep the invariant -/

theorem fuel_bound (n cap : Nat) (h : 1 ≤ cap) : 2 * (n + 1) ≤ cap * 2 ^ (n + 1) := by
  have h1 : n + 1 ≤ 2 ^ n := Nat.lt_two_pow n
  have h2 : 1 * 2 ^ (n + 1) ≤ cap * 2 ^ (n + 1) := Nat.mul_le_mul_right _ h
  rw [pow_succ] at h2 ⊢
  omega

theorem insert_spec {t : HashTable} (hinv : Inv t) (c : Credential) :
    insertF (t.entries.length + 2) t c = some (t.insert c) ∧ Inv (t.insert c) ∧
      (t.insert c).entries.Perm (insEntries t.entries c) ∧ t.capacity ≤ (t.insert c).capacity := by
  obtain ⟨t', e, h⟩ := insertF_ok (t.entries.length + 1) t c hinv (fuel_bound _ _ hinv.pos)
  have hi : t.insert c = t' := by
    unfold HashTable.insert
    rw [e]; rfl
  rw [hi]
  exact ⟨e, h⟩

theorem rehash_spec {t : HashTable} (hinv : Inv t) (n : Nat) (hn : 1 ≤ n) :
    rehashWith (insertF (t.entries.length + 2)) t n = some (t.rehash n) ∧ Inv (t.rehash n) ∧
      (t.rehash n).entries.Perm t.entries ∧ n ≤ (t.rehash n).capacity := by
  have h0 : (HashTable.new n).entries = [] := by
    simp [HashTable.entries, HashTable.new, flatten_replicate_nil]
  obtain ⟨t', e, inv', p', c'⟩ := foldlM_insert_ok (insertF (t.entries.length + 2))
    (t.entries.length + 1) (insertF_ok _) t.entries (HashTable.new n) (inv_new n hn)
    (by
      have hb := fuel_bound t.entries.length n hn
      have hc0 : (HashTable.new n).capacity = n := rfl
      rw [h0, hc0, List.length_nil]
      omega)
  have hr : rehashWith (insertF (t.entries.length + 2)) t n = some t' := e
  have hi : t.rehash n = t' := by
    unfold HashTable.rehash
    rw [hr]; rfl
  rw [hi]
  refine ⟨hr, inv', ?_, c'⟩
  rw [h0] at p'
  refine p'.trans ?_
  have := foldl_insEntries_fresh t.entries [] hinv.uniq (by simp)
  rwa [List.append_nil] at this

theorem updateChain_eq_none (C : List Credential) (site username newPassword : Str) :
    updateChain C site username newPassword = none ↔ ∀ e ∈ C, ¬ searchMatch site username e := by
  induction C with
  | nil => simp [updateChain]
  | cons n rest ih =>
    unfold updateChain
    by_cases hm : searchMatch site username n
    · rw [if_pos hm.1, if_pos hm.2]
      constructor
      · intro h; cases h
      · intro h; exact absurd hm (h n (List.mem_cons_self _ _))
    · have hstep : (if n.site = site then
            if username = [] ∨ n.username = username then
              some ({ n with password := newPassword } :: rest)
            else (updateChain rest site username newPassword).map (fun r => n :: r)
          else (updateChain rest site username newPassword).map (fun r => n :: r)) =
          (updateChain rest site username newPassword).map (fun r => n :: r) := by
        by_cases h1 : n.site = site
        · by_cases h2 : username = [] ∨ n.username = username
          · exact absurd ⟨h1, h2⟩ hm
          · rw [if_pos h1, if_neg h2]
        · rw [if_neg h1]
      rw [hstep]
      simp [ih, hm]

theorem updateChain_eq_some (C : List Credential) (site username newPassword : Str)
    (C' : List Credential) (h : updateChain C site username newPassword = some C') :
    ∃ A n B, C = A ++ n :: B ∧ (∀ a ∈ A, ¬ searchMatch site username a) ∧
      searchMatch site username n ∧ C' = A ++ { n with password := newPassword } :: B := by
  induction C generalizing C' with
  | nil => simp [updateChain] at h
  | cons n rest ih =>
    unfold updateChain at h
    by_cases hm : searchMatch site username n
    · rw [if_pos hm.1, if_pos hm.2] at h
      exact ⟨[], n, rest, by simp, by simp, hm, by simpa using h.symm⟩
    · have hstep : (updateChain rest site username newPassword).map (fun r => n :: r) = some C' := by
        by_cases h1 : n.site = site
        · by_cases h2 : username = [] ∨ n.username = username
          · exact absurd ⟨h1, h2⟩ hm
          · rwa [if_pos h1, if_neg h2] at h
        · rwa [if_neg h1] at h
      cases hr : updateChain rest site username newPassword with
      | none => simp [hr] at hstep
      | some R =>
        simp only [hr, Option.map_some', Option.some.injEq] at hstep
        obtain ⟨A, m, B, h1, h2, h3, h4⟩ := ih R hr
        refine ⟨n :: A, m, B, by simp [h1], ?_, h3, by simp [← hstep, h4]⟩
        intro a ha
        rcases List.mem_cons.mp ha with rfl | ha
        · exact hm
        · exact h2 a ha

theorem update_inv {t : HashTable} (hinv : Inv t) (site username newPassword : Str) :
    Inv (t.update site username newPassword).2 := by
  unfold HashTable.update
  cases h : updateChain (t.bucket (t.hash site)) site username newPassword with
  | none => exact hinv
  | some C' =>
    obtain ⟨A, n, B, hC, _, hn, hC'⟩ := updateChain_eq_some _ _ _ _ _ h
    have hi : t.hash site < t.capacity := t.hash_lt _ hinv.pos
    have hi' : t.hash site < t.table.length := by rw [hinv.size]; exact hi
    have hE := entries_perm_bucket t _ hi'
    have hkeys : (C' ++ (t.table.eraseIdx (t.hash site)).flatten).map Credential.key =
        (t.bucket (t.hash site) ++ (t.table.eraseIdx (t.hash site)).flatten).map Credential.key := by
      rw [hC', hC]; simp [Credential.key]
    have hres := inv_of_set hinv (t.hash site) hi C' t.count
      (by
        intro e he
        rw [hC'] at he
        rcases List.mem_append.mp he with he | he
        · exact hinv.placed _ e (by rw [hC]; exact List.mem_append_left _ he)
        · rcases List.mem_cons.mp he with rfl | he
          · exact hinv.placed _ n (by rw [hC]; simp)
          · exact hinv.placed _ e (by
              rw [hC]; exact List.mem_append_right _ (List.mem_cons_of_mem _ he)))
      (by rw [hkeys]; exact (hE.map _).nodup_iff.mp hinv.uniq)
      (by
        rw [hinv.count, hE.length_eq]
        have := congrArg List.length hkeys
        simp only [List.length_map] at this
        rw [this])
    exact hres.1

theorem remove_found {t : HashTable} (hinv : Inv t) (site username : Str)
    (C' : List Credential) (h : removeChain (t.bucket (t.hash site)) site username = some C') :
    Inv (⟨t.table.set (t.hash site) C', t.capacity, t.count - 1⟩ : HashTable) ∧
      ∃ n, n.key = (site, username) ∧ t.entries.Perm
        (n :: HashTable.entries (⟨t.table.set (t.hash site) C', t.capacity, t.count - 1⟩ : HashTable)) := by
  obtain ⟨A, n, B, hC, _, hn, hC'⟩ := removeChain_eq_some _ _ _ _ h
  have hi : t.hash site < t.capacity := t.hash_lt _ hinv.pos
  have hi' : t.hash site < t.table.length := by rw [hinv.size]; exact hi
  have hE := entries_perm_bucket t _ hi'
  rw [hC, List.append_assoc, List.cons_append] at hE
  have hE2 : t.entries.Perm (n :: (C' ++ (t.table.eraseIdx (t.hash site)).flatten)) := by
    rw [hC', List.append_assoc]; exact hE.trans List.perm_middle
  have hnd : ((n :: (C' ++ (t.table.eraseIdx (t.hash site)).flatten)).map Credential.key).Nodup :=
    (hE2.map _).nodup_iff.mp hinv.uniq
  have hres := inv_of_set hinv (t.hash site) hi C' (t.count - 1)
    (by
      intro e he
      rw [hC'] at he
      rcases List.mem_append.mp he with he | he
      · exact hinv.placed _ e (by rw [hC]; exact List.mem_append_left _ he)
      · exact hinv.placed _ e (by
          rw [hC]; exact List.mem_append_right _ (List.mem_cons_of_mem _ he)))
    (by rw [List.map_cons, List.nodup_cons] at hnd; exact hnd.2)
    (by
      rw [hinv.count, hE2.length_eq]
      simp)
  exact ⟨hres.1, n, hn, hE2.trans (List.Perm.cons _ hres.2.symm)⟩

theorem remove_inv {t : HashTable} (hinv : Inv t) (site username : Str) :
    Inv (t.remove site username).2 := by
  unfold HashTable.remove
  cases h : removeChain (t.bucket (t.hash site)) site username with
  | none => exact hinv
  | some C' => exact (remove_found hinv site username C' h).1

theorem entries_clear (t : HashTable) : t.clear.entries = [] := by
  unfold HashTable.clear HashTable.entries
  simp only
  induction t.table with
  | nil => rfl
  | cons a l ih => simp [ih]

theorem bucket_clear (t : HashTable) (i : Nat) : t.clear.bucket i = [] := by
  unfold HashTable.clear HashTable.bucket
  simp only
  by_cases h : i < t.table.length
  · rw [List.getD_eq_getElem _ _ (by simpa using h)]; simp
  · rw [List.getD_eq_default _ _ (by simpa using h)]

theorem clear_inv {t : HashTable} (hinv : Inv t) : Inv t.clear where
  size := by simp [HashTable.clear, hinv.size]
  pos := hinv.pos
  placed := by
    intro i e he
    rw [bucket_clear] at he
    cases he
  uniq := by rw [entries_clear]; simp
  count := by rw [entries_clear]; simp [HashTable.clear]

theorem loadLines_inv {t : HashTable} (hinv : Inv t) (lines : List Str) :
    Inv (loadLines t lines) := by
  unfold loadLines
  induction lines generalizing t with
  | nil => exact hinv
  | cons l ls ih =>
    rw [List.foldl_cons]
    by_cases h : l.length > 5
    · rw [if_pos h]; exact ih (insert_spec hinv _).2.1
    · rw [if_neg h]; exact ih hinv

theorem load_inv {t : HashTable} (hinv : Inv t) (file : Option Str) (key : Str) :
    Inv (t.load file key).2 := by
  have hc := clear_inv hinv
  unfold HashTable.load
  cases file with
  | none => exact hc
  | some content =>
    simp only
    split_ifs
    · exact hc
    · exact hc
    · exact hc
    · exact hc
    · exact loadLines_inv hc _

theorem Reachable.inv {t : HashTable} (h : Reachable t) : Inv t := by
  induction h with
  | ctor cap h => exact inv_new cap h
  | insert cred _ ih => exact (insert_spec ih cred).2.1
  | update s u p _ ih => exact update_inv ih s u p
  | remove s u _ ih => exact remove_inv ih s u
  | rehash n hn _ ih => exact (rehash_spec ih n hn).2.1
  | clear _ ih => exact clear_inv ih
  | load file key _ ih => exact load_inv ih file key

/-! ## Lookups after `insert` and `remove` -/

theorem mem_entries_insert {t : HashTable} (hinv : Inv t) (c e : Credential) :
    e ∈ (t.insert c).entries ↔ e = c ∨ (e ∈ t.entries ∧ e.key ≠ c.key) := by
  rw [(insert_spec hinv c).2.2.1.mem_iff, mem_insEntries]

theorem insert_of_present {t : HashTable} (hinv : Inv t) (c e : Credential) (he : e ∈ t.entries)
    (hk : e.key = c.key) :
    ∃ C', t.insert c = ⟨t.table.set (t.hash c.site) C', t.capacity, t.count⟩ := by
  have hs : e.site = c.site := by simpa [Credential.key] using congrArg Prod.fst hk
  cases hch : insertChain (t.bucket (t.hash c.site)) c with
  | none =>
    exact absurd hk ((insertChain_eq_none _ _).mp hch e (hinv.mem_bucket_of_site he hs))
  | some C' =>
    refine ⟨C', ?_⟩
    have h1 := (insert_spec hinv c).1
    rw [insertF_succ_of_some _ hch] at h1
    exact (Option.some.inj h1).symm

theorem foldl_insert_spec {t : HashTable} (hinv : Inv t) (L : List Credential) :
    Inv (L.foldl HashTable.insert t) ∧
      (L.foldl HashTable.insert t).entries.Perm (L.foldl insEntries t.entries) := by
  induction L generalizing t with
  | nil => exact ⟨hinv, List.Perm.refl _⟩
  | cons c L ih =>
    have h1 := insert_spec hinv c
    have h2 := ih h1.2.1
    exact ⟨h2.1, h2.2.trans (foldl_insEntries_perm h1.2.2.1 L)⟩

theorem remove_of_present {t : HashTable} (hinv : Inv t) (site username : Str) (e : Credential)
    (he : e ∈ t.entries) (hk : e.key = (site, username)) :
    ∃ C', t.remove site username =
        (true, (⟨t.table.set (t.hash site) C', t.capacity, t.count - 1⟩ : HashTable)) ∧
      Inv (t.remove site username).2 ∧
      ∃ n, n.key = (site, username) ∧ t.entries.Perm (n :: (t.remove site username).2.entries) := by
  have hs : e.site = site := by simpa [Credential.key] using congrArg Prod.fst hk
  cases hch : removeChain (t.bucket (t.hash site)) site username with
  | none =>
    exact absurd hk ((removeChain_eq_none _ _ _).mp hch e (hinv.mem_bucket_of_site he hs))
  | some C' =>
    have hr : t.remove site username =
        (true, (⟨t.table.set (t.hash site) C', t.capacity, t.count - 1⟩ : HashTable)) := by
      unfold HashTable.remove; rw [hch]
    have := remove_found hinv site username C' hch
    refine ⟨C', hr, ?_, ?_⟩
    · rw [hr]; exact this.1
    · rw [hr]; exact this.2

theorem remove_of_absent (t : HashTable) (site username : Str)
    (h : ∀ e ∈ t.entries, ¬ (e.site = site ∧ e.username = username)) :
    t.remove site username = (false, t) := by
  have hch : removeChain (t.bucket (t.hash site)) site username = none := by
    rw [removeChain_eq_none]
    intro e he hk
    have hmem : e ∈ t.entries := by
      unfold HashTable.entries
      rw [mem_flatten_iff_getD]
      by_cases hi : t.hash site < t.table.length
      · exact ⟨_, hi, he⟩
      · unfold HashTable.bucket at he
        rw [List.getD_eq_default _ _ (by omega)] at he
        cases he
    simp only [Credential.key, Prod.mk.injEq] at hk
    exact h e hmem hk
  unfold HashTable.remove
  rw [hch]

theorem remove_search_none {t : HashTable} (hinv : Inv t) (site username : Str) (e : Credential)
    (he : e ∈ t.entries) (hk : e.key = (site, username))
    (h : username ≠ [] ∨ ∀ x ∈ t.entries, x.site = site → x.username = username) :
    (t.remove site username).2.search site username = none := by
  obtain ⟨C', _, hinv', n, hn, hperm⟩ := remove_of_present hinv site username e he hk
  have hnd : ((n :: (t.remove site username).2.entries).map Credential.key).Nodup :=
    (hperm.map _).nodup_iff.mp hinv.uniq
  rw [List.map_cons, List.nodup_cons] at hnd
  have hnokey : ∀ x ∈ (t.remove site username).2.entries, x.key ≠ (site, username) := by
    intro x hx hxk
    exact hnd.1 (List.mem_map.mpr ⟨x, hx, hxk.trans hn.symm⟩)
  by_cases hu : username = []
  · have hsite := h.resolve_left (fun hne => hne hu)
    subst hu
    rw [hinv'.search_nil_eq_none_iff]
    intro x hx hxs
    have hx0 : x ∈ t.entries := hperm.mem_iff.mpr (List.mem_cons_of_mem _ hx)
    exact hnokey x hx (by simp [Credential.key, hxs, hsite x hx0 hxs])
  · exact (hinv'.search_eq_none_iff hu).mpr hnokey

/-! # Claims on the codec and the table -/

theorem reachable_tableAnonAlice : Reachable tableAnonAlice :=
  Reachable.insert _ (Reachable.insert _ (Reachable.ctor 11 (by decide)))

theorem reachable_tableAliceBob : Reachable tableAliceBob :=
  Reachable.insert _ (Reachable.insert _ (Reachable.ctor 11 (by decide)))

/-- C1: for every credential whose site, username and password contain no
double-quote character (commas, newlines and empty fields allowed),
`fromCSV (toCSV c)` is `c`. -/
theorem C1_fromCSV_toCSV (c : Credential) (hs : QUOTE ∉ c.site) (hu : QUOTE ∉ c.username)
    (hp : QUOTE ∉ c.password) : Credential.fromCSV c.toCSV = c :=
  fromCSV_toCSV c hs hu hp

/-- C1 at the credential with site `a,\nb`, empty username and password `,,\n`. -/
theorem C1_fromCSV_toCSV_witness :
    (QUOTE ∉ [97, 44, 10, 98] ∧ QUOTE ∉ ([] : Str) ∧ QUOTE ∉ [44, 44, 10]) ∧
    Credential.fromCSV (Credential.toCSV ⟨[97, 44, 10, 98], [], [44, 44, 10]⟩)
      = ⟨[97, 44, 10, 98], [], [44, 44, 10]⟩ :=
  ⟨⟨by decide, by decide, by decide⟩,
    C1_fromCSV_toCSV ⟨[97, 44, 10, 98], [], [44, 44, 10]⟩ (by decide) (by decide) (by decide)⟩

/-- C5: for every table with capacity at least one in which no entry has the
pair (site, username), `remove(site, username)` returns false and leaves the
table (count, capacity and every chain) unchanged. -/
theorem C5_remove_absent (t : HashTable) (_hcap : 1 ≤ t.capacity) (site username : Str)
    (h : ∀ e ∈ t.entries, ¬ (e.site = site ∧ e.username = username)) :
    (t.remove site username).1 = false ∧ (t.remove site username).2 = t := by
  rw [remove_of_absent t site username h]
  exact ⟨rfl, rfl⟩

/-- C5 at the table of `test_hash.cpp` and the absent pair `("a.com", "bob")`. -/
theorem C5_remove_absent_witness :
    1 ≤ tableAliceBob.capacity ∧
    (∀ e ∈ tableAliceBob.entries, ¬ (e.site = credAlice.site ∧ e.username = credBob.username)) ∧
    (tableAliceBob.remove credAlice.site credBob.username).1 = false ∧
    (tableAliceBob.remove credAlice.site credBob.username).2 = tableAliceBob :=
  ⟨by decide, by decide,
    C5_remove_absent tableAliceBob (by decide) credAlice.site credBob.username (by decide)⟩

/-- C6 as stated fails: in the reachable table holding `("a.com", "", "p0")`
and `("a.com", "alice", "p1")`, `remove("a.com", "")` returns true and the
following `search("a.com", "")` still finds an entry, that of alice. -/
theorem C6_counterexample :
    Reachable tableAnonAlice ∧ credAnon ∈ tableAnonAlice.entries ∧
    (tableAnonAlice.remove credAnon.site credAnon.username).1 = true ∧
    (tableAnonAlice.remove credAnon.site credAnon.username).2.search
      credAnon.site credAnon.username = some credAlice :=
  ⟨reachable_tableAnonAlice, by decide, by decide, by decide⟩

/-- C6, amended: for every reachable table that holds an entry with the pair
(site, username), `remove(site, username)` returns true and decrements `count`
by exactly one; the following `search(site, username)` returns not-found when
the username is non-empty or no entry of that site with another username is
stored. -/
theorem C6_remove_present (t : HashTable) (ht : Reachable t) (site username : Str)
    (hex : ∃ e ∈ t.entries, e.site = site ∧ e.username = username) :
    (t.remove site username).1 = true ∧
    (t.remove site username).2.count = t.count - 1 ∧
    ((username ≠ [] ∨ ∀ x ∈ t.entries, x.site = site → x.username = username) →
      (t.remove site username).2.search site username = none) := by
  obtain ⟨e, he, hs, hu⟩ := hex
  have hk : e.key = (site, username) := by simp [Credential.key, hs, hu]
  obtain ⟨C', hr, _, _⟩ := remove_of_present ht.inv site username e he hk
  refine ⟨by rw [hr], by rw [hr], ?_⟩
  intro h
  exact remove_search_none ht.inv site username e he hk h

/-- C6, amended, at the table of `test_hash.cpp` and the pair
`("b.com", "bob")`: the removal of the test, followed by its search. -/
theorem C6_remove_present_witness :
    Reachable tableAliceBob ∧
    (∃ e ∈ tableAliceBob.entries, e.site = credBob.site ∧ e.username = credBob.username) ∧
    (tableAliceBob.remove credBob.site credBob.username).1 = true ∧
    (tableAliceBob.remove credBob.site credBob.username).2.count = tableAliceBob.count - 1 ∧
    (tableAliceBob.remove credBob.site credBob.username).2.search
      credBob.site credBob.username = none :=
  have h := C6_remove_present tableAliceBob reachable_tableAliceBob credBob.site credBob.username
    ⟨credBob, by decide, rfl, rfl⟩
  ⟨reachable_tableAliceBob, ⟨credBob, by decide, rfl, rfl⟩, h.1, h.2.1, h.2.2 (Or.inl (by decide))⟩

/-! # Lemmas on persistence -/

theorem length_sha256_raw (data : Str) : (sha256_raw data).length = 32 := by
  simp [sha256_raw, wordBytes]

theorem length_computeHMAC_SHA256 (data key : Str) :
    (computeHMAC_SHA256 data key).length = 32 := by
  unfold computeHMAC_SHA256
  exact length_sha256_raw _

theorem xorLoop_xorLoop (key : Str) (i : Nat) (data : Str) :
    xorLoop key i (xorLoop key i data) = data := by
  induction data generalizing i with
  | nil => rfl
  | cons d ds ih =>
    simp only [xorLoop, ih, Nat.xor_assoc, Nat.xor_self, Nat.xor_zero]

theorem xorCipher_xorCipher (data key : Str) : xorCipher (xorCipher data key) key = data := by
  unfold xorCipher
  by_cases h : key = []
  · simp [h]
  · simp only [h, if_false]
    exact xorLoop_xorLoop key 0 data

theorem save_eq (t : HashTable) (key : Str) :
    t.save key = some (FILE_MAGIC ++ computeHMAC_SHA256 (xorCipher (saveBuffer t) key) key ++
      xorCipher (saveBuffer t) key) := by
  unfold HashTable.save
  simp only [length_computeHMAC_SHA256, HMAC_SIZE, ne_eq, not_true_eq_false, if_false]

/-- The outcome of `load` on a file of at least 40 bytes that starts with the
magic constant. -/
theorem load_framed (t : HashTable) (tag payload key : Str) (htag : tag.length = 32) :
    t.load (some (FILE_MAGIC ++ tag ++ payload)) key =
      if computeHMAC_SHA256 payload key = tag then
        (true, loadLines t.clear (getlines (xorCipher payload key)))
      else (false, t.clear) := by
  have hlen : (FILE_MAGIC ++ tag ++ payload).length = 40 + payload.length := by
    simp [FILE_MAGIC, htag]; omega
  have h1 : (FILE_MAGIC ++ tag ++ payload).take FILE_MAGIC_SIZE = FILE_MAGIC := by
    rw [List.append_assoc]
    exact List.take_left' rfl
  have h2 : ((FILE_MAGIC ++ tag ++ payload).drop FILE_MAGIC_SIZE).take HMAC_SIZE = tag := by
    rw [List.append_assoc, List.drop_left' (by rfl)]
    exact List.take_left' htag
  have h3 : (FILE_MAGIC ++ tag ++ payload).drop (FILE_MAGIC_SIZE + HMAC_SIZE) = payload := by
    exact List.drop_left' (by simp [FILE_MAGIC, FILE_MAGIC_SIZE, HMAC_SIZE, htag])
  unfold HashTable.load
  simp only [h1, h2, h3, hlen, length_computeHMAC_SHA256, htag]
  have e1 : ¬ (40 + payload.length = 0) := by omega
  have e2 : ¬ (40 + payload.length < FILE_MAGIC_SIZE + HMAC_SIZE) := by
    simp [FILE_MAGIC_SIZE, HMAC_SIZE]
  simp only [e1, e2, if_false, ne_eq, not_true_eq_false, false_or]
  by_cases h : computeHMAC_SHA256 payload key = tag
  · simp [h]
  · simp [h]

theorem xorLoop_zero_key (i : Nat) (data : Str) : xorLoop [0] i data = data := by
  induction data generalizing i with
  | nil => rfl
  | cons d ds ih => simp [xorLoop, ih, Nat.mod_one]

theorem computeHMAC_SHA256_zero_key (data : Str) :
    computeHMAC_SHA256 data [0] = computeHMAC_SHA256 data [] := by
  unfold computeHMAC_SHA256
  rfl

/-- `load` with the one-byte key `0x00` accepts what `save` wrote with the
empty key and reads it as `load` with the empty key does. -/
theorem load_save_zero_key (t target : HashTable) :
    target.load (t.save []) [0] = (true, loadLines target.clear (getlines (saveBuffer t))) := by
  have hx : xorCipher (saveBuffer t) [] = saveBuffer t := by simp [xorCipher]
  rw [save_eq, load_framed _ _ _ _ (length_computeHMAC_SHA256 _ _), hx,
    computeHMAC_SHA256_zero_key, if_pos rfl]
  simp [xorCipher, xorLoop_zero_key]

/-- C8 as stated fails: the empty key and the one-byte key `0x00` differ, yet
`load` with the key `0x00` of what `save` wrote with the empty key returns
true and the loaded table holds the saved entries. -/
theorem C8_counterexample :
    ([] : Str) ≠ [0] ∧
    ((HashTable.new 11).load (tableAliceBob.save []) [0]).1 = true ∧
    ((HashTable.new 11).load (tableAliceBob.save []) [0]).2.search
      credAlice.site credAlice.username = some credAlice := by
  rw [load_save_zero_key]
  exact ⟨by decide, rfl, by decide⟩

/-- C8, amended: for every table content and every two keys `k` and `k'`
whose tags over the saved ciphertext differ, `load` with key `k'` of the bytes
that `save` produced with key `k` returns false and leaves the target table
cleared: no entry, `count = 0`. -/
theorem C8_load_other_key (t target : HashTable) (k k' : Str)
    (htag : computeHMAC_SHA256 (xorCipher (saveBuffer t) k) k' ≠
      computeHMAC_SHA256 (xorCipher (saveBuffer t) k) k) :
    (target.load (t.save k) k').1 = false ∧
    (target.load (t.save k) k').2 = target.clear ∧
    (target.load (t.save k) k').2.entries = [] ∧
    (target.load (t.save k) k').2.count = 0 := by
  rw [save_eq, load_framed _ _ _ _ (length_computeHMAC_SHA256 _ _), if_neg htag]
  exact ⟨rfl, rfl, entries_clear target, rfl⟩

set_option maxRecDepth 1000000 in
/-- C8, amended, at the table and the two keys of `test_hash.cpp`: the tags
of `"testkey"` and `"wrongkey"` over the ciphertext differ. -/
theorem C8_load_other_key_witness :
    (tableAnonAlice.load (tableAliceBob.save keyTest) keyWrong).1 = false ∧
    (tableAnonAlice.load (tableAliceBob.save keyTest) keyWrong).2 = tableAnonAlice.clear ∧
    (tableAnonAlice.load (tableAliceBob.save keyTest) keyWrong).2.entries = [] ∧
    (tableAnonAlice.load (tableAliceBob.save keyTest) keyWrong).2.count = 0 :=
  C8_load_other_key tableAliceBob tableAnonAlice keyTest keyWrong (by decide)

/-- The outcome of `load` on the content of an existing file, case by case. -/
theorem load_some_eq (t : HashTable) (content key : Str) :
    t.load (some content) key =
      if content.length = 0 then (true, t.clear)
      else if content.length < 40 then (false, t.clear)
      else if content.take 8 ≠ FILE_MAGIC then (false, t.clear)
      else if computeHMAC_SHA256 (content.drop 40) key ≠ (content.drop 8).take 32 then
        (false, t.clear)
      else (true, loadLines t.clear (getlines (xorCipher (content.drop 40) key))) := by
  unfold HashTable.load
  simp only [FILE_MAGIC_SIZE, HMAC_SIZE, length_computeHMAC_SHA256]
  by_cases h0 : content.length = 0
  · simp [h0]
  · by_cases h1 : content.length < 40
    · simp [h0, h1]
    · have hl : ((content.drop 8).take 32).length = 32 := by
        rw [List.length_take, List.length_drop]; omega
      simp only [h0, h1, if_false, hl, ne_eq, not_true_eq_false, false_or, Nat.reduceAdd]

theorem load_fst_eq_false (t : HashTable) (file : Option Str) (key : Str)
    (h : (t.load file key).1 = false) : (t.load file key).2 = t.clear := by
  cases file with
  | none => rfl
  | some content =>
    rw [load_some_eq] at h ⊢
    split_ifs at h ⊢ <;> rfl

theorem search_clear (t : HashTable) (site username : Str) :
    t.clear.search site username = none := by
  unfold HashTable.search
  rw [bucket_clear]
  rfl

/-- C9: for every content of an existing file and every key, `load` returns
true if and only if the content is empty, or it has at least 40 bytes, its
first 8 bytes are the magic constant and its bytes 8..39 are the tag of the
bytes from offset 40 on under the key; every content of 1 to 39 bytes is
rejected, and the empty content is accepted and leaves the cleared, empty
table. -/
theorem C9_load_success_iff (t : HashTable) (content key : Str) :
    ((t.load (some content) key).1 = true ↔
      content = [] ∨ (40 ≤ content.length ∧ content.take 8 = FILE_MAGIC ∧
        (content.drop 8).take 32 = computeHMAC_SHA256 (content.drop 40) key)) ∧
    ((1 ≤ content.length ∧ content.length ≤ 39) → (t.load (some content) key).1 = false) ∧
    (t.load (some []) key = (true, t.clear) ∧ t.clear.entries = [] ∧ t.clear.count = 0) := by
  refine ⟨?_, ?_, ?_⟩
  · rw [load_some_eq]
    by_cases h0 : content.length = 0
    · have : content = [] := List.length_eq_zero.mp h0
      simp [this]
    · have hne : content ≠ [] := fun h => h0 (by rw [h]; rfl)
      rw [if_neg h0]
      by_cases h1 : content.length < 40
      · rw [if_pos h1]
        constructor
        · intro h; exact absurd h (by simp)
        · rintro (h | h)
          · exact absurd h hne
          · omega
      · rw [if_neg h1]
        by_cases h2 : content.take 8 = FILE_MAGIC
        · rw [if_neg (not_not.mpr h2)]
          by_cases h3 : computeHMAC_SHA256 (content.drop 40) key = (content.drop 8).take 32
          · rw [if_neg (not_not.mpr h3)]
            exact ⟨fun _ => Or.inr ⟨by omega, h2, h3.symm⟩, fun _ => rfl⟩
          · rw [if_pos h3]
            constructor
            · intro h; exact absurd h (by simp)
            · rintro (h | h)
              · exact absurd h hne
              · exact absurd h.2.2.symm h3
        · rw [if_pos h2]
          constructor
          · intro h; exact absurd h (by simp)
          · rintro (h | h)
            · exact absurd h hne
            · exact absurd h.2.1 h2
  · intro h
    rw [load_some_eq]
    have h0 : ¬ content.length = 0 := by omega
    have h1 : content.length < 40 := by omega
    simp [h0, h1]
  · exact ⟨by rw [load_some_eq]; rfl, entries_clear t, rfl⟩

/-- C9 at the table of `test_hash.cpp`, the three-byte content `abc` and the
key `"testkey"`: the file is rejected. -/
theorem C9_load_success_iff_witness :
    (tableAliceBob.load (some [97, 98, 99]) keyTest).1 = false ∧
    tableAliceBob.load (some []) keyTest = (true, tableAliceBob.clear) :=
  ⟨(C9_load_success_iff tableAliceBob [97, 98, 99] keyTest).2.1 ⟨by decide, by decide⟩,
    (C9_load_success_iff tableAliceBob [97, 98, 99] keyTest).2.2.1⟩

/-- C10: for every prior table state, every file (missing or with any
content) and every key, whenever `load` returns false the table afterwards is
empty (`count = 0`, no entry, every `search` returns not-found) and its
capacity is unchanged. -/
theorem C10_load_failure_clears (t : HashTable) (file : Option Str) (key : Str)
    (h : (t.load file key).1 = false) :
    (t.load file key).2.count = 0 ∧
    (t.load file key).2.entries = [] ∧
    (∀ site username, (t.load file key).2.search site username = none) ∧
    (t.load file key).2.capacity = t.capacity ∧
    (t.load file key).2.table.length = t.table.length := by
  rw [load_fst_eq_false t file key h]
  exact ⟨rfl, entries_clear t, search_clear t, rfl, by simp [HashTable.clear]⟩

/-- C10 at the table of `test_hash.cpp` and a file of three bytes. -/
theorem C10_load_failure_clears_witness :
    (tableAliceBob.load (some [1, 2, 3]) keyTest).1 = false ∧
    (tableAliceBob.load (some [1, 2, 3]) keyTest).2.count = 0 ∧
    (tableAliceBob.load (some [1, 2, 3]) keyTest).2.search credAlice.site credAlice.username = none ∧
    (tableAliceBob.load (some [1, 2, 3]) keyTest).2.capacity = 11 :=
  have h := C10_load_failure_clears tableAliceBob (some [1, 2, 3]) keyTest (by decide)
  ⟨by decide, h.1, h.2.2.1 _ _, h.2.2.2.1⟩

/-! # Claims on the digest engine -/

set_option maxRecDepth 1000000 in
/-- C11: `sha256_hex` of the empty string and of `abc` are the published FIPS
digests, and `sha256_raw` returns the corresponding 32 raw bytes. -/
theorem C11_sha256_vectors :
    sha256_hex [] =
      ascii ("e3b0c44298fc1c149afbf4c8996fb92427ae41e4649b934ca495991b7852b855") ∧
    sha256_hex (ascii ("abc")) =
      ascii ("ba7816bf8f01cfea414140de5dae2223b00361a396177a9cb410ff61f20015ad") ∧
    sha256_raw [] =
      [0xe3, 0xb0, 0xc4, 0x42, 0x98, 0xfc, 0x1c, 0x14, 0x9a, 0xfb, 0xf4, 0xc8, 0x99, 0x6f, 0xb9,
       0x24, 0x27, 0xae, 0x41, 0xe4, 0x64, 0x9b, 0x93, 0x4c, 0xa4, 0x95, 0x99, 0x1b, 0x78, 0x52,
       0xb8, 0x55] ∧
    sha256_raw [97, 98, 99] =
      [0xba, 0x78, 0x16, 0xbf, 0x8f, 0x01, 0xcf, 0xea, 0x41, 0x41, 0x40, 0xde, 0x5d, 0xae, 0x22,
       0x23, 0xb0, 0x03, 0x61, 0xa3, 0x96, 0x17, 0x7a, 0x9c, 0xb4, 0x10, 0xff, 0x61, 0xf2, 0x00,
       0x15, 0xad] ∧
    (sha256_raw []).length = 32 ∧ (sha256_raw [97, 98, 99]).length = 32 := by
  refine ⟨by decide, by decide, by decide, by decide, length_sha256_raw _, length_sha256_raw _⟩

set_option maxRecDepth 1000000 in
/-- C12: the embedded `computeHMAC_SHA256` with key `Jefe` and message
`what do ya want for nothing?` (RFC 4231, test case 2) returns the published
tag. -/
theorem C12_hmac_vector :
    ascii ("Jefe") = [74, 101, 102, 101] ∧
    computeHMAC_SHA256 (ascii ("what do ya want for nothing?")) (ascii ("Jefe")) =
      [0x5b, 0xdc, 0xc1, 0x46, 0xbf, 0x60, 0x75, 0x4e, 0x6a, 0x04, 0x24, 0x26, 0x08, 0x95, 0x75,
       0xc7, 0x5a, 0x00, 0x3f, 0x08, 0x9d, 0x27, 0x39, 0x83, 0x9d, 0xec, 0x58, 0xb9, 0x64, 0xec,
       0x38, 0x43] := by
  exact ⟨by decide, by decide⟩

/-! # Claims on the hash and on the invariants -/

theorem neg_lt_tmod (a : Int) (n : Nat) (hn : 0 < n) : -(n : Int) < Int.tmod a n := by
  cases a with
  | ofNat m =>
    have : (0 : Int) ≤ Int.tmod (Int.ofNat m) n := Int.tmod_nonneg _ (Int.ofNat_nonneg m)
    omega
  | negSucc m =>
    have h1 : Int.tmod (Int.negSucc m) (n : Int) = -((Nat.succ m % n : Nat) : Int) := rfl
    have h2 : Nat.succ m % n < n := Nat.mod_lt _ hn
    rw [h1]
    omega

/-- The final reduction of `hash` maps every intermediate value `h`, of either
sign, into the range of the bucket indices. -/
theorem reduce_range (h : Int) (n : Nat) (hn : 1 ≤ n) :
    0 ≤ Int.tmod (Int.tmod h n + n) n ∧ Int.tmod (Int.tmod h n + n) n < n := by
  have h1 := neg_lt_tmod h n hn
  have hpos : (0 : Int) < (n : Int) := by exact_mod_cast hn
  exact ⟨Int.tmod_nonneg _ (by omega), Int.tmod_lt_of_pos _ hpos⟩

/-- C20: for every table with capacity at least one and every key, whatever
its characters, the index computed by `hash` is at least zero and below the
capacity, and the returned `int` is that index. -/
theorem C20_hash_range (t : HashTable) (hcap : 1 ≤ t.capacity) (key : Str) :
    0 ≤ t.hashInt key ∧ t.hashInt key < t.capacity ∧
    (t.hash key : Int) = t.hashInt key ∧ t.hash key < t.capacity := by
  have h := reduce_range (hashLoop key 0 1) t.capacity hcap
  have h3 : (t.hash key : Int) = t.hashInt key := by
    unfold HashTable.hash HashTable.hashInt
    exact Int.toNat_of_nonneg h.1
  exact ⟨h.1, h.2, h3, t.hash_lt key hcap⟩

/-- C20 at a table of capacity 11 and the key made of a space, an upper-case
`Z`, a backquote (value zero), a digit and the byte `0xff`: the intermediate
hash value is negative and the index is 6. -/
theorem C20_hash_range_witness :
    hashLoop [32, 90, 96, 57, 255] 0 1 < 0 ∧
    0 ≤ (HashTable.new 11).hashInt [32, 90, 96, 57, 255] ∧
    (HashTable.new 11).hashInt [32, 90, 96, 57, 255] < (HashTable.new 11).capacity ∧
    (((HashTable.new 11).hash [32, 90, 96, 57, 255] : Nat) : Int)
      = (HashTable.new 11).hashInt [32, 90, 96, 57, 255] ∧
    (HashTable.new 11).hash [32, 90, 96, 57, 255] < (HashTable.new 11).capacity :=
  ⟨by decide, C20_hash_range (HashTable.new 11) (by decide) [32, 90, 96, 57, 255]⟩

/-- C17: in every table reachable from the constructor by `insert`, `update`,
`remove`, `rehash`, `clear` and `load`, no two stored entries have the same
(site, username) pair. -/
theorem C17_unique_pairs (t : HashTable) (ht : Reachable t) :
    (t.entries.map Credential.key).Nodup ∧
    ∀ a ∈ t.entries, ∀ b ∈ t.entries, a.site = b.site → a.username = b.username → a = b := by
  refine ⟨ht.inv.uniq, ?_⟩
  intro a ha b hb hs hu
  exact ht.inv.key_inj ha hb (by simp [Credential.key, hs, hu])

/-- C17 at the table of `test_hash.cpp` after a second insert of alice with
another password. -/
theorem C17_unique_pairs_witness :
    Reachable (tableAliceBob.insert credAlice2) ∧
    ((tableAliceBob.insert credAlice2).entries.map Credential.key).Nodup ∧
    (tableAliceBob.insert credAlice2).entries.length = 2 :=
  ⟨Reachable.insert _ reachable_tableAliceBob,
    (C17_unique_pairs (tableAliceBob.insert credAlice2)
      (Reachable.insert _ reachable_tableAliceBob)).1, by decide⟩

/-! ## The load-factor bound -/

theorem foldlM_loadOk (ins : HashTable → Credential → Option HashTable)
    (h : ∀ t c t', ins t c = some t' → LoadOk t → LoadOk t') :
    ∀ (L : List Credential) (t0 t' : HashTable), L.foldlM ins t0 = some t' → LoadOk t0 →
      LoadOk t' := by
  intro L
  induction L with
  | nil =>
    intro t0 t' e h0
    have : t0 = t' := by simpa using e
    rw [← this]; exact h0
  | cons c L ih =>
    intro t0 t' e h0
    rw [List.foldlM_cons] at e
    cases h1 : ins t0 c with
    | none => rw [h1] at e; cases e
    | some t1 =>
      rw [h1] at e
      exact ih t1 t' e (h t0 c t1 h1 h0)

theorem loadOk_new (n : Nat) : LoadOk (HashTable.new n) := by
  unfold LoadOk HashTable.new
  simp

theorem insertF_loadOk (f : Nat) : ∀ (t : HashTable) (c : Credential) (t' : HashTable),
    insertF f t c = some t' → LoadOk t → LoadOk t' := by
  induction f with
  | zero =>
    intro t c t' e _
    simp [insertF] at e
  | succ f ih =>
    intro t c t' e h0
    cases hch : insertChain (t.bucket (t.hash c.site)) c with
    | some C' =>
      rw [insertF_succ_of_some _ hch] at e
      rw [← Option.some.inj e]
      exact h0
    | none =>
      rw [insertF_succ_of_none _ hch] at e
      by_cases hg : overLoadFactor (t.count + 1) t.capacity = true
      · rw [if_pos hg] at e
        exact foldlM_loadOk (insertF f) ih _ _ t' e (loadOk_new _)
      · rw [if_neg hg] at e
        rw [← Option.some.inj e]
        intro hcap
        exact le_of_overLoadFactor_eq_false _ _ hcap (by simpa using hg)

theorem insert_loadOk {t : HashTable} (hinv : Inv t) (h0 : LoadOk t) (c : Credential) :
    LoadOk (t.insert c) :=
  insertF_loadOk _ t c _ (insert_spec hinv c).1 h0

theorem rehash_loadOk {t : HashTable} (hinv : Inv t) (n : Nat) (hn : 1 ≤ n) :
    LoadOk (t.rehash n) :=
  foldlM_loadOk _ (insertF_loadOk _) _ _ _ (rehash_spec hinv n hn).1 (loadOk_new n)

theorem clear_loadOk (t : HashTable) : LoadOk t.clear := by
  unfold LoadOk HashTable.clear
  simp

theorem loadLines_loadOk {t : HashTable} (hinv : Inv t) (h0 : LoadOk t) (lines : List Str) :
    LoadOk (loadLines t lines) := by
  unfold loadLines
  induction lines generalizing t with
  | nil => exact h0
  | cons l ls ih =>
    rw [List.foldl_cons]
    by_cases h : l.length > 5
    · rw [if_pos h]; exact ih (insert_spec hinv _).2.1 (insert_loadOk hinv h0 _)
    · rw [if_neg h]; exact ih hinv h0

theorem load_loadOk {t : HashTable} (hinv : Inv t) (file : Option Str) (key : Str) :
    LoadOk (t.load file key).2 := by
  cases file with
  | none => exact clear_loadOk t
  | some content =>
    rw [load_some_eq]
    split_ifs
    · exact clear_loadOk t
    · exact clear_loadOk t
    · exact clear_loadOk t
    · exact clear_loadOk t
    · exact loadLines_loadOk (clear_inv hinv) (clear_loadOk t) _

theorem Reachable.loadOk {t : HashTable} (h : Reachable t) : LoadOk t := by
  induction h with
  | ctor cap _ => exact loadOk_new cap
  | insert cred hr ih => exact insert_loadOk hr.inv ih cred
  | @update t s u p hr ih =>
    unfold HashTable.update
    cases updateChain (t.bucket (t.hash s)) s u p with
    | none => exact ih
    | some C' => exact ih
  | @remove t s u hr ih =>
    unfold HashTable.remove
    cases removeChain (t.bucket (t.hash s)) s u with
    | none => exact ih
    | some C' =>
      unfold LoadOk at ih ⊢
      simp only
      intro hcap
      have := ih hcap
      omega
  | rehash n hn hr _ => exact rehash_loadOk hr.inv n hn
  | clear _ _ => exact clear_loadOk _
  | load file key hr _ => exact load_loadOk hr.inv file key

theorem reachable_tableThree : Reachable tableThree :=
  Reachable.insert _ (Reachable.insert _ (Reachable.insert _ (Reachable.ctor 1 (by decide))))

/-- C16, amended: for every table reachable from the constructor by `insert`,
`remove`, `update`, `clear`, `load` and `rehash`, when an `insert` completes
with a capacity of at most `2^23 = 8388608` the bound `4 * count <= 3 *
capacity` holds. -/
theorem C16_load_factor_after_insert (t : HashTable) (ht : Reachable t) (c : Credential)
    (hcap : (t.insert c).capacity ≤ 2 ^ 23) :
    4 * (t.insert c).count ≤ 3 * ((t.insert c).capacity : Int) :=
  insert_loadOk ht.inv ht.loadOk c hcap

/-- C16, amended, at the table of three entries after `rehash(1)`, for the
insert of a fourth entry. -/
theorem C16_load_factor_after_insert_witness :
    Reachable (tableThree.rehash 1) ∧
    ((tableThree.rehash 1).insert credNewline).capacity ≤ 2 ^ 23 ∧
    4 * ((tableThree.rehash 1).insert credNewline).count ≤
      3 * (((tableThree.rehash 1).insert credNewline).capacity : Int) :=
  ⟨Reachable.rehash 1 (by decide) reachable_tableThree, by decide,
    C16_load_factor_after_insert _ (Reachable.rehash 1 (by decide) reachable_tableThree)
      credNewline (by decide)⟩

/-! ## More fuel gives the same result -/

theorem set_eq_map {α : Type} (l : List α) (i : Nat) (x : α) (g : α → α) (hi : i < l.length)
    (hx : g (l.get ⟨i, hi⟩) = x) (hg : ∀ j (hj : j < l.length), j ≠ i → g (l.get ⟨j, hj⟩) = l.get ⟨j, hj⟩) :
    l.set i x = l.map g := by
  apply List.ext_getElem
  · simp
  · intro j h1 h2
    rw [List.getElem_set, List.getElem_map]
    have hj : j < l.length := by simpa using h1
    by_cases hij : i = j
    · subst hij
      rw [if_pos rfl]
      exact hx.symm
    · rw [if_neg hij]
      exact (hg j hj (fun h => hij h.symm)).symm

theorem map_eq_self_of_forall {α : Type} (l : List α) (g : α → α) (h : ∀ a ∈ l, g a = a) :
    l.map g = l := by
  induction l with
  | nil => rfl
  | cons a l ih =>
    rw [List.map_cons, h a (List.mem_cons_self _ _),
      ih (fun b hb => h b (List.mem_cons_of_mem _ hb))]

theorem setPassword_of_ne {site username newPassword : Str} {e : Credential}
    (h : e.key ≠ (site, username)) : setPassword site username newPassword e = e := by
  unfold setPassword
  rw [if_neg]
  intro hk
  exact h (by simp [Credential.key, hk.1, hk.2])

theorem update_table_eq {t : HashTable} (hinv : Inv t) (site username newPassword : Str)
    (hu : username ≠ []) :
    (t.update site username newPassword).2 =
      ⟨t.table.map (List.map (setPassword site username newPassword)), t.capacity, t.count⟩ ∧
    ((t.update site username newPassword).1 = true ↔
      ∃ e ∈ t.entries, e.site = site ∧ e.username = username) := by
  have hi : t.hash site < t.capacity := t.hash_lt _ hinv.pos
  have hi' : t.hash site < t.table.length := by rw [hinv.size]; exact hi
  have hb : t.bucket (t.hash site) = t.table.get ⟨t.hash site, hi'⟩ := by
    unfold HashTable.bucket
    rw [List.getD_eq_getElem _ _ hi']
    rfl
  have hother : ∀ j (hj : j < t.table.length), j ≠ t.hash site →
      (t.table.get ⟨j, hj⟩).map (setPassword site username newPassword)
        = t.table.get ⟨j, hj⟩ := by
    intro j hj hne
    apply map_eq_self_of_forall
    intro e he
    apply setPassword_of_ne
    intro hk
    have hs : e.site = site := by simpa [Credential.key] using congrArg Prod.fst hk
    have hej : e ∈ t.bucket j := by
      unfold HashTable.bucket
      rw [List.getD_eq_getElem _ _ hj]
      exact he
    have := hinv.placed j e hej
    rw [hs] at this
    exact hne this.symm
  unfold HashTable.update
  cases h : updateChain (t.bucket (t.hash site)) site username newPassword with
  | none =>
    have hno := (updateChain_eq_none _ _ _ _).mp h
    have hnokey : ∀ e ∈ t.entries, e.key ≠ (site, username) := by
      intro e he hk
      have hs : e.site = site := by simpa [Credential.key] using congrArg Prod.fst hk
      exact hno e (hinv.mem_bucket_of_site he hs) ((searchMatch_iff_key hu e).mpr hk)
    constructor
    · have htab : t.table.map (List.map (setPassword site username newPassword)) = t.table := by
        apply map_eq_self_of_forall
        intro chain hc
        apply map_eq_self_of_forall
        intro e he
        exact setPassword_of_ne (hnokey e (List.mem_flatten.mpr ⟨chain, hc, he⟩))
      rw [htab]
    · constructor
      · intro hf; exact absurd hf (by simp)
      · rintro ⟨e, he, hs, hun⟩
        exact absurd (by simp [Credential.key, hs, hun]) (hnokey e he)
  | some C' =>
    obtain ⟨A, n, B, hC, hA, hn, hC'⟩ := updateChain_eq_some _ _ _ _ _ h
    have hnk : n.key = (site, username) := (searchMatch_iff_key hu n).mp hn
    have hnd : ((t.bucket (t.hash site) ++ (t.table.eraseIdx (t.hash site)).flatten).map
        Credential.key).Nodup := ((entries_perm_bucket t _ hi').map _).nodup_iff.mp hinv.uniq
    have hB : ∀ b ∈ B, b.key ≠ (site, username) := by
      intro b hb hk
      rw [hC, List.append_assoc, List.cons_append, List.map_append, List.map_cons] at hnd
      have h1 := (List.nodup_cons.mp (List.nodup_middle.mp hnd)).1
      apply h1
      rw [hnk, ← hk, ← List.map_append]
      exact List.mem_map_of_mem _ (List.mem_append_right _ (List.mem_append_left _ hb))
    have hmapC : (t.bucket (t.hash site)).map (setPassword site username newPassword) = C' := by
      rw [hC, hC', List.map_append, List.map_cons,
        map_eq_self_of_forall A _ (fun a ha => setPassword_of_ne
          (fun hk => hA a ha ((searchMatch_iff_key hu a).mpr hk))),
        map_eq_self_of_forall B _ (fun b hb => setPassword_of_ne (hB b hb))]
      have : setPassword site username newPassword n = { n with password := newPassword } := by
        unfold setPassword
        have hs : n.site = site ∧ n.username = username := by
          simpa [Credential.key] using hnk
        rw [if_pos hs]
      rw [this]
    constructor
    · have := set_eq_map t.table (t.hash site) C'
        (List.map (setPassword site username newPassword)) hi' (by rw [← hb]; exact hmapC) hother
      simp only
      rw [this]
    · constructor
      · intro _
        have hnmem : n ∈ t.entries :=
          hinv.mem_entries_of_bucket (i := t.hash site) (by rw [hC]; simp)
        have hs : n.site = site ∧ n.username = username := by
          simpa [Credential.key] using hnk
        exact ⟨n, hnmem, hs.1, hs.2⟩
      · intro _; rfl

/-- C14: for every reachable table and every site, non-empty username and new
password, `update` returns true exactly when an entry with that pair is
stored; the table afterwards has, chain by chain and position by position, the
same entries, except that the entry with that pair has the new password;
`count` and `capacity` are unchanged. -/
theorem C14_update (t : HashTable) (ht : Reachable t) (site username newPassword : Str)
    (hu : username ≠ []) :
    ((t.update site username newPassword).1 = true ↔
      ∃ e ∈ t.entries, e.site = site ∧ e.username = username) ∧
    (t.update site username newPassword).2.table =
      t.table.map (List.map (setPassword site username newPassword)) ∧
    (t.update site username newPassword).2.count = t.count ∧
    (t.update site username newPassword).2.capacity = t.capacity := by
  have h := update_table_eq ht.inv site username newPassword hu
  rw [h.1]
  exact ⟨h.2, rfl, rfl, rfl⟩

/-- C14 at the table of `test_hash.cpp` and the update of the test: the
password of alice becomes `newpass` and the entry of bob is untouched. -/
theorem C14_update_witness :
    Reachable tableAliceBob ∧ credAlice.username ≠ [] ∧
    (tableAliceBob.update credAlice.site credAlice.username credAlice2.password).1 = true ∧
    (tableAliceBob.update credAlice.site credAlice.username credAlice2.password).2.entries
      = [credAlice2, credBob] ∧
    (tableAliceBob.update credAlice.site credAlice.username credAlice2.password).2.table =
      tableAliceBob.table.map
        (List.map (setPassword credAlice.site credAlice.username credAlice2.password)) :=
  ⟨reachable_tableAliceBob, by decide, by decide, by decide,
    (C14_update tableAliceBob reachable_tableAliceBob credAlice.site credAlice.username
      credAlice2.password (by decide)).2.1⟩

/-! ## `search` by site alone -/

theorem searchChain_nil_eq_find (C : List Credential) (site : Str) :
    searchChain C site [] = C.find? (fun e => decide (e.site = site)) := by
  induction C with
  | nil => rfl
  | cons n rest ih =>
    unfold searchChain
    rw [List.find?_cons]
    by_cases h : n.site = site
    · simp [h]
    · simp [h, ih]

theorem insert_fresh_eq {t : HashTable} (hinv : Inv t) (c : Credential)
    (hfresh : ∀ e ∈ t.entries, e.key ≠ c.key)
    (hload : overLoadFactor (t.count + 1) t.capacity = false) :
    t.insert c =
      ⟨t.table.set (t.hash c.site) (c :: t.bucket (t.hash c.site)), t.capacity, t.count + 1⟩ := by
  have hch : insertChain (t.bucket (t.hash c.site)) c = none := by
    rw [insertChain_eq_none]
    intro e he
    exact hfresh e (hinv.mem_entries_of_bucket he)
  have h1 := (insert_spec hinv c).1
  rw [insertF_succ_of_none _ hch, hload, if_neg (by simp)] at h1
  exact (Option.some.inj h1).symm

theorem search_insert_fresh {t : HashTable} (hinv : Inv t) (c : Credential)
    (hfresh : ∀ e ∈ t.entries, e.key ≠ c.key)
    (hload : overLoadFactor (t.count + 1) t.capacity = false) (site : Str) :
    (t.insert c).search site [] = if c.site = site then some c else t.search site [] := by
  have hi : t.hash c.site < t.table.length := by
    rw [hinv.size]; exact t.hash_lt _ hinv.pos
  rw [insert_fresh_eq hinv c hfresh hload]
  unfold HashTable.search HashTable.bucket
  show searchChain ((t.table.set (t.hash c.site) (c :: t.table.getD (t.hash c.site) [])).getD
    (t.hash site) []) site [] = _
  by_cases hs : c.site = site
  · rw [if_pos hs, ← hs, getD_set_self _ _ _ hi]
    simp [searchChain]
  · rw [if_neg hs]
    by_cases hh : t.hash c.site = t.hash site
    · rw [← hh, getD_set_self _ _ _ hi]
      simp [searchChain, hs]
    · rw [getD_set_other _ _ _ _ hh]

theorem search_foldl_insert_fresh (L : List Credential) : ∀ (t : HashTable), Inv t →
    (L.map Credential.key).Nodup → (∀ c ∈ L, ∀ e ∈ t.entries, e.key ≠ c.key) →
    (∀ i : Nat, i < L.length → overLoadFactor (t.count + i + 1) t.capacity = false) →
    ∀ site : Str,
    (L.foldl HashTable.insert t).search site [] =
      (L.reverse.find? (fun e => decide (e.site = site))).or (t.search site []) := by
  induction L with
  | nil => intro t _ _ _ _ site; simp
  | cons c L ih =>
    intro t hinv hnd hfresh hload site
    rw [List.map_cons, List.nodup_cons] at hnd
    have hfc : ∀ e ∈ t.entries, e.key ≠ c.key := hfresh c (List.mem_cons_self _ _)
    have hl : overLoadFactor (t.count + 1) t.capacity = false := by
      have := hload 0 (by simp)
      simpa using this
    have heq := insert_fresh_eq hinv c hfc hl
    have hspec := insert_spec hinv c
    rw [List.foldl_cons, ih (t.insert c) hspec.2.1 hnd.2 ?_ ?_ site,
      search_insert_fresh hinv c hfc hl site, List.reverse_cons, List.find?_append,
      Option.or_assoc]
    · congr 1
      by_cases hs : c.site = site
      · simp [hs]
      · simp [hs]
    · intro x hx e he
      rcases (mem_entries_insert hinv c e).mp he with rfl | ⟨he0, _⟩
      · intro hk
        exact hnd.1 (List.mem_map.mpr ⟨x, hx, hk.symm⟩)
      · exact hfresh x (List.mem_cons_of_mem _ hx) e he0
    · rw [heq]
      intro i hi
      have := hload (i + 1) (by simp only [List.length_cons]; omega)
      have he : t.count + ((i + 1 : Nat) : Int) + 1 = t.count + 1 + (i : Int) + 1 := by
        push_cast; ring
      rw [he] at this
      exact this

theorem reachable_tableResized : Reachable tableResized :=
  Reachable.insert _ (Reachable.insert _ (Reachable.ctor 2 (by decide)))

/-- C13 as stated fails: in the table of capacity 2 the insert of
`("a.com", "alice", "p1")` is followed by the insert of
`("a.com", "carol", "p3")`, which resizes the table; both entries are stored,
carol was inserted most recently, and `search("a.com")` returns the entry of
alice. -/
theorem C13_counterexample :
    Reachable tableResized ∧
    tableResized = ((HashTable.new 2).insert credAlice).insert credCarol ∧
    tableResized.capacity = 5 ∧
    tableResized.entries = [credAlice, credCarol] ∧
    credCarol.site = credAlice.site ∧
    tableResized.search credCarol.site [] = some credAlice ∧
    tableResized.search credCarol.site [] ≠ some credCarol :=
  ⟨reachable_tableResized, rfl, by decide, by decide, by decide, by decide, by decide⟩

/-- C13, amended: for every reachable table and every site, `search(site)`
with an empty username returns the first entry of that site in the chain of
its bucket, and not-found only when no entry has that site; after a sequence
of inserts of new pairs none of which passes the resize test of `insert` it
returns the entry of that site inserted last in the sequence, or, when the
sequence has none, what it returned before the sequence. -/
theorem C13_search_by_site (t : HashTable) (ht : Reachable t) (site : Str) :
    t.search site [] = (t.bucket (t.hash site)).find? (fun e => decide (e.site = site)) ∧
    (t.search site [] = none ↔ ∀ e ∈ t.entries, e.site ≠ site) ∧
    ∀ L : List Credential, (L.map Credential.key).Nodup →
      (∀ c ∈ L, ∀ e ∈ t.entries, e.key ≠ c.key) →
      (∀ i : Nat, i < L.length → overLoadFactor (t.count + i + 1) t.capacity = false) →
      (L.foldl HashTable.insert t).search site [] =
        (L.reverse.find? (fun e => decide (e.site = site))).or (t.search site []) :=
  ⟨searchChain_nil_eq_find _ _, ht.inv.search_nil_eq_none_iff,
    fun L hnd hfresh hload => search_foldl_insert_fresh L t ht.inv hnd hfresh hload site⟩

/-- C13, amended, at the table of `test_hash.cpp` (capacity 11): after the
inserts of `("a.com", "", "p0")` and `("a.com", "carol", "p3")`, in that
order, `search("a.com")` returns the entry of carol. -/
theorem C13_search_by_site_witness :
    Reachable tableAliceBob ∧
    ([credAnon, credCarol].foldl HashTable.insert tableAliceBob).search credAlice.site []
      = some credCarol :=
  ⟨reachable_tableAliceBob,
    ((C13_search_by_site tableAliceBob reachable_tableAliceBob credAlice.site).2.2
      [credAnon, credCarol] (by decide) (by decide) (by decide)).trans (by decide)⟩

/-! ## `isPrime` and `nextPrime` -/

theorem isPrimeLoop_eq_true_iff (fuel : Nat) : ∀ (i n : Nat), 1 ≤ i →
    (isPrimeLoop fuel i n = true ↔ ∀ d, i ≤ d → d * d ≤ n → d < i + fuel → ¬ d ∣ n) := by
  induction fuel with
  | zero =>
    intro i n _
    simp only [isPrimeLoop, true_iff]
    intro d h1 _ h3
    omega
  | succ fuel ih =>
    intro i n hi
    unfold isPrimeLoop
    by_cases h1 : i * i ≤ n
    · rw [if_pos h1]
      by_cases h2 : n % i = 0
      · rw [if_pos h2]
        constructor
        · intro h; cases h
        · intro h
          exact absurd (Nat.dvd_of_mod_eq_zero h2) (h i (le_refl i) h1 (by omega))
      · rw [if_neg h2, ih (i + 1) n (by omega)]
        constructor
        · intro h d hd1 hd2 hd3
          by_cases hdi : d = i
          · subst hdi
            intro hdvd
            exact h2 (Nat.mod_eq_zero_of_dvd hdvd)
          · exact h d (by omega) hd2 (by omega)
        · intro h d hd1 hd2 hd3
          exact h d (by omega) hd2 (by omega)
    · rw [if_neg h1]
      simp only [true_iff]
      intro d hd1 hd2 _
      have : i * i ≤ d * d := Nat.mul_le_mul hd1 hd1
      omega

theorem isPrime_eq_true_iff (n : Int) : isPrime n = true ↔ 0 ≤ n ∧ Nat.Prime n.toNat := by
  unfold isPrime
  by_cases h : n ≤ 1
  · rw [if_pos h]
    constructor
    · intro h'; cases h'
    · rintro ⟨_, hp⟩
      have := hp.two_le
      omega
  · rw [if_neg h, isPrimeLoop_eq_true_iff _ _ _ (by decide), Nat.prime_def_le_sqrt]
    have h2 : 2 ≤ n.toNat := by omega
    constructor
    · intro hd
      refine ⟨by omega, h2, ?_⟩
      intro m hm1 hm2
      have hmm : m * m ≤ n.toNat := Nat.le_sqrt.mp hm2
      have hmn : m ≤ n.toNat := le_trans (Nat.le_mul_self m) hmm
      exact hd m hm1 hmm (by omega)
    · rintro ⟨_, _, hd⟩ d hd1 hd2 _
      exact hd d hd1 (Nat.le_sqrt.mpr hd2)

theorem nextPrimeLoop_spec (fuel : Nat) : ∀ (n : Int),
    (∃ q, n ≤ q ∧ q < n + fuel ∧ isPrime q = true) →
    isPrime (nextPrimeLoop fuel n) = true ∧ n ≤ nextPrimeLoop fuel n ∧
      ∀ m, n ≤ m → m < nextPrimeLoop fuel n → isPrime m = false := by
  induction fuel with
  | zero =>
    rintro n ⟨q, h1, h2, _⟩
    simp at h2
    omega
  | succ fuel ih =>
    rintro n ⟨q, h1, h2, h3⟩
    unfold nextPrimeLoop
    by_cases hp : isPrime n = true
    · rw [if_pos hp]
      exact ⟨hp, le_refl n, fun m hm1 hm2 => by omega⟩
    · rw [if_neg hp]
      have hqn : q ≠ n := fun h => hp (h ▸ h3)
      obtain ⟨r1, r2, r3⟩ := ih (n + 1) ⟨q, by omega, by push_cast at h2; omega, h3⟩
      refine ⟨r1, by omega, ?_⟩
      intro m hm1 hm2
      by_cases hmn : m = n
      · rw [hmn]; simpa using hp
      · exact r3 m (by omega) hm2

theorem exists_prime_within (n : Int) :
    ∃ q, n ≤ q ∧ q < n + ((n.natAbs + 3 : Nat) : Int) ∧ isPrime q = true := by
  by_cases h : n ≤ 2
  · exact ⟨2, h, by omega, by decide⟩
  · obtain ⟨p, hp, h1, h2⟩ := Nat.exists_prime_lt_and_le_two_mul n.toNat (by omega)
    refine ⟨(p : Int), by omega, by omega, ?_⟩
    rw [isPrime_eq_true_iff]
    exact ⟨by omega, by simpa using hp⟩

/-- `nextPrime n` is a prime, at least `n`, and no prime lies between `n` and
it: the search of `nextPrime` ends within its bound. -/
theorem nextPrime_spec (n : Int) :
    isPrime (nextPrime n) = true ∧ n ≤ nextPrime n ∧
      ∀ m, n ≤ m → m < nextPrime n → isPrime m = false :=
  nextPrimeLoop_spec _ n (exists_prime_within n)

theorem nextPrime_toNat_spec (k : Nat) :
    Nat.Prime (nextPrime (k : Int)).toNat ∧ k ≤ (nextPrime (k : Int)).toNat ∧
      ∀ q, Nat.Prime q → k ≤ q → (nextPrime (k : Int)).toNat ≤ q := by
  obtain ⟨h1, h2, h3⟩ := nextPrime_spec (k : Int)
  have hp := (isPrime_eq_true_iff _).mp h1
  refine ⟨hp.2, by omega, ?_⟩
  intro q hq hkq
  by_contra hlt
  have := h3 (q : Int) (by omega) (by omega)
  have hq' : isPrime (q : Int) = true := (isPrime_eq_true_iff _).mpr ⟨by omega, by simpa using hq⟩
  rw [hq'] at this
  cases this

theorem nextPrimeLoop_fuel_irrelevant (n : Int) (f g : Nat)
    (hf : ∃ q, n ≤ q ∧ q < n + f ∧ isPrime q = true)
    (hg : ∃ q, n ≤ q ∧ q < n + g ∧ isPrime q = true) :
    nextPrimeLoop f n = nextPrimeLoop g n := by
  obtain ⟨a1, a2, a3⟩ := nextPrimeLoop_spec f n hf
  obtain ⟨b1, b2, b3⟩ := nextPrimeLoop_spec g n hg
  by_contra hne
  rcases lt_or_gt_of_ne hne with h | h
  · have := b3 _ a2 h
    rw [a1] at this; cases this
  · have := a3 _ b2 h
    rw [b1] at this; cases this

theorem isPrimeLoop_fuel_irrelevant (n fuel : Nat) (hf : n ≤ fuel) :
    isPrimeLoop fuel 2 n = isPrimeLoop n 2 n := by
  have key : ∀ f, n ≤ f → (isPrimeLoop f 2 n = true ↔ ∀ d, 2 ≤ d → d * d ≤ n → ¬ d ∣ n) := by
    intro f hfn
    rw [isPrimeLoop_eq_true_iff f 2 n (by decide)]
    constructor
    · intro h d hd1 hd2
      have : d ≤ n := le_trans (Nat.le_mul_self d) hd2
      exact h d hd1 hd2 (by omega)
    · intro h d hd1 hd2 _
      exact h d hd1 hd2
  have h1 := key fuel hf
  have h2 := key n (le_refl n)
  cases ha : isPrimeLoop fuel 2 n <;> cases hb : isPrimeLoop n 2 n
  · rfl
  · exact absurd (h1.mpr (h2.mp hb)) (by simp [ha])
  · exact absurd (h2.mpr (h1.mp ha)) (by simp [hb])
  · rfl

/-! ## `isPrime` and `nextPrime` on 32-bit `int` -/

theorem wrapInt32_le (x : Int) : wrapInt32 x ≤ 2147483647 := by
  unfold wrapInt32
  have := Int.emod_lt_of_pos (x + 2 ^ 31) (show (0 : Int) < 2 ^ 32 by norm_num)
  omega

theorem wrapInt32_of_range (x : Int) (h1 : -2147483648 ≤ x) (h2 : x ≤ 2147483647) :
    wrapInt32 x = x := by
  unfold wrapInt32
  omega

theorem isPrimeLoopInt32_eq (fuel : Nat) : ∀ (i n : Nat), 1 ≤ i → i ≤ 46340 → n < 2147395600 →
    isPrimeLoopInt32 fuel (i : Int) (n : Int) = isPrimeLoop fuel i n := by
  induction fuel with
  | zero => intro i n _ _ _; rfl
  | succ k ih =>
    intro i n h1 h2 hn
    unfold isPrimeLoopInt32 isPrimeLoop
    have hsq : i * i ≤ 46340 * 46340 := Nat.mul_le_mul h2 h2
    have hw : wrapInt32 ((i : Int) * (i : Int)) = ((i * i : Nat) : Int) := by
      rw [wrapInt32_of_range]
      · push_cast; rfl
      · have : (0 : Int) ≤ ((i * i : Nat) : Int) := Int.ofNat_nonneg _
        push_cast at this; omega
      · have : ((i * i : Nat) : Int) ≤ 2147395600 := by exact_mod_cast hsq
        push_cast at this; omega
    rw [hw]
    by_cases hc : i * i ≤ n
    · rw [if_pos (by exact_mod_cast hc), if_pos hc]
      have ht : Int.tmod (n : Int) (i : Int) = ((n % i : Nat) : Int) := (Int.ofNat_tmod n i).symm
      rw [ht]
      by_cases hd : n % i = 0
      · rw [if_pos (by exact_mod_cast hd), if_pos hd]
      · rw [if_neg (by exact_mod_cast hd), if_neg hd]
        have hi : i < 46340 := by
          by_contra hge
          have h3 : i = 46340 := by omega
          subst h3
          omega
        have hw2 : wrapInt32 ((i : Int) + 1) = ((i + 1 : Nat) : Int) := by
          rw [wrapInt32_of_range] <;> push_cast <;> omega
        rw [hw2]
        exact ih (i + 1) n (by omega) (by omega) hn
    · rw [if_neg (by exact_mod_cast hc), if_neg hc]

/-- Below `46340^2 = 2147395600` no product of the divisor loop overflows, and
`isPrime` on 32-bit `int` is `isPrime` on unbounded integers. -/
theorem isPrimeInt32_eq (m : Int) (hm : m < 2147395600) : isPrimeInt32 m = isPrime m := by
  unfold isPrimeInt32 isPrime
  by_cases h : m ≤ 1
  · rw [if_pos h, if_pos h]
  · rw [if_neg h, if_neg h]
    have := isPrimeLoopInt32_eq m.toNat 2 m.toNat (by decide) (by decide) (by omega)
    rw [← this]
    congr 1
    omega

theorem nextPrimeLoopInt32_eq (fuel : Nat) : ∀ (n p : Int), -2147483648 ≤ n → n ≤ p →
    p < 2147395600 → isPrime p = true → (p - n).toNat < fuel →
    nextPrimeLoopInt32 fuel n = nextPrimeLoop fuel n := by
  induction fuel with
  | zero => intro n p _ _ _ _ h; omega
  | succ k ih =>
    intro n p h1 h2 h3 hp hf
    unfold nextPrimeLoopInt32 nextPrimeLoop
    rw [isPrimeInt32_eq n (by omega)]
    by_cases hn : isPrime n = true
    · rw [if_pos hn, if_pos hn]
    · rw [if_neg hn, if_neg hn]
      have hne : n ≠ p := by
        intro e; rw [e] at hn; exact hn hp
      rw [wrapInt32_of_range (n + 1) (by omega) (by omega)]
      exact ih (n + 1) p (by omega) (by omega) h3 hp (by omega)

/-- When a prime `p` with `n <= p < 46340^2` exists, `nextPrime` on 32-bit
`int` is `nextPrime` on unbounded integers. -/
theorem nextPrimeInt32_eq (n p : Int) (h1 : -2147483648 ≤ n) (h2 : n ≤ p)
    (h3 : p < 2147395600) (hp : isPrime p = true) : nextPrimeInt32 n = nextPrime n := by
  unfold nextPrimeInt32 nextPrime
  rw [nextPrimeLoopInt32_eq _ n p h1 h2 h3 hp (by omega)]
  exact nextPrimeLoop_fuel_irrelevant n _ _
    ⟨p, h2, by push_cast; omega, hp⟩ (exists_prime_within n)

theorem isPrimeLoopInt32_max (fuel : Nat) : ∀ i : Int, 2 ≤ i → i ≤ 2147483647 →
    (2147483647 - i).toNat < fuel → isPrimeLoopInt32 fuel i 2147483647 = false := by
  induction fuel with
  | zero => intro i _ _ h; omega
  | succ k ih =>
    intro i h1 h2 hf
    unfold isPrimeLoopInt32
    rw [if_pos (wrapInt32_le _)]
    by_cases hd : Int.tmod 2147483647 i = 0
    · rw [if_pos hd]
    · rw [if_neg hd]
      have hne : i ≠ 2147483647 := by
        intro e; rw [e] at hd; exact hd (by decide)
      rw [wrapInt32_of_range (i + 1) (by omega) (by omega)]
      exact ih (i + 1) (by omega) (by omega) (by omega)

theorem isPrimeInt32_max : isPrimeInt32 2147483647 = false := by
  unfold isPrimeInt32
  rw [if_neg (by decide)]
  exact isPrimeLoopInt32_max _ 2 (by decide) (by decide) (by decide)

theorem nextPrimeLoopInt32_low (fuel : Nat) : ∀ n : Int, -2147483648 ≤ n → n ≤ 2 →
    (2 - n).toNat < fuel → nextPrimeLoopInt32 fuel n = 2 := by
  induction fuel with
  | zero => intro n _ _ h; omega
  | succ k ih =>
    intro n h1 h2 hf
    unfold nextPrimeLoopInt32
    by_cases h : n = 2
    · subst h
      rw [if_pos (by decide)]
    · have hp : isPrimeInt32 n = false := by
        unfold isPrimeInt32
        rw [if_pos (by omega)]
      rw [hp, if_neg (by simp), wrapInt32_of_range (n + 1) (by omega) (by omega)]
      exact ih (n + 1) (by omega) (by omega) (by omega)

/-- The largest `int`, `2^31 - 1`, is a prime number (Lucas-Lehmer test). -/
theorem prime_int_max : Nat.Prime 2147483647 := by
  have h : (mersenne 31).Prime := lucas_lehmer_sufficiency _ (by norm_num) (by norm_num)
  have e : mersenne 31 = 2147483647 := by norm_num [mersenne]
  rwa [e] at h

theorem nextPrimeLoopInt32_max (fuel : Nat) (hf : 2147483651 < fuel) :
    nextPrimeLoopInt32 fuel 2147483647 = 2 := by
  obtain ⟨k, rfl⟩ : ∃ k, fuel = k + 1 := ⟨fuel - 1, by omega⟩
  rw [nextPrimeLoopInt32, isPrimeInt32_max, if_neg (by simp)]
  have hw : wrapInt32 (2147483647 + 1) = -2147483648 := by decide
  rw [hw]
  exact nextPrimeLoopInt32_low _ _ (by decide) (by decide) (by omega)

theorem nextPrimeInt32_max : nextPrimeInt32 2147483647 = 2 :=
  nextPrimeLoopInt32_max _ (by decide)

/-- The argument `2 * capacity` of `nextPrime` at capacity `1073741823`: the
search passes the largest `int` and returns 2. -/
theorem nextPrimeInt32_even_max : nextPrimeInt32 2147483646 = 2 := by
  have h : nextPrimeInt32 2147483646 = nextPrimeLoopInt32 (4294967295 + 1) 2147483646 := rfl
  rw [h, nextPrimeLoopInt32, if_neg (by decide)]
  have hw : wrapInt32 (2147483646 + 1) = 2147483647 := by decide
  rw [hw]
  exact nextPrimeLoopInt32_max _ (by decide)

/-- The divisor loop of `isPrime` on 32-bit `int` returns within `n - i + 1`
iterations: every larger bound gives the same result. -/
theorem isPrimeLoopInt32_fuel (n : Int) (hn : n ≤ 2147483647) (f : Nat) :
    ∀ (g : Nat) (i : Int), 2 ≤ i → i ≤ n → (n - i).toNat < f → (n - i).toNat < g →
    isPrimeLoopInt32 f i n = isPrimeLoopInt32 g i n := by
  induction f with
  | zero => intro g i _ _ h _; omega
  | succ k ih =>
    intro g i h1 h2 hf hg
    cases g with
    | zero => omega
    | succ g =>
      unfold isPrimeLoopInt32
      by_cases hc : wrapInt32 (i * i) ≤ n
      · rw [if_pos hc, if_pos hc]
        by_cases hd : Int.tmod n i = 0
        · rw [if_pos hd, if_pos hd]
        · rw [if_neg hd, if_neg hd]
          have hne : i ≠ n := by
            intro e
            rw [e] at hd
            exact hd (Int.tmod_self)
          rw [wrapInt32_of_range (i + 1) (by omega) (by omega)]
          exact ih g (i + 1) (by omega) (by omega) (by omega) (by omega)
      · rw [if_neg hc, if_neg hc]

/-- `isPrime` on 32-bit `int` returns for every `int`. -/
theorem isPrimeInt32_fuel (n : Int) (hn : n ≤ 2147483647) (fuel : Nat) (h1 : 2 ≤ n)
    (hf : n.toNat ≤ fuel) : isPrimeLoopInt32 fuel 2 n = isPrimeInt32 n := by
  unfold isPrimeInt32
  rw [if_neg (by omega)]
  exact isPrimeLoopInt32_fuel n hn fuel n.toNat 2 (by decide) h1 (by omega) (by omega)

theorem nextPrimeLoopInt32_fuel (f : Nat) : ∀ (g : Nat) (n : Int), -2147483648 ≤ n →
    n ≤ 2147483647 → (2147483647 - n).toNat + 2147483652 < f →
    (2147483647 - n).toNat + 2147483652 < g →
    nextPrimeLoopInt32 f n = nextPrimeLoopInt32 g n := by
  induction f with
  | zero => intro g n _ _ h _; omega
  | succ k ih =>
    intro g n h1 h2 hf hg
    cases g with
    | zero => omega
    | succ g =>
      unfold nextPrimeLoopInt32
      by_cases hp : isPrimeInt32 n = true
      · rw [if_pos hp, if_pos hp]
      · rw [if_neg hp, if_neg hp]
        by_cases hm : n = 2147483647
        · subst hm
          have hw : wrapInt32 (2147483647 + 1) = -2147483648 := by decide
          rw [hw, nextPrimeLoopInt32_low k _ (by decide) (by decide) (by omega),
            nextPrimeLoopInt32_low g _ (by decide) (by decide) (by omega)]
        · rw [wrapInt32_of_range (n + 1) (by omega) (by omega)]
          exact ih g (n + 1) (by omega) (by omega) (by omega) (by omega)

/-- `nextPrime` on 32-bit `int` returns for every `int`: the search ends
within `2^32` iterations, and every larger bound gives the same result. -/
theorem nextPrimeInt32_fuel (n : Int) (h1 : -2147483648 ≤ n) (h2 : n ≤ 2147483647)
    (fuel : Nat) (hf : 2 ^ 32 ≤ fuel) : nextPrimeLoopInt32 fuel n = nextPrimeInt32 n := by
  unfold nextPrimeInt32
  by_cases h : n ≤ 2
  · rw [nextPrimeLoopInt32_low fuel n h1 h (by omega),
      nextPrimeLoopInt32_low (2 ^ 32) n h1 h (by omega)]
  · by_cases h3 : n = 3
    · subst h3
      have e1 : fuel = (fuel - 1) + 1 := by omega
      have e2 : (2 ^ 32 : Nat) = 4294967295 + 1 := by norm_num
      rw [e1, e2, nextPrimeLoopInt32, nextPrimeLoopInt32, if_pos (by decide), if_pos (by decide)]
    · exact nextPrimeLoopInt32_fuel fuel (2 ^ 32) n h1 h2 (by omega) (by omega)

/-- For a capacity of at most `2^23` the new capacity `nextPrime(2 * capacity)`
of a resize is the same on 32-bit `int`: neither `2 * capacity` nor the search
of `nextPrime` overflows. -/
theorem nextPrimeInt32_two_mul (c : Nat) (hc : c ≤ 2 ^ 23) :
    nextPrimeInt32 (wrapInt32 (2 * (c : Int))) = nextPrime (2 * (c : Int)) := by
  rw [wrapInt32_of_range _ (by omega) (by omega)]
  obtain ⟨h1, h2, h3⟩ := nextPrime_spec (2 * (c : Int))
  obtain ⟨q, q1, q2, q3⟩ := exists_prime_within (2 * (c : Int))
  have hle : nextPrime (2 * (c : Int)) ≤ q := by
    by_contra hlt
    have := h3 q q1 (by omega)
    rw [q3] at this
    cases this
  exact nextPrimeInt32_eq _ _ (by omega) h2 (by omega) h1

/-! ## The capacity after `insert` -/

theorem insertF_no_resize (f : Nat) (t : HashTable) (c : Credential) (t' : HashTable)
    (e : insertF f t c = some t') (hload : overLoadFactor (t.count + 1) t.capacity = false) :
    t'.capacity = t.capacity ∧ t'.count ≤ t.count + 1 := by
  cases f with
  | zero => simp [insertF] at e
  | succ f =>
    cases hch : insertChain (t.bucket (t.hash c.site)) c with
    | some C' =>
      rw [insertF_succ_of_some _ hch] at e
      rw [← Option.some.inj e]
      exact ⟨rfl, by simp⟩
    | none =>
      rw [insertF_succ_of_none _ hch, hload, if_neg (by simp)] at e
      rw [← Option.some.inj e]
      exact ⟨rfl, le_refl _⟩

theorem foldlM_no_resize (f : Nat) : ∀ (L : List Credential) (t0 t' : HashTable),
    L.foldlM (insertF f) t0 = some t' → 0 < t0.capacity →
    2 * (t0.count + L.length) ≤ (t0.capacity : Int) →
    t'.capacity = t0.capacity ∧ t'.count ≤ t0.count + L.length := by
  intro L
  induction L with
  | nil =>
    intro t0 t' e _ _
    have : t0 = t' := by simpa using e
    rw [← this]
    exact ⟨rfl, by simp⟩
  | cons c L ih =>
    intro t0 t' e hpos hload
    rw [List.foldlM_cons] at e
    simp only [List.length_cons] at hload ⊢
    push_cast at hload ⊢
    cases h1 : insertF f t0 c with
    | none => rw [h1] at e; cases e
    | some t1 =>
      rw [h1] at e
      have hs := insertF_no_resize f t0 c t1 h1
        (overLoadFactor_of_half _ _ hpos (by omega))
      have := ih t1 t' e (by rw [hs.1]; exact hpos) (by rw [hs.1]; omega)
      exact ⟨by rw [this.1, hs.1], by omega⟩

theorem insert_capacity_resize {t : HashTable} (hinv : Inv t)
    (h0 : 4 * t.count ≤ 3 * (t.capacity : Int)) (c : Credential)
    (hfresh : ∀ e ∈ t.entries, e.key ≠ c.key)
    (hover : overLoadFactor (t.count + 1) t.capacity = true) :
    (t.insert c).capacity = (nextPrime (2 * (t.capacity : Int))).toNat := by
  have hch : insertChain (t.bucket (t.hash c.site)) c = none := by
    rw [insertChain_eq_none]
    intro e he
    exact hfresh e (hinv.mem_entries_of_bucket he)
  have h1 := (insert_spec hinv c).1
  rw [insertF_succ_of_none _ hch, if_pos hover] at h1
  have hfr := insert_fresh hinv c hch
  have hlen : (HashTable.entries
      (⟨t.table.set (t.hash c.site) (c :: t.bucket (t.hash c.site)), t.capacity, t.count + 1⟩ :
        HashTable)).length ≤ t.entries.length + 1 := by
    rw [hfr.2.length_eq]; exact length_insEntries_le _ _
  have hcap := two_mul_le_nextPrime_toNat t.capacity
  have hpos := hinv.pos
  have hcnt := hinv.count
  have := foldlM_no_resize _ _ (HashTable.new (nextPrime (2 * (t.capacity : Int))).toNat) _ h1
    (by
      have hc0 : (HashTable.new (nextPrime (2 * (t.capacity : Int))).toNat).capacity =
          (nextPrime (2 * (t.capacity : Int))).toNat := rfl
      rw [hc0]
      omega)
    (by
      have hc0 : (HashTable.new (nextPrime (2 * (t.capacity : Int))).toNat).capacity =
          (nextPrime (2 * (t.capacity : Int))).toNat := rfl
      have hn0 : (HashTable.new (nextPrime (2 * (t.capacity : Int))).toNat).count = 0 := rfl
      rw [hc0, hn0]
      omega)
  exact this.1

theorem insert_capacity_same {t : HashTable} (hinv : Inv t) (c : Credential)
    (h : (∃ e ∈ t.entries, e.key = c.key) ∨ overLoadFactor (t.count + 1) t.capacity = false) :
    (t.insert c).capacity = t.capacity := by
  by_cases hex : ∃ e ∈ t.entries, e.key = c.key
  · obtain ⟨e, he, hk⟩ := hex
    obtain ⟨C', hC'⟩ := insert_of_present hinv c e he hk
    rw [hC']
  · have hfresh : ∀ e ∈ t.entries, e.key ≠ c.key := fun e he hk => hex ⟨e, he, hk⟩
    have hl := h.resolve_left hex
    rw [insert_fresh_eq hinv c hfresh hl]

theorem reachable_foldl_insert (L : List Credential) :
    ∀ t : HashTable, Reachable t → Reachable (L.foldl HashTable.insert t) := by
  induction L with
  | nil => intro t h; exact h
  | cons c L ih => intro t h; exact ih _ (Reachable.insert c h)

theorem reachable_tableEight : Reachable tableEight :=
  reachable_foldl_insert _ _ (Reachable.ctor 11 (by decide))

/-- C15, amended: for every reachable table with a capacity of at most
`2^23 = 8388608` and `4 * count <= 3 * capacity`, when `insert` adds a new
entry and the new count exceeds three quarters of the capacity, the capacity
after the insert is the smallest prime that is at least twice the old
capacity, and it is the value of `nextPrime(2 * capacity)` on 32-bit `int`;
when `insert` overwrites an existing entry, or the new count does not exceed
three quarters of the capacity, the capacity is unchanged. -/
theorem C15_insert_capacity (t : HashTable) (ht : Reachable t) (hcap : t.capacity ≤ 2 ^ 23)
    (hload : 4 * t.count ≤ 3 * (t.capacity : Int)) (c : Credential) :
    ((∀ e ∈ t.entries, ¬ (e.site = c.site ∧ e.username = c.username)) →
      4 * (t.count + 1) > 3 * (t.capacity : Int) →
      Nat.Prime (t.insert c).capacity ∧ 2 * t.capacity ≤ (t.insert c).capacity ∧
        (∀ q, Nat.Prime q → 2 * t.capacity ≤ q → (t.insert c).capacity ≤ q) ∧
        (t.insert c).capacity = (nextPrimeInt32 (wrapInt32 (2 * (t.capacity : Int)))).toNat) ∧
    (((∃ e ∈ t.entries, e.site = c.site ∧ e.username = c.username) ∨
        4 * (t.count + 1) ≤ 3 * (t.capacity : Int)) →
      (t.insert c).capacity = t.capacity) := by
  constructor
  · intro hfresh hover
    have hf : ∀ e ∈ t.entries, e.key ≠ c.key := by
      intro e he hk
      simp only [Credential.key, Prod.mk.injEq] at hk
      exact hfresh e he hk
    rw [insert_capacity_resize ht.inv hload c hf
      ((overLoadFactor_exact _ _ ht.inv.pos hcap).mpr hover)]
    have := nextPrime_toNat_spec (2 * t.capacity)
    push_cast at this
    exact ⟨this.1, this.2.1, this.2.2, by rw [nextPrimeInt32_two_mul t.capacity hcap]⟩
  · intro h
    apply insert_capacity_same ht.inv c
    rcases h with ⟨e, he, hs, hu⟩ | h
    · exact Or.inl ⟨e, he, by simp [Credential.key, hs, hu]⟩
    · refine Or.inr ?_
      rw [Bool.eq_false_iff, Ne, overLoadFactor_exact _ _ ht.inv.pos hcap]
      omega

/-- C15, amended, at the table of capacity 11 holding eight entries: the
insert of a ninth entry makes `4 * 9 > 3 * 11` and the capacity becomes 23,
the smallest prime from 22 on. -/
theorem C15_insert_capacity_witness :
    Reachable tableEight ∧ tableEight.capacity = 11 ∧ tableEight.count = 8 ∧
    (tableEight.insert credAlice).capacity = 23 ∧
    Nat.Prime (tableEight.insert credAlice).capacity ∧
    (tableEight.insert credBob).capacity = 11 :=
  have h := C15_insert_capacity tableEight reachable_tableEight (by decide) (by decide) credAlice
  have h' := C15_insert_capacity tableEight reachable_tableEight (by decide) (by decide) credBob
  ⟨reachable_tableEight, by decide, by decide, by decide,
    (h.1 (by decide) (by decide)).1, h'.2 (Or.inl ⟨credBob, by decide, rfl, rfl⟩)⟩

/-! ## The decoder and the pairs of quotes -/

theorem quoteSegments_ne_nil (line : Str) : quoteSegments line ≠ [] := by
  cases line with
  | nil => simp [quoteSegments]
  | cons c cs =>
    unfold quoteSegments
    by_cases h : c = QUOTE
    · simp [h]
    · rw [if_neg h]
      cases quoteSegments cs <;> simp

theorem quoteSegments_cons_quote (cs : Str) :
    quoteSegments (QUOTE :: cs) = [] :: quoteSegments cs := by
  rw [quoteSegments, if_pos rfl]

theorem quoteSegments_cons_char (c : Nat) (hc : c ≠ QUOTE) (cs seg : Str) (rest : List Str)
    (h : quoteSegments cs = seg :: rest) : quoteSegments (c :: cs) = (c :: seg) :: rest := by
  rw [quoteSegments, if_neg hc, h]

theorem runSegs_cons_char (c : Nat) (hc : c ≠ QUOTE) (s0 : Str) (rest : List Str)
    (st : CsvState) : runSegs ((c :: s0) :: rest) st = runSegs (s0 :: rest) (csvStep st c) := by
  obtain ⟨s, u, p, temp, n, inside⟩ := st
  cases rest <;> cases inside <;> simp [runSegs, csvStep, hc]

theorem runSegs_quote (seg : Str) (rest : List Str) (st : CsvState) :
    runSegs ([] :: seg :: rest) st = runSegs (seg :: rest) (csvStep st QUOTE) := by
  obtain ⟨s, u, p, temp, n, inside⟩ := st
  cases inside <;> simp [runSegs, csvStep, csvClose]

theorem foldl_csvStep_eq_runSegs (line : Str) : ∀ st : CsvState,
    line.foldl csvStep st = runSegs (quoteSegments line) st := by
  induction line with
  | nil =>
    intro st
    obtain ⟨s, u, p, temp, n, inside⟩ := st
    cases inside <;> simp [quoteSegments, runSegs]
  | cons c cs ih =>
    intro st
    rw [List.foldl_cons, ih]
    cases hq : quoteSegments cs with
    | nil => exact absurd hq (quoteSegments_ne_nil cs)
    | cons seg rest =>
      by_cases hc : c = QUOTE
      · rw [hc, quoteSegments_cons_quote, hq, runSegs_quote]
      · rw [quoteSegments_cons_char c hc cs seg rest hq, runSegs_cons_char c hc]

theorem runSegs_fields_of_three_le : ∀ (segs : List Str) (st : CsvState), 3 ≤ st.state →
    (runSegs segs st).s = st.s ∧ (runSegs segs st).u = st.u ∧ (runSegs segs st).p = st.p
  | [], st, _ => ⟨rfl, rfl, rfl⟩
  | [seg], st, _ => by
      obtain ⟨s, u, p, temp, n, inside⟩ := st
      cases inside <;> simp [runSegs]
  | seg :: next :: rest, st, h => by
      obtain ⟨s, u, p, temp, n, inside⟩ := st
      simp only at h
      have h0 : n ≠ 0 := by omega
      have h1 : n ≠ 1 := by omega
      have h2 : n ≠ 2 := by omega
      cases inside with
      | true =>
        have ih := runSegs_fields_of_three_le (next :: rest)
          (csvClose ⟨s, u, p, temp ++ seg, n, true⟩) (by simp [csvClose]; omega)
        simp only [runSegs, if_true]
        rw [ih.1, ih.2.1, ih.2.2]
        simp [csvClose, h0, h1, h2]
      | false =>
        have ih := runSegs_fields_of_three_le (next :: rest) ⟨s, u, p, temp, n, true⟩ h
        simp only [runSegs]
        simpa using ih

/-- The fields that the decoder returns, read off the pieces of the line. -/
theorem runSegs_csvInit (segs : List Str) :
    (runSegs segs csvInit).s = (if 2 < segs.length then segs.getD 1 [] else []) ∧
    (runSegs segs csvInit).u = (if 4 < segs.length then segs.getD 3 [] else []) ∧
    (runSegs segs csvInit).p = (if 6 < segs.length then segs.getD 5 [] else []) := by
  match segs with
  | [] => simp [runSegs, csvInit]
  | [_] => simp [runSegs, csvInit]
  | [_, _] => simp [runSegs, csvInit]
  | [_, _, _] => simp [runSegs, csvInit, csvClose]
  | [_, _, _, _] => simp [runSegs, csvInit, csvClose]
  | [_, _, _, _, _] => simp [runSegs, csvInit, csvClose]
  | [_, _, _, _, _, _] => simp [runSegs, csvInit, csvClose]
  | a0 :: a1 :: a2 :: a3 :: a4 :: a5 :: a6 :: rest =>
    have h := runSegs_fields_of_three_le (a6 :: rest) ⟨a1, a3, a5, [], 3, false⟩ (le_refl 3)
    have e : runSegs (a0 :: a1 :: a2 :: a3 :: a4 :: a5 :: a6 :: rest) csvInit =
        runSegs (a6 :: rest) ⟨a1, a3, a5, [], 3, false⟩ := by
      simp [runSegs, csvInit, csvClose]
    rw [e, h.1, h.2.1, h.2.2]
    simp

/-- C19: for every line, with its double quotes paired in order (first with
second, third with fourth, fifth with sixth), `fromCSV` returns as site,
username and password the text inside the first, second and third complete
pair; a field whose pair is missing or unclosed is empty, and what lies
outside the pairs or after the third pair is ignored. -/
theorem C19_fromCSV_pairs (line : Str) :
    Credential.fromCSV line = fromCSV_spec line ∧
    (Credential.fromCSV line).site = pairText line 0 ∧
    (Credential.fromCSV line).username = pairText line 1 ∧
    (Credential.fromCSV line).password = pairText line 2 := by
  have h := runSegs_csvInit (quoteSegments line)
  have e : Credential.fromCSV line = fromCSV_spec line := by
    unfold Credential.fromCSV fromCSV_spec pairText
    simp only [foldl_csvStep_eq_runSegs, h.1, h.2.1, h.2.2]
  rw [e]
  exact ⟨rfl, rfl, rfl, rfl⟩

/-- C19 at the line `x"a","bz` (the second pair is unclosed) and at the line
`"a""b""c""d"` (a fourth pair follows the third). -/
theorem C19_fromCSV_pairs_witness :
    Credential.fromCSV [120, 34, 97, 34, 44, 34, 98, 122] = ⟨[97], [], []⟩ ∧
    Credential.fromCSV [34, 97, 34, 34, 98, 34, 34, 99, 34, 34, 100, 34] = ⟨[97], [98], [99]⟩ :=
  ⟨(C19_fromCSV_pairs [120, 34, 97, 34, 44, 34, 98, 122]).1.trans (by decide),
    (C19_fromCSV_pairs [34, 97, 34, 34, 98, 34, 34, 99, 34, 34, 100, 34]).1.trans (by decide)⟩

/-! # Claims on the helpers -/

/-- On unbounded integers: `isPrime m` is true exactly when `m` is a prime
number; for every integer `n`, also `n <= 1`, the search of `nextPrime n` ends
(every bound on the number of its iterations from `|n| + 3` on gives the same
result, and the divisor loop of `isPrime` ends within `m` steps) and returns a
prime that is at least `n`, with no prime from `n` up to it. -/
theorem nextPrime_smallest_unbounded (n : Int) :
    (∀ m : Int, isPrime m = true ↔ (0 < m ∧ Nat.Prime m.toNat)) ∧
    (0 < nextPrime n ∧ Nat.Prime (nextPrime n).toNat) ∧
    n ≤ nextPrime n ∧
    (∀ m : Int, n ≤ m → m < nextPrime n → ¬ (0 < m ∧ Nat.Prime m.toNat)) ∧
    (∀ p : Int, 0 < p → Nat.Prime p.toNat → n ≤ p → nextPrime n ≤ p) ∧
    (∀ fuel : Nat, n.natAbs + 3 ≤ fuel → nextPrimeLoop fuel n = nextPrime n) ∧
    (∀ (m : Int) (fuel : Nat), 2 ≤ m → m.toNat ≤ fuel →
      isPrimeLoop fuel 2 m.toNat = isPrime m) := by
  have hiff : ∀ m : Int, isPrime m = true ↔ (0 < m ∧ Nat.Prime m.toNat) := by
    intro m
    rw [isPrime_eq_true_iff]
    constructor
    · rintro ⟨_, hp⟩
      have := hp.two_le
      exact ⟨by omega, hp⟩
    · rintro ⟨h0, hp⟩
      exact ⟨by omega, hp⟩
  obtain ⟨h1, h2, h3⟩ := nextPrime_spec n
  refine ⟨hiff, (hiff _).mp h1, h2, ?_, ?_, ?_, ?_⟩
  · intro m hm1 hm2 hp
    have := h3 m hm1 hm2
    rw [(hiff m).mpr hp] at this
    cases this
  · intro p hp0 hp hnp
    by_contra hlt
    have := h3 p hnp (by omega)
    rw [(hiff p).mpr ⟨hp0, hp⟩] at this
    cases this
  · intro fuel hfuel
    obtain ⟨q, q1, q2, q3⟩ := exists_prime_within n
    have hc : ((n.natAbs + 3 : Nat) : Int) ≤ (fuel : Int) := Int.ofNat_le.mpr hfuel
    exact nextPrimeLoop_fuel_irrelevant n fuel (n.natAbs + 3)
      ⟨q, q1, lt_of_lt_of_le q2 (add_le_add_left hc n), q3⟩ ⟨q, q1, q2, q3⟩
  · intro m fuel hm hfuel
    unfold isPrime
    rw [if_neg (by omega)]
    exact isPrimeLoop_fuel_irrelevant m.toNat fuel hfuel

theorem isPrime_of_prime_toNat (p : Int) (hp : Nat.Prime p.toNat) : isPrime p = true := by
  have := hp.two_le
  exact (isPrime_eq_true_iff p).mpr ⟨by omega, hp⟩

/-- C21, amended: for every 32-bit integer `n`, also `n <= 1`, for which a
prime `p` with `n <= p < 46340^2 = 2147395600` exists, the search of
`nextPrime(n)` ends (every bound on the number of its iterations above
`p - n` gives the same result) and returns a prime that is at least `n`, with
no prime from `n` up to it, so that it is the smallest prime that is at least
`n`; for every `m` below `2147395600`, `isPrime(m)` is true exactly when `m`
is a prime number, and its divisor loop ends within `m` steps. -/
theorem C21_nextPrime_smallest (n p : Int) (hn : -2147483648 ≤ n) (hnp : n ≤ p)
    (hp : Nat.Prime p.toNat) (hpb : p < 2147395600) :
    (∀ m : Int, m < 2147395600 → (isPrimeInt32 m = true ↔ (0 < m ∧ Nat.Prime m.toNat))) ∧
    (0 < nextPrimeInt32 n ∧ Nat.Prime (nextPrimeInt32 n).toNat) ∧
    n ≤ nextPrimeInt32 n ∧
    (∀ m : Int, n ≤ m → m < nextPrimeInt32 n → ¬ (0 < m ∧ Nat.Prime m.toNat)) ∧
    (∀ q : Int, 0 < q → Nat.Prime q.toNat → n ≤ q → nextPrimeInt32 n ≤ q) ∧
    (∀ fuel : Nat, (p - n).toNat < fuel → nextPrimeLoopInt32 fuel n = nextPrimeInt32 n) ∧
    (∀ (m : Int) (fuel : Nat), 2 ≤ m → m < 2147395600 → m.toNat ≤ fuel →
      isPrimeLoopInt32 fuel 2 m = isPrimeInt32 m) := by
  have hip := isPrime_of_prime_toNat p hp
  have e := nextPrimeInt32_eq n p hn hnp hpb hip
  obtain ⟨u1, u2, u3, u4, u5, _, u7⟩ := nextPrime_smallest_unbounded n
  rw [e]
  refine ⟨?_, u2, u3, u4, u5, ?_, ?_⟩
  · intro m hm
    rw [isPrimeInt32_eq m hm]
    exact u1 m
  · intro fuel hf
    rw [nextPrimeLoopInt32_eq fuel n p hn hnp hpb hip hf]
    exact nextPrimeLoop_fuel_irrelevant n _ _ ⟨p, hnp, by omega, hip⟩ (exists_prime_within n)
  · intro m fuel h2 hm hf
    rw [isPrimeInt32_eq m hm, ← u7 m fuel h2 hf]
    have := isPrimeLoopInt32_eq fuel 2 m.toNat (by decide) (by decide) (by omega)
    rw [← this]
    congr 1
    omega

/-- C21, amended, at `n = 22` with the prime 23, and at `n = -5` with the
prime 2. -/
theorem C21_nextPrime_smallest_witness :
    nextPrimeInt32 22 = 23 ∧ nextPrimeInt32 1 = 2 ∧ nextPrimeInt32 0 = 2 ∧
    nextPrimeInt32 (-5) = 2 ∧ isPrimeInt32 1 = false ∧ isPrimeInt32 25 = false ∧
    (0 < nextPrimeInt32 22 ∧ Nat.Prime (nextPrimeInt32 22).toNat) ∧
    (∀ q : Int, 0 < q → Nat.Prime q.toNat → -5 ≤ q → nextPrimeInt32 (-5) ≤ q) :=
  ⟨by decide, by decide, by decide, by decide, by decide, by decide,
    (C21_nextPrime_smallest 22 23 (by decide) (by decide) (by decide) (by decide)).2.1,
    (C21_nextPrime_smallest (-5) 2 (by decide) (by decide) (by decide) (by decide)).2.2.2.2.1⟩

/-- C21 as stated fails at `n = 2147483647`, the largest `int`, which is a
prime number: every product `i * i` of the divisor loop is at most `n` after
the wrap-around, the loop runs until `i = n` divides `n`, `isPrime(n)` is
false, the increment wraps around to the smallest `int`, and `nextPrime(n)`
returns 2, which is below `n`, for every bound of at least `2^32` on the
number of its iterations.  It fails in the same way at `n = 2147483646`, which
is `2 * capacity` for the capacity `1073741823`. -/
theorem C21_counterexample :
    Nat.Prime (2147483647 : Int).toNat ∧
    isPrimeInt32 2147483647 = false ∧ wrapInt32 (2147483647 + 1) = -2147483648 ∧
    nextPrimeInt32 2147483647 = 2 ∧ ¬ (2147483647 ≤ nextPrimeInt32 2147483647) ∧
    (∀ fuel : Nat, 2 ^ 32 ≤ fuel → nextPrimeLoopInt32 fuel 2147483647 = 2) ∧
    wrapInt32 (2 * 1073741823) = 2147483646 ∧ nextPrimeInt32 2147483646 = 2 ∧
    ¬ (2147483646 ≤ nextPrimeInt32 2147483646) :=
  ⟨prime_int_max, isPrimeInt32_max, by decide, nextPrimeInt32_max,
    by rw [nextPrimeInt32_max]; decide,
    fun fuel hf => (nextPrimeInt32_fuel 2147483647 (by decide) (by decide) fuel hf).trans
      nextPrimeInt32_max,
    by decide, nextPrimeInt32_even_max, by rw [nextPrimeInt32_even_max]; decide⟩

theorem length_xorLoop (key : Str) (i : Nat) (data : Str) :
    (xorLoop key i data).length = data.length := by
  induction data generalizing i with
  | nil => rfl
  | cons d ds ih => simp [xorLoop, ih]

theorem getD_lt_of_forall (key : Str) (j : Nat) (h : ∀ b ∈ key, b < 256) :
    key.getD j 0 < 256 := by
  by_cases hj : j < key.length
  · rw [List.getD_eq_getElem _ _ hj]
    exact h _ (List.getElem_mem hj)
  · rw [List.getD_eq_default _ _ (by omega)]
    decide

theorem xorLoop_bytes (key : Str) (hk : ∀ b ∈ key, b < 256) (i : Nat) (data : Str)
    (hd : ∀ b ∈ data, b < 256) : ∀ b ∈ xorLoop key i data, b < 256 := by
  induction data generalizing i with
  | nil => intro b hb; cases hb
  | cons d ds ih =>
    intro b hb
    rw [xorLoop] at hb
    rcases List.mem_cons.mp hb with rfl | hb
    · exact Nat.xor_lt_two_pow (n := 8) (hd d (List.mem_cons_self _ _))
        (getD_lt_of_forall key _ hk)
    · exact ih (i + 1) (fun x hx => hd x (List.mem_cons_of_mem _ hx)) b hb

/-- C22: for every byte string `d` and every key `k`, `xorCipher(d, k)` has
the length of `d` and consists of bytes, `xorCipher(xorCipher(d, k), k)` is
`d`, and with the empty key `xorCipher` returns `d`. -/
theorem C22_xorCipher_involution (d k : Str) :
    (xorCipher d k).length = d.length ∧
    xorCipher (xorCipher d k) k = d ∧
    xorCipher d [] = d ∧
    ((∀ b ∈ d, b < 256) → (∀ b ∈ k, b < 256) → ∀ b ∈ xorCipher d k, b < 256) := by
  refine ⟨?_, xorCipher_xorCipher d k, by simp [xorCipher], ?_⟩
  · unfold xorCipher
    by_cases h : k = []
    · rw [if_pos h]
    · rw [if_neg h]; exact length_xorLoop k 0 d
  · intro hd hk
    unfold xorCipher
    by_cases h : k = []
    · rw [if_pos h]; exact hd
    · rw [if_neg h]; exact xorLoop_bytes k hk 0 d hd

/-- C22 at the data `abc` and the two-byte key `kZ`. -/
theorem C22_xorCipher_involution_witness :
    xorCipher [97, 98, 99] [107, 90] = [10, 56, 8] ∧
    xorCipher (xorCipher [97, 98, 99] [107, 90]) [107, 90] = [97, 98, 99] ∧
    ∀ b ∈ xorCipher [97, 98, 99] [107, 90], b < 256 :=
  ⟨by decide, (C22_xorCipher_involution [97, 98, 99] [107, 90]).2.1,
    (C22_xorCipher_involution [97, 98, 99] [107, 90]).2.2.2 (by decide) (by decide)⟩

/-- C23: in every table reachable from the constructor by `insert`, `update`,
`remove`, `rehash`, `clear` and `load`, the bucket vector has `capacity`
chains, every entry of the chain of bucket `i` has `hash(site) = i` under the
current capacity, and `count` is the total number of entries of all chains. -/
theorem C23_placement_and_count (t : HashTable) (ht : Reachable t) :
    t.table.length = t.capacity ∧
    (∀ i, i < t.capacity → ∀ e ∈ t.bucket i, t.hash e.site = i) ∧
    t.count = (((t.table.map List.length).sum : Nat) : Int) := by
  refine ⟨ht.inv.size, fun i _ e he => ht.inv.placed i e he, ?_⟩
  rw [ht.inv.count]
  unfold HashTable.entries
  rw [List.length_flatten]

/-- C23 at the table of three entries after `rehash(1)`, the removal of bob
and a failed `load`, followed by the insert of bob. -/
theorem C23_placement_and_count_witness :
    Reachable ((((tableThree.rehash 1).remove credBob.site credBob.username).2.load none []).2.insert
      credBob) ∧
    ((((tableThree.rehash 1).remove credBob.site credBob.username).2.load none []).2.insert
      credBob).count = 1 ∧
    ∀ i, i < ((((tableThree.rehash 1).remove credBob.site credBob.username).2.load none []).2.insert
        credBob).capacity →
      ∀ e ∈ ((((tableThree.rehash 1).remove credBob.site credBob.username).2.load none []).2.insert
        credBob).bucket i,
      ((((tableThree.rehash 1).remove credBob.site credBob.username).2.load none []).2.insert
        credBob).hash e.site = i :=
  have hr : Reachable
      ((((tableThree.rehash 1).remove credBob.site credBob.username).2.load none []).2.insert
        credBob) :=
    Reachable.insert _ (Reachable.load none [] (Reachable.remove _ _
      (Reachable.rehash 1 (by decide) reachable_tableThree)))
  ⟨hr, by decide, (C23_placement_and_count _ hr).2.1⟩

theorem computeHMAC_SHA256_append_zero (m k : Str) (hk : k.length < 64) :
    computeHMAC_SHA256 m (k ++ [0]) = computeHMAC_SHA256 m k := by
  have h1 : ¬ (k ++ [0]).length > 64 := by simp; omega
  have h2 : ¬ k.length > 64 := by omega
  have hpad : (if (k ++ [0]).length < 64 then
        (k ++ [0]) ++ List.replicate (64 - (k ++ [0]).length) 0 else k ++ [0]) =
      k ++ List.replicate (64 - k.length) 0 := by
    have hrep : List.replicate (64 - k.length) 0 =
        (0 : Nat) :: List.replicate (64 - (k.length + 1)) 0 := by
      have : 64 - k.length = (64 - (k.length + 1)) + 1 := by omega
      rw [this, List.replicate_succ]
    by_cases h3 : (k ++ [0]).length < 64
    · rw [if_pos h3, hrep, List.length_append, List.length_singleton, List.append_assoc]
      rfl
    · rw [if_neg h3, hrep]
      have : 64 - (k.length + 1) = 0 := by
        simp at h3; omega
      rw [this]
      rfl
  unfold computeHMAC_SHA256
  simp only [h1, h2, if_false, hk, if_true, hpad]

/-- C24: for every key `k` shorter than 64 bytes and every message `m`, the
embedded `computeHMAC_SHA256` returns the same tag for `k` and for `k`
followed by one zero byte, two distinct keys; for the empty key and the
one-byte key `0x00` `xorCipher` is the same function as well. -/
theorem C24_hmac_equivalent_keys (k m : Str) (hk : k.length < 64) :
    computeHMAC_SHA256 m (k ++ [0]) = computeHMAC_SHA256 m k ∧
    k ++ [0] ≠ k ∧
    (∀ d : Str, computeHMAC_SHA256 d [0] = computeHMAC_SHA256 d []) ∧
    (∀ d : Str, xorCipher d [0] = xorCipher d []) := by
  refine ⟨computeHMAC_SHA256_append_zero m k hk, ?_, computeHMAC_SHA256_zero_key, ?_⟩
  · intro h
    have := congrArg List.length h
    simp at this
  · intro d
    simp [xorCipher, xorLoop_zero_key]

/-- C24 at the key `Jefe` and the message `abc`. -/
theorem C24_hmac_equivalent_keys_witness :
    computeHMAC_SHA256 [97, 98, 99] ([74, 101, 102, 101] ++ [0]) =
      computeHMAC_SHA256 [97, 98, 99] [74, 101, 102, 101] ∧
    ([74, 101, 102, 101] ++ [0] : Str) ≠ [74, 101, 102, 101] :=
  ⟨(C24_hmac_equivalent_keys [74, 101, 102, 101] [97, 98, 99] (by decide)).1,
    (C24_hmac_equivalent_keys [74, 101, 102, 101] [97, 98, 99] (by decide)).2.1⟩

/-! ## A table above capacity `2^23` -/

theorem credNumbered_key_inj (i j : Nat) (hi : i < 2 ^ 32) (hj : j < 2 ^ 32)
    (h : (credNumbered i).key = (credNumbered j).key) : i = j := by
  simp only [credNumbered, Credential.key, Prod.mk.injEq, List.cons.injEq, and_true] at h
  omega

theorem entries_new (cap : Nat) : (HashTable.new cap).entries = [] := by
  simp [HashTable.entries, HashTable.new, flatten_replicate_nil]

theorem foldl_insert_no_resize (L : List Credential) : ∀ (t : HashTable), Inv t →
    (L.map Credential.key).Nodup → (∀ c ∈ L, ∀ e ∈ t.entries, e.key ≠ c.key) →
    (∀ i : Nat, i < L.length → overLoadFactor (t.count + i + 1) t.capacity = false) →
    (L.foldl HashTable.insert t).capacity = t.capacity ∧
      (L.foldl HashTable.insert t).count = t.count + L.length := by
  induction L with
  | nil => intro t _ _ _ _; simp
  | cons c L ih =>
    intro t hinv hnd hfresh hload
    rw [List.map_cons, List.nodup_cons] at hnd
    have hfc : ∀ e ∈ t.entries, e.key ≠ c.key := hfresh c (List.mem_cons_self _ _)
    have hl : overLoadFactor (t.count + 1) t.capacity = false := by
      have := hload 0 (by simp)
      simpa using this
    have heq := insert_fresh_eq hinv c hfc hl
    have hspec := insert_spec hinv c
    have h := ih (t.insert c) hspec.2.1 hnd.2
      (by
        intro x hx e he
        rcases (mem_entries_insert hinv c e).mp he with rfl | ⟨he0, _⟩
        · intro hk
          exact hnd.1 (List.mem_map.mpr ⟨x, hx, hk.symm⟩)
        · exact hfresh x (List.mem_cons_of_mem _ hx) e he0)
      (by
        rw [heq]
        intro i hi
        have := hload (i + 1) (by simp only [List.length_cons]; omega)
        have he : t.count + ((i + 1 : Nat) : Int) + 1 = t.count + 1 + (i : Int) + 1 := by
          push_cast; ring
        rw [he] at this
        exact this)
    rw [List.foldl_cons, h.1, h.2, heq]
    exact ⟨rfl, by simp only [List.length_cons]; push_cast; ring⟩

theorem foldl_insert_numbered (cap n : Nat) (hcap : 1 ≤ cap) (hn : n ≤ 2 ^ 32)
    (hover : ∀ i : Nat, i < n → overLoadFactor ((i : Int) + 1) cap = false) :
    (((List.range n).map credNumbered).foldl HashTable.insert (HashTable.new cap)).capacity = cap ∧
    (((List.range n).map credNumbered).foldl HashTable.insert (HashTable.new cap)).count = n ∧
    ∀ e ∈ (((List.range n).map credNumbered).foldl HashTable.insert (HashTable.new cap)).entries,
      ∃ j, j < n ∧ e = credNumbered j := by
  have hnd : (((List.range n).map credNumbered).map Credential.key).Nodup := by
    rw [List.map_map]
    refine List.Nodup.map_on ?_ (List.nodup_range n)
    intro i hi j hj h
    rw [List.mem_range] at hi hj
    exact credNumbered_key_inj i j (by omega) (by omega) h
  have hfresh : ∀ c ∈ (List.range n).map credNumbered,
      ∀ e ∈ (HashTable.new cap).entries, e.key ≠ c.key := by
    intro c _ e he
    rw [entries_new] at he
    cases he
  have h := foldl_insert_no_resize ((List.range n).map credNumbered) (HashTable.new cap)
    (inv_new cap hcap) hnd hfresh
    (by
      intro i hi
      rw [List.length_map, List.length_range] at hi
      have := hover i hi
      have hc : (HashTable.new cap).count = 0 := rfl
      have hk : (HashTable.new cap).capacity = cap := rfl
      rw [hc, hk, zero_add]
      exact this)
  have hc : (HashTable.new cap).count = 0 := rfl
  have hk : (HashTable.new cap).capacity = cap := rfl
  rw [hc, hk, zero_add, List.length_map, List.length_range] at h
  refine ⟨h.1, h.2, ?_⟩
  intro e he
  have hp := (foldl_insert_spec (inv_new cap hcap) ((List.range n).map credNumbered)).2
  rw [entries_new] at hp
  have hp2 := foldl_insEntries_fresh ((List.range n).map credNumbered) [] hnd (by simp)
  have hmem := (hp.trans hp2).mem_iff.mp he
  rw [List.append_nil, List.mem_map] at hmem
  obtain ⟨j, hj, rfl⟩ := hmem
  exact ⟨j, List.mem_range.mp hj, rfl⟩

theorem tableNumbered_fields (cap n : Nat) (hcap : 1 ≤ cap) (hn : n ≤ 2 ^ 32)
    (hover : ∀ i : Nat, i < n → overLoadFactor ((i : Int) + 1) cap = false) :
    (tableNumbered cap n).capacity = cap ∧ (tableNumbered cap n).count = n ∧
    ∀ e ∈ (tableNumbered cap n).entries, ∃ j, j < n ∧ e = credNumbered j :=
  foldl_insert_numbered cap n hcap hn hover

theorem tableNumbered_succ (cap n : Nat) :
    tableNumbered cap (n + 1) = (tableNumbered cap n).insert (credNumbered n) := by
  simp only [tableNumbered, List.range_succ, List.map_append, List.foldl_append, List.map_cons,
    List.map_nil, List.foldl_cons, List.foldl_nil]

theorem reachable_tableNumbered (cap n : Nat) (hcap : 1 ≤ cap) :
    Reachable (tableNumbered cap n) :=
  reachable_foldl_insert _ _ (Reachable.ctor cap hcap)

theorem not_mem_tableNumbered (cap n : Nat) (hn : n < 2 ^ 32)
    (h : ∀ e ∈ (tableNumbered cap n).entries, ∃ j, j < n ∧ e = credNumbered j) :
    ∀ e ∈ (tableNumbered cap n).entries, e.site ≠ (credNumbered n).site := by
  intro e he hs
  obtain ⟨j, hj, rfl⟩ := h e he
  have : j = n := credNumbered_key_inj j n (by omega) hn
    (by
      simp only [Credential.key, Prod.mk.injEq]
      exact ⟨hs, rfl⟩)
  omega

theorem overLoadFactor_8388609 (i : Nat) (hi : i < 6291457) :
    overLoadFactor ((i : Int) + 1) 8388609 = false := by
  rw [Bool.eq_false_iff, Ne,
    overLoadFactor_small _ _ (by omega) (by norm_num) (by omega) (by norm_num)]
  push_cast
  omega

theorem overLoadFactor_33554442 (i : Nat) (hi : i < 25165830) :
    overLoadFactor ((i : Int) + 1) 33554442 = false := by
  have hb : f32OfNat 33554442 = 33554440 := by decide
  have he := (f32OfNat_err ((i : Int) + 1).toNat).1
  rw [Bool.eq_false_iff, Ne, overLoadFactor_iff _ _ (by omega) (by norm_num), hb]
  omega

/-- The table of 6291456 entries and capacity 8388609 keeps its capacity when
one more credential is inserted, and then holds 6291457 entries. -/
theorem tableLarge_insert :
    tableLarge.capacity = 8388609 ∧ tableLarge.count = 6291456 ∧
    (∀ e ∈ tableLarge.entries, e.site ≠ (credNumbered 6291456).site) ∧
    (tableLarge.insert (credNumbered 6291456)).capacity = 8388609 ∧
    (tableLarge.insert (credNumbered 6291456)).count = 6291457 := by
  have h0 := tableNumbered_fields 8388609 6291456 (by norm_num) (by norm_num)
    (fun i hi => overLoadFactor_8388609 i (by omega))
  have h1 := tableNumbered_fields 8388609 (6291456 + 1) (by norm_num) (by norm_num)
    (fun i hi => overLoadFactor_8388609 i hi)
  rw [tableNumbered_succ] at h1
  exact ⟨h0.1, h0.2.1, not_mem_tableNumbered _ _ (by norm_num) h0.2.2, h1.1, h1.2.1⟩

/-- The table of 25165830 entries and capacity 33554442 is resized when one
more credential is inserted. -/
theorem tableLarger_insert :
    tableLarger.capacity = 33554442 ∧ tableLarger.count = 25165830 ∧
    (∀ e ∈ tableLarger.entries, e.site ≠ (credNumbered 25165830).site) ∧
    2 * 33554442 ≤ (tableLarger.insert (credNumbered 25165830)).capacity := by
  have h0 := tableNumbered_fields 33554442 25165830 (by norm_num) (by norm_num)
    overLoadFactor_33554442
  have hfresh := not_mem_tableNumbered 33554442 25165830 (by norm_num) h0.2.2
  have hinv : Inv tableLarger := (reachable_tableNumbered _ _ (by norm_num)).inv
  have hcap : tableLarger.capacity = 33554442 := h0.1
  have hcount : tableLarger.count = 25165830 := h0.2.1
  refine ⟨hcap, hcount, hfresh, ?_⟩
  rw [insert_capacity_resize hinv (by rw [hcap, hcount]; norm_num) (credNumbered 25165830)
    (fun e he hk => hfresh e he (by
      simp only [Credential.key, Prod.mk.injEq] at hk
      exact hk.1))
    (by rw [hcap, hcount]; decide), hcap]
  exact two_mul_le_nextPrime_toNat 33554442

/-- C16 as stated fails: the table constructed with capacity 8388609 holds
6291456 entries after as many inserts of new pairs; the next insert of a new
pair makes `count / capacity` in binary32 equal to `0.75f`, so that no resize
happens, and completes with `4 * 6291457 > 3 * 8388609`. -/
theorem C16_counterexample :
    Reachable tableLarge ∧
    (tableLarge.insert (credNumbered 6291456)).capacity = 8388609 ∧
    (tableLarge.insert (credNumbered 6291456)).count = 6291457 ∧
    overLoadFactor 6291457 8388609 = false ∧
    ¬ (4 * (tableLarge.insert (credNumbered 6291456)).count ≤
      3 * ((tableLarge.insert (credNumbered 6291456)).capacity : Int)) := by
  have h := tableLarge_insert
  refine ⟨reachable_tableNumbered _ _ (by norm_num), h.2.2.2.1, h.2.2.2.2, by decide, ?_⟩
  rw [h.2.2.2.1, h.2.2.2.2]
  norm_num

/-- C15 as stated fails in both parts.  The table of capacity 8388609 with
6291456 entries has `4 * count <= 3 * capacity`; the insert of a new pair
makes `4 * 6291457 > 3 * 8388609`, and the capacity after the insert is still
8388609, which is not a number from `2 * 8388609` on.  The table of capacity
33554442 with 25165830 entries has `4 * count <= 3 * capacity`; the insert of
a new pair leaves `4 * 25165831 <= 3 * 33554442`, and the capacity after the
insert is at least `2 * 33554442`. -/
theorem C15_counterexample :
    (Reachable tableLarge ∧ 1 ≤ tableLarge.capacity ∧
      4 * tableLarge.count ≤ 3 * (tableLarge.capacity : Int) ∧
      (∀ e ∈ tableLarge.entries, ¬ (e.site = (credNumbered 6291456).site ∧
        e.username = (credNumbered 6291456).username)) ∧
      (tableLarge.insert (credNumbered 6291456)).count = tableLarge.count + 1 ∧
      4 * (tableLarge.count + 1) > 3 * (tableLarge.capacity : Int) ∧
      (tableLarge.insert (credNumbered 6291456)).capacity = tableLarge.capacity ∧
      ¬ (2 * tableLarge.capacity ≤ (tableLarge.insert (credNumbered 6291456)).capacity)) ∧
    (Reachable tableLarger ∧ 1 ≤ tableLarger.capacity ∧
      4 * tableLarger.count ≤ 3 * (tableLarger.capacity : Int) ∧
      (∀ e ∈ tableLarger.entries, ¬ (e.site = (credNumbered 25165830).site ∧
        e.username = (credNumbered 25165830).username)) ∧
      4 * (tableLarger.count + 1) ≤ 3 * (tableLarger.capacity : Int) ∧
      (tableLarger.insert (credNumbered 25165830)).capacity ≠ tableLarger.capacity) := by
  have h := tableLarge_insert
  have g := tableLarger_insert
  refine ⟨⟨reachable_tableNumbered _ _ (by norm_num), ?_, ?_, ?_, ?_, ?_, ?_, ?_⟩,
    ⟨reachable_tableNumbered _ _ (by norm_num), ?_, ?_, ?_, ?_, ?_⟩⟩
  · rw [h.1]; norm_num
  · rw [h.1, h.2.1]; norm_num
  · intro e he hs
    exact h.2.2.1 e he hs.1
  · rw [h.2.2.2.2, h.2.1]; norm_num
  · rw [h.1, h.2.1]; norm_num
  · rw [h.2.2.2.1, h.1]
  · rw [h.2.2.2.1, h.1]; norm_num
  · rw [g.1]; norm_num
  · rw [g.1, g.2.1]; norm_num
  · intro e he hs
    exact g.2.2.1 e he hs.1
  · rw [g.1, g.2.1]; norm_num
  · have := g.2.2.2
    rw [g.1]
    omega

end SecurePass
